import Mathlib

/-!
# Verification of the choir-score preparation pipeline

Shallow embedding of the core modules of the musescore-choir-plugins
repository, together with theorems settling the specification claims.

Conventions used throughout:

* XML element trees are embedded as Lean structures that keep exactly the
  fields the modelled functions read or write; an absent XML child element
  is `Option.none`, an element whose text is absent is modelled as `""`
  whenever the source code treats `None` and `""` alike.
* Python `dict`s are embedded as association lists with in-place overwrite
  (`dinsert`) and first-match lookup (`dget?`), which matches the
  insertion-order/overwrite semantics of CPython dicts.
* Python string primitives (`str.strip`, `str.split`, `str.splitlines`,
  `str.rstrip("-")` …) are embedded as explicit functions over `List Char`;
  whitespace is `Char.isWhitespace` (the source's behaviour on exotic
  Unicode whitespace/digits is outside the scope of every claim).
* Python `int` truncating division of exactly-representable floats is
  embedded as `Int.tdiv` (truncation towards zero); the fractions appearing
  in the modelled code (`4/4`, `17/16`, `1/4` …) are all exact in binary
  floating point.
-/

/-! ## Python dict and string primitives -/

/-- Insert into an association list with CPython dict semantics: if the key is
present, overwrite the value in place (keeping the key's position); otherwise
append the binding at the end. -/
def dinsert {α β : Type} [DecidableEq α] : List (α × β) → α → β → List (α × β)
  | [], k, v => [(k, v)]
  | (k', v') :: rest, k, v =>
      if k' = k then (k, v) :: rest else (k', v') :: dinsert rest k v

/-- Lookup in an association list (first binding wins; `dinsert`-built lists
have unique keys, so this is dict lookup). -/
def dget? {α β : Type} [DecidableEq α] (d : List (α × β)) (k : α) : Option β :=
  (d.find? (fun p => p.1 = k)).map (·.2)

/-- Decimal digits, fuel-driven worker (`fuel > n` always suffices because the
recursion divides by ten). -/
def natDigitsGo : Nat → Nat → List Char
  | 0, _ => []
  | fuel + 1, n =>
      if n < 10 then [Char.ofNat (48 + n)]
      else natDigitsGo fuel (n / 10) ++ [Char.ofNat (48 + n % 10)]

/-- Decimal digits of a natural number, most significant first
(the rendering used by Python string interpolation of an `int`). -/
def natDigits (n : Nat) : List Char := natDigitsGo (n + 1) n

/-- Decimal rendering of a natural number. -/
def renderNat (n : Nat) : String := ⟨natDigits n⟩

/-- Fold a run of decimal digit characters into the number they denote
(the semantics of Python `int` applied to a `\d+` regex group). -/
def parseDigits (cs : List Char) : Nat :=
  cs.foldl (fun a c => a * 10 + (c.toNat - 48)) 0

/-- Python `str.strip()`: drop leading and trailing whitespace. -/
def pyStrip (s : String) : String :=
  ⟨((s.data.dropWhile Char.isWhitespace).reverse.dropWhile Char.isWhitespace).reverse⟩

/-- Split a character list at every character satisfying `p`, keeping empty
segments. -/
def splitChar (p : Char → Bool) : List Char → List (List Char)
  | [] => [[]]
  | c :: cs =>
      let rest := splitChar p cs
      if p c then [] :: rest
      else match rest with
        | [] => [[c]]
        | seg :: segs => (c :: seg) :: segs

/-- Python `str.split()` with no argument: split on whitespace runs and drop
empty pieces. -/
def pySplit (s : String) : List String :=
  ((splitChar Char.isWhitespace s.data).filter (· ≠ [])).map (⟨·⟩)

/-- Python `str.splitlines()` (for strings without `\r`): split on `\n`,
without a trailing empty line. -/
def pySplitlines (s : String) : List String :=
  if s.data = [] then []
  else
    let segs := (splitChar (· = '\n') s.data).map (String.mk ·)
    if s.data.getLast? = some '\n' then segs.dropLast else segs

/-- Python `str.rstrip("-")`: drop all trailing hyphens. -/
def rstripHyphen (s : String) : String :=
  ⟨(s.data.reverse.dropWhile (· = '-')).reverse⟩

/-- Python `str.lstrip("-")`: drop all leading hyphens. -/
def lstripHyphen (s : String) : String :=
  ⟨s.data.dropWhile (· = '-')⟩

/-- Python `str.rstrip()`: drop trailing whitespace. -/
def pyRstrip (s : String) : String :=
  ⟨(s.data.reverse.dropWhile Char.isWhitespace).reverse⟩

/-- Python `"sep".join`, written as explicit recursion. -/
def joinSep (sep : String) : List String → String
  | [] => ""
  | [x] => x
  | x :: xs => x ++ sep ++ joinSep sep xs

/-- Last character of a string (`s.endswith(c)` is `lastChar? s = some c`
for one-character needles). -/
def lastChar? (s : String) : Option Char := s.data.getLast?

/-- First character of a string (`s.startswith(c)` is
`headChar? s = some c` for one-character needles). -/
def headChar? (s : String) : Option Char := s.data.head?

/-- Insert into a sorted list, after existing equal elements
(the step of a stable insertion sort). -/
def insertSorted {α : Type} (lt : α → α → Bool) (x : α) : List α → List α
  | [] => [x]
  | y :: ys => if lt x y then x :: y :: ys else y :: insertSorted lt x ys

/-- Python `sorted(...)`: a stable ascending sort, embedded as insertion
sort. -/
def pySorted {α : Type} (lt : α → α → Bool) (xs : List α) : List α :=
  xs.foldl (fun acc x => insertSorted lt x acc) []

/-- Python `c in s` for a single character. -/
def pyContainsChar (s : String) (c : Char) : Bool := s.data.contains c

/-- Python `s.split(sep)` for a one-character separator: split at every
occurrence, keeping empty pieces. -/
def pySplitOnChar (c : Char) (s : String) : List String :=
  (splitChar (· = c) s.data).map (⟨·⟩)

/-- Python `s.lower()` (ASCII range; the modelled tokens are ASCII). -/
def pyLower (s : String) : String := ⟨s.data.map Char.toLower⟩

/-- Python `int(s)` for an already-stripped string: optional sign followed by
at least one decimal digit (`None` models the `ValueError`). -/
def parseIntPy (s : String) : Option Int :=
  match s.data with
  | [] => none
  | '-' :: ds =>
      if ds ≠ [] ∧ ds.all Char.isDigit then some (-(parseDigits ds : Int)) else none
  | '+' :: ds =>
      if ds ≠ [] ∧ ds.all Char.isDigit then some (parseDigits ds : Int) else none
  | ds =>
      if ds.all Char.isDigit then some (parseDigits ds : Int) else none

/-! ### Basic facts about the primitives -/

theorem toNat_ofNat_ascii (k : Nat) (h : k < 55296) : (Char.ofNat k).toNat = k := by
  have hv : Nat.isValidChar k := Or.inl h
  simp only [Char.ofNat, hv, dif_pos, Char.ofNatAux, Char.toNat, UInt32.toNat,
    BitVec.toNat_ofNatLt]

theorem isDigit_ofNat (k : Nat) (h : k < 10) : (Char.ofNat (48 + k)).isDigit := by
  have h2 : (Char.ofNat (48 + k)).toNat = 48 + k := toNat_ofNat_ascii _ (by omega)
  simp only [Char.toNat, UInt32.toNat] at h2
  simp only [Char.isDigit, ge_iff_le, Bool.and_eq_true, decide_eq_true_eq, UInt32.le_def,
    BitVec.le_def]
  constructor
  · simp_all
  · simp_all
    omega

theorem parseDigits_append (ds : List Char) (c : Char) :
    parseDigits (ds ++ [c]) = parseDigits ds * 10 + (c.toNat - 48) := by
  simp [parseDigits, List.foldl_append]

theorem natDigitsGo_congr (n : Nat) : ∀ f₁ f₂ : Nat, n < f₁ → n < f₂ →
    natDigitsGo f₁ n = natDigitsGo f₂ n := by
  induction n using Nat.strong_induction_on with
  | _ n ih =>
    intro f₁ f₂ h₁ h₂
    match f₁, f₂ with
    | g₁ + 1, g₂ + 1 =>
      rw [natDigitsGo, natDigitsGo]
      by_cases h : n < 10
      · rw [if_pos h, if_pos h]
      · have h10 : n / 10 < n := Nat.div_lt_self (by omega) (by omega)
        rw [if_neg h, if_neg h,
          ih (n / 10) h10 g₁ g₂ (by omega) (by omega)]

/-- The recursive unfolding of `natDigits`. -/
theorem natDigits_eq (n : Nat) : natDigits n =
    if n < 10 then [Char.ofNat (48 + n)]
    else natDigits (n / 10) ++ [Char.ofNat (48 + n % 10)] := by
  rw [natDigits, natDigitsGo]
  by_cases h : n < 10
  · rw [if_pos h, if_pos h]
  · rw [if_neg h, if_neg h, natDigits,
      natDigitsGo_congr (n / 10) n (n / 10 + 1)
        (Nat.div_lt_self (by omega) (by omega)) (by omega)]

theorem parseDigits_natDigits (n : Nat) : parseDigits (natDigits n) = n := by
  induction n using Nat.strong_induction_on with
  | _ n ih =>
    rw [natDigits_eq]
    by_cases h : n < 10
    · rw [if_pos h]
      show parseDigits ([] ++ [Char.ofNat (48 + n)]) = n
      rw [parseDigits_append, toNat_ofNat_ascii _ (by omega)]
      simp only [parseDigits, List.foldl_nil]
      omega
    · rw [if_neg h]
      rw [parseDigits_append, ih (n / 10) (Nat.div_lt_self (by omega) (by omega)),
        toNat_ofNat_ascii _ (by omega)]
      omega

theorem natDigits_ne_nil (n : Nat) : natDigits n ≠ [] := by
  rw [natDigits_eq]
  by_cases h : n < 10
  · rw [if_pos h]; simp
  · rw [if_neg h]; simp

theorem natDigits_isDigit (n : Nat) : ∀ c ∈ natDigits n, c.isDigit := by
  induction n using Nat.strong_induction_on with
  | _ n ih =>
    rw [natDigits_eq]
    by_cases h : n < 10
    · rw [if_pos h]
      intro c hc
      rcases List.mem_singleton.1 hc with rfl
      exact isDigit_ofNat n h
    · rw [if_neg h]
      intro c hc
      rcases List.mem_append.1 hc with h1 | h1
      · exact ih (n / 10) (Nat.div_lt_self (by omega) (by omega)) c h1
      · rcases List.mem_singleton.1 h1 with rfl
        exact isDigit_ofNat _ (Nat.mod_lt _ (by omega))

theorem dget?_dinsert_self {α β : Type} [DecidableEq α] (d : List (α × β)) (k : α) (v : β) :
    dget? (dinsert d k v) k = some v := by
  induction d with
  | nil => simp [dinsert, dget?, List.find?]
  | cons p rest ih =>
    rw [dinsert]
    by_cases h : p.1 = k
    · simp [h, dget?, List.find?]
    · simp only [if_neg h]
      rw [dget?] at ih ⊢
      simp only [List.find?]
      have : (decide (p.1 = k)) = false := by simp [h]
      rw [this]
      exact ih

theorem dget?_dinsert_ne {α β : Type} [DecidableEq α] (d : List (α × β)) (k' k : α) (v : β)
    (h : k' ≠ k) : dget? (dinsert d k' v) k = dget? d k := by
  induction d with
  | nil => simp [dinsert, dget?, List.find?, h]
  | cons p rest ih =>
    rw [dinsert]
    by_cases hp : p.1 = k'
    · subst hp
      simp only [if_pos rfl]
      rw [dget?, dget?]
      simp only [List.find?]
      have : (decide (p.1 = k)) = false := by simp [h]
      rw [this]
    · simp only [if_neg hp]
      rw [dget?, dget?]
      simp only [List.find?]
      cases hd : decide (p.1 = k)
      · rw [dget?] at ih; exact ih
      · rfl

/-! ## `scripts/clean_score` : duration resolver, staff content filter,
part-type inferencer, splitter (`clean_score.py`, `src/utils.py`) -/

namespace clean_score

/-- `src/globals.py`: module-wide resolution (ticks per whole note). -/
def RESOLUTION : Nat := 128

/-- `src/utils.py` `resolve_duration`: the table of named duration types
(`duration_map.get(..., 0)`). -/
def duration_map_get (s : String) : Nat :=
  if s = "whole" then RESOLUTION
  else if s = "half" then RESOLUTION / 2
  else if s = "quarter" then RESOLUTION / 4
  else if s = "eighth" then RESOLUTION / 8
  else if s = "16th" then RESOLUTION / 16
  else if s = "32nd" then RESOLUTION / 32
  else if s = "64th" then RESOLUTION / 64
  else if s = "128th" then RESOLUTION / 128
  else 0

/-- `src/utils.py` `resolve_duration`. A token containing `/` is parsed as a
fraction `N/D` and resolved to `int(RESOLUTION * (N/D))` with the dot count
ignored; malformed fractions resolve to 0 (`ValueError` branch). Other tokens
go through the named-duration table, with each dot adding a further halving
(integer arithmetic). A fraction with denominator 0 raises in the source and
is outside the scope of every claim. -/
def resolve_duration (fraction_or_duration : String) (dots : String) : Int :=
  if pyContainsChar fraction_or_duration '/' then
    match pySplitOnChar '/' fraction_or_duration with
    | [a, b] =>
        match parseIntPy (pyStrip a), parseIntPy (pyStrip b) with
        | some numerator, some denominator => ((RESOLUTION : Int) * numerator).tdiv denominator
        | _, _ => 0
    | _ => 0
  else
    let ret : Nat := duration_map_get (pyLower fraction_or_duration)
    let ret : Nat :=
      if dots = "1" then ret + ret / 2
      else if dots = "2" then ret + (ret / 2) + (ret / 4)
      else if dots = "3" then ret + (ret / 2) + (ret / 4) + (ret / 8)
      else ret
    (ret : Int)

/-- `clean_score.py` `handle_staff` lines 619–625: the voice index removed
from a two-voice measure, given the direction and the measure's
reversed-voices flag. -/
def voice_to_remove (direction : String) (reversed_voices : Bool) : Nat :=
  if reversed_voices then (if direction = "down" then 1 else 0)
  else (if direction = "up" then 1 else 0)

/-! ### Part-type inferencer (`detect_part_types`) -/

/-- Per-staff input to `detect_part_types`: staff id, the text of the first
`concertClefType` element if any, and the pitches of the staff's notes in
document order. -/
structure PStaff where
  id : Int
  concertClefType : Option String
  pitches : List Int
  deriving DecidableEq, Repr

/-- The per-staff record built by `detect_part_types`. -/
structure PartInfo where
  clef_type : String
  highest_note : Option Int
  lowest_note : Option Int
  part_name : String
  part_slug : String
  part_index : Nat
  deriving DecidableEq, Repr

/-- Effective clef type: the stripped `concertClefType` text, defaulting
to `"G"` when the element is absent. -/
def effClef (st : PStaff) : String :=
  match st.concertClefType with
  | none => "G"
  | some s => pyStrip s

/-- Highest pitch over the staff's notes (the first fold of
`detect_part_types`). -/
def highestOf (st : PStaff) : Option Int :=
  st.pitches.foldl
    (fun acc p => match acc with
      | none => some p
      | some h => if p > h then some p else some h)
    none

/-- Lowest pitch over the staff's notes. -/
def lowestOf (st : PStaff) : Option Int :=
  st.pitches.foldl
    (fun acc p => match acc with
      | none => some p
      | some l => if p < l then some p else some l)
    none

/-- The classification chain of `detect_part_types` (lines 64–89): given the
effective clef type, extreme pitches and whether a Soprano staff was already
classified, produce the part name and (possibly rewritten) clef type. -/
def classify_staff (clef_type : String) (lowest_note highest_note : Option Int)
    (soprano_seen : Bool) : String × String :=
  if clef_type = "F" then
    if (match lowest_note with | some l => l < 43 | none => False : Bool) then ("Bass", "F")
    else if (match highest_note with | some h => h > 65 | none => False : Bool) then
      ("Tenor", "F")
    else ("", "F")
  else if clef_type = "G" then
    let first : String × String :=
      if (match lowest_note with | some l => l < 55 | none => False : Bool) then
        ("Tenor", "G8vb")
      else ("", "G")
    if (match highest_note with | some h => h > 72 | none => False : Bool) then
      ("Soprano", "G")
    else if (match highest_note with | some h => h > 68 | none => False : Bool)
        ∧ soprano_seen then ("Alto", "G")
    else first
  else ("", clef_type)

/-- Python `name[0] if name else ""`. -/
def strHead (s : String) : String := ⟨s.data.take 1⟩

/-- One step of the `detect_part_types` staff loop: build this staff's
`PartInfo` given the records accumulated so far. -/
def mkPartInfo (st : PStaff) (acc : List (Int × PartInfo)) : PartInfo :=
  let soprano_seen := acc.any (fun p => p.2.part_name = "Soprano")
  let (part_name, clef_type) := classify_staff (effClef st) (lowestOf st) (highestOf st)
    soprano_seen
  { clef_type := clef_type
    highest_note := highestOf st
    lowest_note := lowestOf st
    part_name := part_name
    part_slug := strHead part_name
    part_index := 0 }

/-- The staff loop of `detect_part_types`. -/
def detect_go (acc : List (Int × PartInfo)) : List PStaff → List (Int × PartInfo)
  | [] => acc
  | st :: rest => detect_go (dinsert acc st.id (mkPartInfo st acc)) rest

/-- In-place update of an existing dict entry
(`part_info[staff_id]["part_index"] = index`). -/
def dupdateIndex (d : List (Int × PartInfo)) (k : Int) (idx : Nat) :
    List (Int × PartInfo) :=
  d.map (fun p => if p.1 = k then (p.1, { p.2 with part_index := idx }) else p)

/-- The part-index pass of `detect_part_types` (lines 99–107): walk staff ids
in ascending order, assigning a 1-based counter that restarts when the part
name changes (with the source's quirk that an empty previous name never
triggers a restart). -/
def partIndexStep (s : Nat × Option String × List (Int × PartInfo)) (staff_id : Int) :
    Nat × Option String × List (Int × PartInfo) :=
  let (index, prev_part_name, dict) := s
  match dget? dict staff_id with
  | none => s
  | some info =>
      let index :=
        match prev_part_name with
        | some p => if p ≠ "" ∧ info.part_name ≠ p then 1 else index
        | none => index
      (index + 1, some info.part_name, dupdateIndex dict staff_id index)

def apply_part_index (d : List (Int × PartInfo)) : List (Int × PartInfo) :=
  let sorted := pySorted (· < ·) (d.map (·.1))
  (sorted.foldl partIndexStep (1, none, d)).2.2

/-- `clean_score.py` `detect_part_types` (lines 21–110). -/
def detect_part_types (staffs : List PStaff) : List (Int × PartInfo) :=
  apply_part_index (detect_go [] staffs)

end clean_score

/-! ### Claim C2 — voice index deleted by the Staff Content Filter -/

/-- **C2, counterexample.** The claim states the filter deletes voice index 1
for direction `"down"` on a non-reversed measure; the code (consistently with
its own docstring, which calls the argument "the direction to *keep*") deletes
voice index 0 there. -/
theorem c2_counterexample :
    clean_score.voice_to_remove ("down") false = 0 ∧
    ¬ clean_score.voice_to_remove ("down") false = 1 := by
  decide

/-- **C2, amended.** The voice index deleted is 0 for `"down"` unless the
measure is flagged reversed (then 1), and vice versa for `"up"` (delete 1
when not reversed, 0 when reversed). -/
theorem c2_voice_to_remove :
    clean_score.voice_to_remove ("down") false = 0 ∧
    clean_score.voice_to_remove ("down") true = 1 ∧
    clean_score.voice_to_remove ("up") false = 1 ∧
    clean_score.voice_to_remove ("up") true = 0 := by
  decide

/-! ### Claim C5 — dotted durations in the Duration Resolver -/

/-- **C5, counterexample.** For the literal fraction token `"1/4"` with one
dot the claim requires 48 ticks (base 32 plus half), but the fraction branch
of `resolve_duration` ignores the dot count and returns 32. -/
theorem c5_counterexample :
    clean_score.resolve_duration ("1/4") ("1") = 32 ∧
    ¬ clean_score.resolve_duration ("1/4") ("1") = 48 := by
  decide

/-- **C5, amended.** For the named duration tokens whose base value is a
multiple of 8 at resolution 128 (`whole` … `16th`), one/two/three dots add
exactly one half, three quarters, seven eighths of the undotted base value
(stated multiplicatively to avoid fractions); for every literal fraction
token, the dot count is ignored. -/
theorem c5_amended :
    (∀ tok ∈ (["whole", "half", "quarter", "eighth", "16th"] : List String),
      2 * clean_score.resolve_duration tok ("1") =
          3 * clean_score.resolve_duration tok ("0") ∧
      4 * clean_score.resolve_duration tok ("2") =
          7 * clean_score.resolve_duration tok ("0") ∧
      8 * clean_score.resolve_duration tok ("3") =
          15 * clean_score.resolve_duration tok ("0")) ∧
    (∀ s dots, pyContainsChar s '/' →
      clean_score.resolve_duration s dots = clean_score.resolve_duration s ("0")) := by
  constructor
  · intro tok htok
    simp only [List.mem_cons, List.not_mem_nil, or_false] at htok
    rcases htok with rfl | rfl | rfl | rfl | rfl <;> refine ⟨by decide, by decide, by decide⟩
  · intro s dots h
    simp only [clean_score.resolve_duration, h, if_true]

/-- **C5, witness.** -/
theorem c5_witness :
    2 * clean_score.resolve_duration ("quarter") ("1") =
        3 * clean_score.resolve_duration ("quarter") ("0") ∧
    clean_score.resolve_duration ("3/8") ("2") = clean_score.resolve_duration ("3/8") ("0") :=
  ⟨(c5_amended.1 ("quarter") (by decide)).1, c5_amended.2 ("3/8") ("2") (by decide)⟩

/-! ### Claim C6 — part-type inference for F-clef staves -/

namespace clean_score

theorem dget?_map_keyfix (d : List (Int × PartInfo)) (f : Int × PartInfo → Int × PartInfo)
    (hf1 : ∀ p, (f p).1 = p.1) (hf2 : ∀ p, (f p).2.part_name = p.2.part_name) (k : Int) :
    (dget? (d.map f) k).map (fun p => p.part_name) =
      (dget? d k).map (fun p => p.part_name) := by
  induction d with
  | nil => rfl
  | cons p rest ih =>
    rw [List.map_cons, dget?, dget?]
    simp only [List.find?]
    rw [hf1 p]
    cases hd : decide (p.1 = k) with
    | false =>
      rw [dget?, dget?] at ih
      exact ih
    | true => simp [hf2]

theorem dget?_dupdateIndex_map_name (d : List (Int × PartInfo)) (k' : Int) (idx : Nat)
    (k : Int) :
    (dget? (dupdateIndex d k' idx) k).map (fun p => p.part_name) =
      (dget? d k).map (fun p => p.part_name) := by
  refine dget?_map_keyfix d _ ?_ ?_ k
  · intro p
    by_cases h : p.1 = k' <;> simp [h]
  · intro p
    by_cases h : p.1 = k' <;> simp [h]

theorem dget?_apply_part_index_map_name (d : List (Int × PartInfo)) (k : Int) :
    (dget? (apply_part_index d) k).map (fun p => p.part_name) =
      (dget? d k).map (fun p => p.part_name) := by
  rw [apply_part_index]
  generalize pySorted (· < ·) (d.map (·.1)) = keys
  suffices h : ∀ (s : Nat × Option String × List (Int × PartInfo)),
      (∀ k', (dget? s.2.2 k').map (fun p => p.part_name) =
        (dget? d k').map (fun p => p.part_name)) →
      ∀ k', (dget? (keys.foldl partIndexStep s).2.2 k').map (fun p => p.part_name) =
        (dget? d k').map (fun p => p.part_name) by
    exact h (1, none, d) (fun _ => rfl) k
  induction keys with
  | nil => intro s hs k'; exact hs k'
  | cons x xs ih =>
    intro s hs k'
    rw [List.foldl_cons]
    refine ih _ ?_ k'
    intro k''
    rcases s with ⟨index, prev, dict⟩
    rw [partIndexStep]
    cases h : dget? dict x with
    | none => exact hs k''
    | some info =>
      simp only
      rw [dget?_dupdateIndex_map_name]
      exact hs k''

theorem dget?_detect_go_preserve (acc : List (Int × PartInfo)) (staffs : List PStaff)
    (k : Int) (h : ∀ st ∈ staffs, st.id ≠ k) :
    dget? (detect_go acc staffs) k = dget? acc k := by
  induction staffs generalizing acc with
  | nil => rfl
  | cons st rest ih =>
    rw [detect_go]
    rw [ih _ (fun s hs => h s (List.mem_cons_of_mem _ hs))]
    exact dget?_dinsert_ne _ _ _ _ (h st (List.mem_cons_self _ _))

theorem dget?_detect_go (acc : List (Int × PartInfo)) (staffs : List PStaff)
    (st : PStaff) (hmem : st ∈ staffs) (hnodup : (staffs.map PStaff.id).Nodup) :
    ∃ acc', dget? (detect_go acc staffs) st.id = some (mkPartInfo st acc') := by
  induction staffs generalizing acc with
  | nil => cases hmem
  | cons hd rest ih =>
    rw [List.map_cons, List.nodup_cons] at hnodup
    rw [detect_go]
    rcases List.mem_cons.1 hmem with rfl | hmem'
    · refine ⟨acc, ?_⟩
      have hne : ∀ s ∈ rest, s.id ≠ st.id := by
        intro s hs heq
        exact hnodup.1 (heq ▸ List.mem_map_of_mem PStaff.id hs)
      rw [dget?_detect_go_preserve _ _ _ hne]
      exact dget?_dinsert_self _ _ _
    · exact ih _ hmem' hnodup.2

theorem mkPartInfo_name_bass (st : PStaff) (acc : List (Int × PartInfo))
    (hclef : effClef st = "F") (l : Int) (hl : lowestOf st = some l) (hlt : l < 43) :
    (mkPartInfo st acc).part_name = "Bass" := by
  rw [mkPartInfo, hclef, hl]
  simp only [classify_staff, if_pos rfl]
  simp [hlt]

theorem mkPartInfo_name_tenor (st : PStaff) (acc : List (Int × PartInfo))
    (hclef : effClef st = "F")
    (hlow : ∀ l, lowestOf st = some l → ¬ l < 43)
    (h : Int) (hh : highestOf st = some h) (hgt : h > 65) :
    (mkPartInfo st acc).part_name = "Tenor" := by
  rw [mkPartInfo, hclef, hh]
  simp only [classify_staff, if_pos rfl]
  cases hl : lowestOf st with
  | none => simp [hgt]
  | some l =>
    have := hlow l hl
    simp [this, hgt]

end clean_score

/-- **C6, counterexample.** A staff with concert clef `"F"` whose only note
has pitch 45 (so its minimum observed pitch is below 50): the claim requires
the label `"Bass"`, but `detect_part_types` uses the threshold 43 (as its own
comment states) and leaves the staff unlabelled. -/
theorem c6_counterexample :
    (dget? (clean_score.detect_part_types [⟨1, some ("F"), [45]⟩]) 1).map
        (fun p => p.part_name) = some ("") ∧
    ¬ (dget? (clean_score.detect_part_types [⟨1, some ("F"), [45]⟩]) 1).map
        (fun p => p.part_name) = some ("Bass") := by
  decide

/-- **C6, amended.** For every staff list with distinct ids: a staff whose
effective concert clef type is `"F"` and whose minimum observed pitch is
below 43 is labelled `"Bass"`; one whose minimum is not below 43 but whose
maximum observed pitch exceeds 65 is labelled `"Tenor"`. -/
theorem c6_amended (staffs : List clean_score.PStaff) (st : clean_score.PStaff)
    (hmem : st ∈ staffs) (hids : (staffs.map clean_score.PStaff.id).Nodup)
    (hclef : clean_score.effClef st = "F") :
    ((∃ l, clean_score.lowestOf st = some l ∧ l < 43) →
      (dget? (clean_score.detect_part_types staffs) st.id).map (fun p => p.part_name) =
        some ("Bass")) ∧
    ((∀ l, clean_score.lowestOf st = some l → ¬ l < 43) →
      (∃ h, clean_score.highestOf st = some h ∧ h > 65) →
      (dget? (clean_score.detect_part_types staffs) st.id).map (fun p => p.part_name) =
        some ("Tenor")) := by
  obtain ⟨acc', hacc⟩ := clean_score.dget?_detect_go [] staffs st hmem hids
  constructor
  · rintro ⟨l, hl, hlt⟩
    rw [clean_score.detect_part_types, clean_score.dget?_apply_part_index_map_name, hacc]
    simp [clean_score.mkPartInfo_name_bass st acc' hclef l hl hlt]
  · rintro hlow ⟨h, hh, hgt⟩
    rw [clean_score.detect_part_types, clean_score.dget?_apply_part_index_map_name, hacc]
    simp [clean_score.mkPartInfo_name_tenor st acc' hclef hlow h hh hgt]

/-- **C6, witness.** -/
theorem c6_witness :
    (dget? (clean_score.detect_part_types [⟨1, some ("F"), [40, 70]⟩]) 1).map
        (fun p => p.part_name) = some ("Bass") :=
  (c6_amended [⟨1, some ("F"), [40, 70]⟩] ⟨1, some ("F"), [40, 70]⟩ (by decide) (by decide)
    (by decide)).1 ⟨40, by decide, by decide⟩

/-! ## `scripts/clean_score/src/corrupted_measures.py` — corrupted-measure
repairer (claims C3, C4)

The collection pass of `preprocess_corrupted_measures` resets `voice_index`
to `-1` *inside* the voice loop (lines 59–61), so every voice of a measure is
recorded under index 0 and their element dictionaries merge (later voices
overwrite earlier ones at equal time positions).  The embedding reproduces
this faithfully; element identities are positional triples
`(staffPos, voicePos, elemPos)` into the original document, standing for the
`lxml` object identities the source manipulates. -/

namespace corrupted_measures

open clean_score (RESOLUTION resolve_duration)

/-- A voice element of the corrupted-measure pass: only the fields the pass
reads are kept (`durationType`/`dots` texts for Chord and Rest, `sigN`/`sigD`
for TimeSig, `fractions` for location). -/
inductive CElem where
  | chord (durationType : Option String) (dots : Option String)
  | rest (durationType : Option String) (dots : Option String)
  | timeSig (sigN sigD : Option String)
  | location (fractions : Option String)
  | other
  deriving DecidableEq, Repr

/-- The time advanced past an element (lines 77–91). -/
def elemTick (el : CElem) : Int :=
  match el with
  | .chord dt dots => resolve_duration (dt.getD ("0")) (dots.getD ("0"))
  | .rest dt dots => resolve_duration (dt.getD ("0")) (dots.getD ("0"))
  | .location fr => match fr with
      | some f => resolve_duration f ("0")
      | none => 0
  | _ => 0

/-- A measure: optional `len` attribute and the voices' element lists. -/
structure CMeasure where
  len : Option String
  voices : List (List CElem)
  deriving DecidableEq, Repr

structure CStaff where
  id : Int
  measures : List CMeasure
  deriving DecidableEq, Repr

/-- The merged per-measure element record (all voices land on voice index 0,
see the header comment): the time-position dictionary and `max_time_pos`. -/
structure MergedVoice where
  elements : List (Int × Option ((Nat × Nat) × CElem))
  max_time_pos : Int
  deriving DecidableEq, Repr

/-- One entry of `problem_measures[measure_index]`. -/
structure ProblemEntry where
  staffPos : Nat
  measureIdx : Nat
  time_sig : Option String
  merged : Option MergedVoice
  deriving DecidableEq, Repr

/-- `defaultdict(list)` append. -/
def dappend {α : Type} : List (Nat × List α) → Nat → α → List (Nat × List α)
  | [], k, v => [(k, [v])]
  | (k', vs) :: rest, k, v =>
      if k' = k then (k, vs ++ [v]) :: rest else (k', vs) :: dappend rest k v

/-- Walk one voice's elements, merging into the shared dictionary and
updating `max_time_pos` (lines 72–106). -/
def collectVoice (vIdx : Nat) : List CElem → Nat → Int →
    List (Int × Option ((Nat × Nat) × CElem)) → Int →
    List (Int × Option ((Nat × Nat) × CElem)) × Int
  | [], _, tp, d, maxTp => (dinsert d tp none, maxTp)
  | el :: rest, eIdx, tp, d, maxTp =>
      let d := dinsert d tp (some ((vIdx, eIdx), el))
      let tp' := tp + elemTick el
      collectVoice vIdx rest (eIdx + 1) tp' d (max maxTp tp')

/-- Merge all voices of a flagged measure into the single voice-index-0
record (the `voice_index` reset bug). -/
def collectMeasure (voices : List (List CElem)) : Option MergedVoice :=
  (voices.enum.foldl
    (fun acc (p : Nat × List CElem) =>
      let (d0, m0) := match acc with
        | some mv => (mv.elements, mv.max_time_pos)
        | none => ([], 0)
      let (d, m) := collectVoice p.1 p.2 0 0 d0 m0
      some ⟨d, m⟩)
    none)

/-- Track the time signature in force (lines 33–43): the first `TimeSig`
element of the measure updates it when both `sigN` and `sigD` texts exist. -/
def measureTimeSig (time_sig : Option String) (m : CMeasure) : Option String :=
  match m.voices.flatten.find? (fun el => match el with | .timeSig _ _ => true | _ => false) with
  | some el =>
      match el with
      | .timeSig (some sN) (some sD) => some (sN ++ ("/") ++ sD)
      | _ => time_sig
  | none => time_sig

/-- The collection pass: `problem_measures` as a measure-index-keyed dict of
per-staff entries. -/
def collectProblems (doc : List CStaff) : List (Nat × List ProblemEntry) :=
  (doc.enum.foldl
    (fun acc (sp : Nat × CStaff) =>
      ((sp.2.measures.enum.foldl
        (fun (st : Option String × List (Nat × List ProblemEntry)) (mp : Nat × CMeasure) =>
          let ts := measureTimeSig st.1 mp.2
          let flag := match mp.2.len with
            | some s => pyContainsChar s '/'
            | none => false
          if flag then
            (ts, dappend st.2 mp.1 ⟨sp.1, mp.1, ts, collectMeasure mp.2.voices⟩)
          else (ts, st.2))
        (none, acc)).2))
    [])

/-- The `possible_to_fix` pre-check for one merged voice (lines 118–131):
voices shorter than the longest are ignored; otherwise the second-to-last
dictionary value must be a Rest. -/
def lastCheckOk (mv : MergedVoice) (globalMax : Int) : Bool :=
  if mv.max_time_pos < globalMax then true
  else
    let vals := mv.elements.map (·.2)
    if vals.length < 2 then false
    else match vals[vals.length - 2]? with
      | some (some (_, CElem.rest _ _)) => true
      | _ => false

def possible_to_fix (entries : List ProblemEntry) : Bool :=
  let globalMax := entries.foldl
    (fun a e => match e.merged with | some mv => max a mv.max_time_pos | none => a) 0
  entries.all (fun e => match e.merged with
    | some mv => lastCheckOk mv globalMax
    | none => true)

/-- Lines 137–145: the correct measure length in ticks.  The source computes
the float `RESOLUTION * (sigN / sigD)`; the embedding carries the exact
rational as an unreduced numerator/denominator pair (the signature fractions
in scope are exact in binary floating point); 0 (as `(0, 1)`) when no time
signature was ever seen.  A malformed signature string raises in the source
and is outside the scope of every claim. -/
def correct_measure_len (time_sig : Option String) : Int × Int :=
  match time_sig with
  | none => (0, 1)
  | some s =>
      if pyContainsChar s '/' then
        match pySplitOnChar '/' s with
        | [a, b] =>
            match parseIntPy (pyStrip a), parseIntPy (pyStrip b) with
            | some sig_n, some sig_d => ((RESOLUTION : Int) * sig_n, sig_d)
            | _, _ => (0, 1)
        | _ => (0, 1)
      else
        match parseIntPy (pyStrip s) with
        | some n => (n * (RESOLUTION : Int), 1)
        | none => (0, 1)

/-- `time_pos == correct_measure_len` on the exact rational. -/
def cmlEq (tp : Int) (cml : Int × Int) : Bool := tp * cml.2 = cml.1

/-- `time_pos > correct_measure_len` on the exact rational
(sign-aware cross-multiplication). -/
def cmlLtTp (cml : Int × Int) (tp : Int) : Bool :=
  (decide (0 < cml.2) && decide (cml.1 < tp * cml.2)) ||
    (decide (cml.2 < 0) && decide (tp * cml.2 < cml.1))

/-- `correct_measure_len - time_pos <= 0` on the exact rational. -/
def cmlLeTp (cml : Int × Int) (tp : Int) : Bool :=
  (decide (0 < cml.2) && decide (cml.1 ≤ tp * cml.2)) ||
    (decide (cml.2 < 0) && decide (tp * cml.2 ≤ cml.1))

/-- `int(time_pos - correct_measure_len)`: Python `int()` truncates the exact
difference towards zero. -/
def intTpSubCml (tp : Int) (cml : Int × Int) : Int :=
  (tp * cml.2 - cml.1).tdiv cml.2

/-- `int(correct_measure_len - time_pos)`. -/
def intCmlSubTp (cml : Int × Int) (tp : Int) : Int :=
  (cml.1 - tp * cml.2).tdiv cml.2

/-- `src/utils.py` `get_rest_length`. -/
def get_rest_length (el : CElem) (tick_diff : Int) : Int :=
  match el with
  | .chord (some dt) dots => resolve_duration dt (dots.getD ("0")) - tick_diff
  | .rest (some dt) dots => resolve_duration dt (dots.getD ("0")) - tick_diff
  | _ => 0

/-- Accumulated repair operations for a measure. -/
structure FixAcc where
  removals : List (Nat × Nat × Nat)
  shortens : List ((Nat × Nat × Nat) × Int)
  deriving DecidableEq, Repr

def isChordTag (el : Option ((Nat × Nat) × CElem)) : Bool :=
  match el with | some (_, .chord _ _) => true | _ => false

/-- The per-voice repair walk (lines 154–252).  `none` models
`cant_fix_current_measure`. -/
def fixVoiceWalk (staffPos : Nat) (cml : Int × Int) :
    List (Int × Option ((Nat × Nat) × CElem)) →
    Option ((Nat × Nat) × CElem) → Option ((Nat × Nat) × CElem) →
    Bool → FixAcc → Option FixAcc
  | [], _, _, _, acc => some acc
  | (tp, element) :: rest, prev_el, prev_prev_el, remove_rest, acc =>
      if remove_rest then
        if isChordTag element then none
        else
          let acc := match element with
            | some (id2, _) => { acc with removals := acc.removals ++ [(staffPos, id2.1, id2.2)] }
            | none => acc
          fixVoiceWalk staffPos cml rest prev_el prev_prev_el true acc
      else if element.isSome && cmlEq tp cml then
        if isChordTag element then none
        else
          let acc := match element with
            | some (id2, _) => { acc with removals := acc.removals ++ [(staffPos, id2.1, id2.2)] }
            | none => acc
          fixVoiceWalk staffPos cml rest prev_el prev_prev_el true acc
      else if cmlLtTp cml tp then
        match prev_el with
        | none => none
        | some (pid, pel) =>
            if isChordTag (some (pid, pel)) then none
            else
              let acc' : Option FixAcc :=
                if cmlLeTp cml tp then
                  let acc := { acc with removals := acc.removals ++ [(staffPos, pid.1, pid.2)] }
                  match prev_prev_el with
                  | some (ppid, ppel) =>
                      match ppel with
                      | .rest _ _ => some { acc with shortens := acc.shortens ++
                          [((staffPos, ppid.1, ppid.2),
                            get_rest_length ppel (intTpSubCml tp cml))] }
                      | _ => none
                  | none => some acc
                else
                  some { acc with shortens := acc.shortens ++
                      [((staffPos, pid.1, pid.2), intCmlSubTp cml tp)] }
              match acc' with
              | none => none
              | some acc2 =>
                  if isChordTag element then none
                  else
                    let acc3 := match element with
                      | some (id2, _) =>
                          { acc2 with removals := acc2.removals ++ [(staffPos, id2.1, id2.2)] }
                      | none => acc2
                    fixVoiceWalk staffPos cml rest prev_el prev_prev_el true acc3
      else
        fixVoiceWalk staffPos cml rest element prev_el remove_rest acc

/-- Walk all staff entries of a flagged measure, threading the accumulator;
`none` when any voice is unfixable. -/
def fixStaffs (cml : Int × Int) : List ProblemEntry → FixAcc → Option FixAcc
  | [], acc => some acc
  | e :: rest, acc =>
      match e.merged with
      | none => fixStaffs cml rest acc
      | some mv =>
          match fixVoiceWalk e.staffPos cml mv.elements none none false acc with
          | none => none
          | some acc' => fixStaffs cml rest acc'

def fixMeasure (entries : List ProblemEntry) : Option FixAcc :=
  let cml := correct_measure_len (match entries with
    | e :: _ => e.time_sig
    | [] => none)
  fixStaffs cml entries ⟨[], []⟩

/-- `src/utils.py` `shorten_rest_to` `BASE_NOTE_VALUES`, with the float
values already multiplied by the resolution 128 and truncated to int
(`int(value * RESOLUTION)`). -/
def BASE_NOTE_VALUES : List (String × List Int) :=
  [(("whole"), [128, 192, 224, 240]),
   (("half"), [64, 96, 112, 120]),
   (("quarter"), [32, 48, 56, 60]),
   (("eighth"), [16, 24, 28, 30]),
   (("16th"), [8, 12, 14, 15]),
   (("32nd"), [4, 6, 7, 7]),
   (("64th"), [2, 3, 3, 3])]

/-- First `(note_type, dot count)` whose tick value matches the target. -/
def findNoteSize (target : Int) : List (String × List Int) → Option (String × Nat)
  | [] => none
  | (nt, vals) :: rest =>
      match vals.findIdx? (· = target) with
      | some i => some (nt, i)
      | none => findNoteSize target rest

/-- `src/utils.py` `shorten_rest_to`: `none` means the element is removed
from its parent; an element without a `durationType` child, or a target with
no table entry, is left unchanged (warning only). -/
def shorten_rest_to (el : CElem) (new_duration_in_ticks : Int) : Option CElem :=
  let dt : Option String := match el with
    | .chord dt _ => dt
    | .rest dt _ => dt
    | _ => none
  match dt with
  | none => some el
  | some _ =>
      if new_duration_in_ticks = 0 then none
      else
        match findNoteSize new_duration_in_ticks BASE_NOTE_VALUES with
        | none => some el
        | some (note_type, i) =>
            let dots' : Option String := if i > 0 then some (renderNat i) else none
            match el with
            | .chord _ _ => some (.chord (some note_type) dots')
            | .rest _ _ => some (.rest (some note_type) dots')
            | _ => some el

/-- Apply the accumulated operations to the document: shortened elements are
rewritten (or removed when shortened to zero), removed elements are dropped,
and the `len` attribute is deleted from every flagged measure whose fix
removed elements. -/
def applyOps (doc : List CStaff) (shortens : List ((Nat × Nat × Nat) × Int))
    (removals : List (Nat × Nat × Nat)) (lenRems : List (Nat × Nat)) : List CStaff :=
  doc.enum.map (fun (sp : Nat × CStaff) =>
    { sp.2 with measures := sp.2.measures.enum.map (fun (mp : Nat × CMeasure) =>
        { len := if (sp.1, mp.1) ∈ lenRems then none else mp.2.len
          voices := mp.2.voices.enum.map (fun (vp : Nat × List CElem) =>
            vp.2.enum.filterMap (fun (ep : Nat × CElem) =>
              let id := (sp.1, vp.1, ep.1)
              if id ∈ removals then none
              else match shortens.find? (fun q => q.1 = id) with
                | some q => shorten_rest_to ep.2 q.2
                | none => some ep.2)) }) })

/-- `preprocess_corrupted_measures` (lines 19–288). -/
def preprocess_corrupted_measures (doc : List CStaff) : List CStaff :=
  let problems := collectProblems doc
  let ops := problems.foldl
    (fun (acc : FixAcc × List (Nat × Nat)) (p : Nat × List ProblemEntry) =>
      if possible_to_fix p.2 then
        match fixMeasure p.2 with
        | none => acc
        | some fa =>
            let accL := if fa.removals ≠ [] then
                acc.2 ++ p.2.map (fun e => (e.staffPos, e.measureIdx))
              else acc.2
            (⟨acc.1.removals ++ fa.removals, acc.1.shortens ++ fa.shortens⟩, accL)
      else acc)
    (⟨[], []⟩, [])
  applyOps doc ops.1.shortens ops.1.removals ops.2

/-- Resolved total duration of a voice (sum of element ticks). -/
def voiceDuration (els : List CElem) : Int :=
  els.foldl (fun a el => a + elemTick el) 0

end corrupted_measures

namespace corrupted_measures

/-- C3's failing input: one staff, one measure declared `len="17/16"` under a
4/4 time signature, whose voice ends in a Rest that covers the overshoot by
straddling the 4/4 boundary (rests half + quarter + 16th + quarter: the final
quarter rest spans ticks 104–136 across the boundary at 128). -/
def c3_failing_doc : List CStaff :=
  [⟨1, [⟨some ("17/16"),
    [[CElem.timeSig (some ("4")) (some ("4")),
      CElem.rest (some ("half")) none,
      CElem.rest (some ("quarter")) none,
      CElem.rest (some ("16th")) none,
      CElem.rest (some ("quarter")) none]]⟩]⟩]

/-- C4's failing input: one staff, one measure declared `len="17/16"` under
4/4, with two voices.  Voice 0 is unfixable by the claim's own criterion (the
element at the 4/4 boundary, the quarter chord starting at tick 128, is a
Chord); voice 1 ends in a removable quarter rest at the boundary. -/
def c4_failing_doc : List CStaff :=
  [⟨1, [⟨some ("17/16"),
    [[CElem.timeSig (some ("4")) (some ("4")),
      CElem.chord (some ("whole")) none,
      CElem.chord (some ("quarter")) none],
     [CElem.rest (some ("whole")) none,
      CElem.rest (some ("quarter")) none]]⟩]⟩]

end corrupted_measures

/-- **C3** (code bug, evaluation at the failing input).  On a measure
declared `17/16` under 4/4 whose final Rest straddles the 4/4 boundary, the
claim (and §4.2 of the spec, and the source's own comment "We need to shorten
the previous rest") requires the straddling rest to be shortened so that the
voice resolves to exactly 128 ticks.  The repairer instead removes the
straddling rest entirely and shortens the rest before it by the overshoot
(the intended shortening branch is unreachable because
`correct_measure_len - time_pos <= 0` always holds once
`time_pos > correct_measure_len`), leaving the voice at 96 ticks. -/
theorem c3_code_divergence :
    corrupted_measures.preprocess_corrupted_measures corrupted_measures.c3_failing_doc =
      [⟨1, [⟨none,
        [[corrupted_measures.CElem.timeSig (some ("4")) (some ("4")),
          corrupted_measures.CElem.rest (some ("half")) none,
          corrupted_measures.CElem.rest (some ("quarter")) none]]⟩]⟩] ∧
    ((corrupted_measures.preprocess_corrupted_measures
        corrupted_measures.c3_failing_doc).map
      (fun st => st.measures.map (fun m => m.voices.map corrupted_measures.voiceDuration)))
      = [[[96]]] ∧
    ¬ ((corrupted_measures.preprocess_corrupted_measures
        corrupted_measures.c3_failing_doc).map
      (fun st => st.measures.map (fun m => m.voices.map corrupted_measures.voiceDuration)))
      = [[[128]]] := by
  decide

/-- **C4** (code bug, evaluation at the failing input).  Voice 0 of the
flagged measure has a Chord at the 4/4 boundary, so by the claim (and the
spec: "A fix is applied only when every voice in every staff for that measure
can be resolved; otherwise none are touched") nothing in the measure may be
removed or shortened and `len` must stay.  Because the collection pass resets
`voice_index` inside the voice loop, the two voices are merged under index 0
and voice 1's elements mask voice 0's at equal time positions: the repairer
deletes voice 1's final rest and strips the `len` attribute while voice 0
keeps its over-long chords. -/
theorem c4_code_divergence :
    corrupted_measures.preprocess_corrupted_measures corrupted_measures.c4_failing_doc =
      [⟨1, [⟨none,
        [[corrupted_measures.CElem.timeSig (some ("4")) (some ("4")),
          corrupted_measures.CElem.chord (some ("whole")) none,
          corrupted_measures.CElem.chord (some ("quarter")) none],
         [corrupted_measures.CElem.rest (some ("whole")) none]]⟩]⟩] ∧
    ¬ corrupted_measures.preprocess_corrupted_measures corrupted_measures.c4_failing_doc =
      corrupted_measures.c4_failing_doc := by
  decide

/-! ## `clean_score.py` `main` lines 1360–1473 — Part/Staff Splitter
(claims C7, C8)

`root.findall(".//Staff")` returns the Part staff-stubs followed by the
`Score/Staff` elements (parts and staves are listed twice in the host
format); both are renumbered by the same walk. -/

namespace clean_score

/-- A staff element as seen by the splitter: its id attribute and, per
measure, the number of `voice` descendants. -/
structure SStaff where
  id : Int
  measureVoiceCounts : List Nat
  deriving DecidableEq, Repr

/-- A Part element: only its staff-stub matters to the splitter (`main`
raises on a Part without one — a structural error outside claim scope). -/
structure SPart where
  stub : SStaff
  deriving DecidableEq, Repr

structure SDoc where
  parts : List SPart
  staffs : List SStaff
  deriving DecidableEq, Repr

/-- `root.findall(".//Staff")` in document order: the Part stubs, then the
Score staves. -/
def allStaffElems (doc : SDoc) : List SStaff :=
  doc.parts.map (·.stub) ++ doc.staffs

/-- Membership in `staffs_to_split` (lines 1371–1380): some staff element
with this original id has a measure with more than one voice. -/
def staffNeedsSplit (doc : SDoc) (orig : Int) : Bool :=
  (allStaffElems doc).any
    (fun st => decide (st.id = orig) && st.measureVoiceCounts.any (fun c => decide (1 < c)))

/-- The id-reassignment walk (lines 1391–1407): the counter resets to 1 when
a staff with original id 1 is met, advances by 2 for staves needing a split
(reserving the next id for the duplicate) and by 1 otherwise.  Returns the
assigned new ids in order, the new ids of split staves in encounter order,
and the final counter. -/
def renumberWalk : Int → List (Int × Bool) → List Int × List Int × Int
  | c, [] => ([], [], c)
  | c, (orig, split) :: rest =>
      let c := if orig = 1 then 1 else c
      if split then
        let (a, s, cf) := renumberWalk (c + 2) rest
        (c :: a, c :: s, cf)
      else
        let (a, s, cf) := renumberWalk (c + 1) rest
        (c :: a, s, cf)

/-- The Python `set` of split ids, as its insertion-ordered support. -/
def dedupKeepFirstGo {α : Type} [DecidableEq α] (seen : List α) : List α → List α
  | [] => []
  | x :: xs =>
      if x ∈ seen then dedupKeepFirstGo seen xs
      else x :: dedupKeepFirstGo (x :: seen) xs

def dedupKeepFirst {α : Type} [DecidableEq α] (l : List α) : List α :=
  dedupKeepFirstGo [] l

/-- The walk input: each staff element's original id paired with its
`staffs_to_split` membership. -/
def pipelineWalkInput (doc : SDoc) : List (Int × Bool) :=
  (allStaffElems doc).map (fun st => (st.id, staffNeedsSplit doc st.id))

def pipelineNewIds (doc : SDoc) : List Int :=
  (renumberWalk 1 (pipelineWalkInput doc)).1

def pipelineSplitIds (doc : SDoc) : List Int :=
  dedupKeepFirst (renumberWalk 1 (pipelineWalkInput doc)).2.1

/-- `STAFF_MAPPING` (lines 1409–1410): each split staff's new id maps to the
next id. -/
def pipelineMapping (doc : SDoc) : List (Int × Int) :=
  (pipelineSplitIds doc).map (fun k => (k, k + 1))

/-- `split_part`: deep copy with every mapped stub id rewritten in mapping
order. -/
def split_part (mapping : List (Int × Int)) (part : SPart) : SPart :=
  ⟨mapping.foldl (fun st q => if st.id = q.1 then { st with id := q.2 } else st) part.stub⟩

/-- Lines 1442–1449: insert a deep copy of the first Score staff with the
mapped id right after it, carrying the duplicate id. -/
def insertDupStaff : List SStaff → Int → Int → List SStaff
  | [], _, _ => []
  | st :: rest, k, v =>
      if st.id = k then st :: { st with id := v } :: rest
      else st :: insertDupStaff rest k v

def setStaffIds (staffs : List SStaff) (ids : List Int) : List SStaff :=
  List.zipWith (fun st i => { st with id := i }) staffs ids

/-- The splitting portion of `main` (lines 1360–1449): renumber all staff
elements, build the mapping, clone the Parts whose stub is a split target,
and duplicate the split Score staves. -/
def split_pipeline (doc : SDoc) : SDoc :=
  let newIds := pipelineNewIds doc
  let parts1 := List.zipWith (fun (p : SPart) i => (⟨{ p.stub with id := i }⟩ : SPart))
    doc.parts (newIds.take doc.parts.length)
  let staffs1 := setStaffIds doc.staffs (newIds.drop doc.parts.length)
  let mapping := pipelineMapping doc
  let parts2 := parts1.flatMap (fun part =>
    if mapping.any (fun q => q.1 = part.stub.id) then [part, split_part mapping part]
    else [part])
  let staffs2 := mapping.foldl (fun sts (q : Int × Int) => insertDupStaff sts q.1 q.2) staffs1
  ⟨parts2, staffs2⟩

/-! ### Lemmas about the walk -/

theorem renumberWalk_length (c : Int) (l : List (Int × Bool)) :
    (renumberWalk c l).1.length = l.length := by
  induction l generalizing c with
  | nil => rfl
  | cons x rest ih =>
    rcases x with ⟨orig, split⟩
    rw [renumberWalk]
    cases split
    · simp only [if_neg Bool.false_ne_true]
      simp [ih]
    · simp only [if_pos rfl]
      simp [ih]

theorem renumberWalk_noSplit (c : Int) (l : List (Int × Bool))
    (h : ∀ p ∈ l, p.2 = false) : (renumberWalk c l).2.1 = [] := by
  induction l generalizing c with
  | nil => rfl
  | cons x rest ih =>
    rcases x with ⟨orig, split⟩
    have hx := h (orig, split) (List.mem_cons_self _ _)
    simp only at hx
    subst hx
    rw [renumberWalk]
    simp only [if_neg Bool.false_ne_true]
    exact ih _ (fun p hp => h p (List.mem_cons_of_mem _ hp))

theorem dedupKeepFirstGo_subset {α : Type} [DecidableEq α] (seen l : List α) :
    ∀ x ∈ dedupKeepFirstGo seen l, x ∈ l := by
  induction l generalizing seen with
  | nil => intro x hx; cases hx
  | cons y ys ih =>
    intro x hx
    rw [dedupKeepFirstGo] at hx
    by_cases hy : y ∈ seen
    · rw [if_pos hy] at hx
      exact List.mem_cons_of_mem _ (ih seen x hx)
    · rw [if_neg hy] at hx
      rcases List.mem_cons.1 hx with rfl | hx'
      · exact List.mem_cons_self _ _
      · exact List.mem_cons_of_mem _ (ih _ x hx')

theorem dedupKeepFirst_subset {α : Type} [DecidableEq α] (l : List α) :
    ∀ x ∈ dedupKeepFirst l, x ∈ l :=
  dedupKeepFirstGo_subset [] l

/-- Freshness of the walk on a run without id-1 resets: every assigned id
is at least the starting counter, and every reserved duplicate id (split id
plus one) is assigned to no staff. -/
theorem renumberWalk_clean (l : List (Int × Bool)) :
    ∀ c : Int, (∀ p ∈ l, p.1 ≠ 1) →
    (∀ x ∈ (renumberWalk c l).1, c ≤ x) ∧
    (∀ k ∈ (renumberWalk c l).2.1, c ≤ k ∧ k + 1 ∉ (renumberWalk c l).1) := by
  induction l with
  | nil =>
    intro c _
    exact ⟨fun x hx => absurd hx (List.not_mem_nil x), fun k hk => absurd hk (List.not_mem_nil k)⟩
  | cons p rest ih =>
    intro c h
    rcases p with ⟨orig, split⟩
    have horig : orig ≠ 1 := h (orig, split) (List.mem_cons_self _ _)
    have hrest : ∀ q ∈ rest, q.1 ≠ 1 := fun q hq => h q (List.mem_cons_of_mem _ hq)
    rw [renumberWalk]
    simp only [if_neg horig]
    cases split
    · simp only [if_neg Bool.false_ne_true]
      obtain ⟨ihA, ihS⟩ := ih (c + 1) hrest
      constructor
      · intro x hx
        rcases List.mem_cons.1 hx with rfl | hx'
        · exact le_refl _
        · exact le_trans (by omega) (ihA x hx')
      · intro k hk
        obtain ⟨hk1, hk2⟩ := ihS k hk
        refine ⟨by omega, ?_⟩
        intro hmem
        rcases List.mem_cons.1 hmem with heq | hmem'
        · omega
        · exact hk2 hmem'
    · simp only [if_pos rfl]
      obtain ⟨ihA, ihS⟩ := ih (c + 2) hrest
      constructor
      · intro x hx
        rcases List.mem_cons.1 hx with rfl | hx'
        · exact le_refl _
        · exact le_trans (by omega) (ihA x hx')
      · intro k hk
        rcases List.mem_cons.1 hk with rfl | hk'
        · refine ⟨le_refl _, ?_⟩
          intro hmem
          rcases List.mem_cons.1 hmem with heq | hmem'
          · omega
          · have := ihA _ hmem'
            omega
        · obtain ⟨hk1, hk2⟩ := ihS k hk'
          refine ⟨by omega, ?_⟩
          intro hmem
          rcases List.mem_cons.1 hmem with heq | hmem'
          · omega
          · exact hk2 hmem'

/-- Same freshness for a walk started at 1 whose head may carry the reset
id 1 (the reset is then a no-op). -/
theorem renumberWalk_one (l : List (Int × Bool)) (h : ∀ p ∈ l.tail, p.1 ≠ 1) :
    ∀ k ∈ (renumberWalk 1 l).2.1, k + 1 ∉ (renumberWalk 1 l).1 := by
  cases l with
  | nil => intro k hk; cases hk
  | cons p rest =>
    rcases p with ⟨orig, split⟩
    have hrest : ∀ q ∈ rest, q.1 ≠ 1 := h
    rw [renumberWalk]
    have hc : (if orig = (1 : Int) then (1 : Int) else 1) = 1 := by
      by_cases horig : orig = 1
      · rw [if_pos horig]
      · rw [if_neg horig]
    rw [hc]
    cases split
    · simp only [if_neg Bool.false_ne_true]
      obtain ⟨ihA, ihS⟩ := renumberWalk_clean rest (1 + 1) hrest
      intro k hk
      obtain ⟨hk1, hk2⟩ := ihS k hk
      intro hmem
      rcases List.mem_cons.1 hmem with heq | hmem'
      · omega
      · exact hk2 hmem'
    · simp only [if_pos rfl]
      obtain ⟨ihA, ihS⟩ := renumberWalk_clean rest (1 + 2) hrest
      intro k hk
      rcases List.mem_cons.1 hk with rfl | hk'
      · intro hmem
        rcases List.mem_cons.1 hmem with heq | hmem'
        · omega
        · have := ihA _ hmem'
          omega
      · obtain ⟨hk1, hk2⟩ := ihS k hk'
        intro hmem
        rcases List.mem_cons.1 hmem with heq | hmem'
        · omega
        · exact hk2 hmem'

/-- Splitting the walk at an append. -/
theorem renumberWalk_append (c : Int) (l₁ l₂ : List (Int × Bool)) :
    renumberWalk c (l₁ ++ l₂) =
      ((renumberWalk c l₁).1 ++ (renumberWalk (renumberWalk c l₁).2.2 l₂).1,
       (renumberWalk c l₁).2.1 ++ (renumberWalk (renumberWalk c l₁).2.2 l₂).2.1,
       (renumberWalk (renumberWalk c l₁).2.2 l₂).2.2) := by
  induction l₁ generalizing c with
  | nil => simp [renumberWalk]
  | cons p rest ih =>
    rcases p with ⟨orig, split⟩
    rw [List.cons_append, renumberWalk, renumberWalk]
    cases split
    · simp only [if_neg Bool.false_ne_true]
      rw [ih]
      rfl
    · simp only [if_pos rfl]
      rw [ih]
      rfl

/-- A walk on a list whose head resets the counter is independent of the
starting counter. -/
theorem renumberWalk_reset_head (c : Int) (orig : Int) (split : Bool)
    (rest : List (Int × Bool)) (horig : orig = 1) :
    renumberWalk c ((orig, split) :: rest) = renumberWalk 1 ((orig, split) :: rest) := by
  rw [renumberWalk, renumberWalk, if_pos horig, if_pos horig]

end clean_score

/-! ### Claims C7 and C8 -/

/-- **C7.**  After the splitter runs on a document whose staff-element
listing is one block, or the same block listed twice (the host format's
part/staff double listing, where only a block's first staff carries original
id 1), the original-to-duplicate staff-id mapping is injective, every
duplicate id is the original's new id plus one (reserved by the counter
advancing 2 for split staves, 1 otherwise), and no duplicate id is assigned
to any live staff element by the renumbering. -/
theorem c7_splitter_mapping (doc : clean_score.SDoc)
    (hshape : ∃ B : List (Int × Bool),
      (clean_score.pipelineWalkInput doc = B ∨ clean_score.pipelineWalkInput doc = B ++ B) ∧
      ∀ p ∈ B.tail, p.1 ≠ 1) :
    (∀ p ∈ clean_score.pipelineMapping doc, ∀ q ∈ clean_score.pipelineMapping doc,
        p.2 = q.2 → p.1 = q.1) ∧
    (∀ p ∈ clean_score.pipelineMapping doc,
        p.2 = p.1 + 1 ∧ p.2 ∉ clean_score.pipelineNewIds doc) := by
  obtain ⟨B, hB, htail⟩ := hshape
  constructor
  · intro p hp q hq hpq
    obtain ⟨k, _, rfl⟩ := List.mem_map.1 hp
    obtain ⟨k', _, rfl⟩ := List.mem_map.1 hq
    simp only at hpq ⊢
    omega
  · intro p hp
    obtain ⟨k, hk, rfl⟩ := List.mem_map.1 hp
    refine ⟨rfl, ?_⟩
    have hkS : k ∈ (clean_score.renumberWalk 1 (clean_score.pipelineWalkInput doc)).2.1 :=
      clean_score.dedupKeepFirst_subset _ k hk
    show k + 1 ∉ clean_score.pipelineNewIds doc
    rw [clean_score.pipelineNewIds]
    rcases hB with hW | hW
    · rw [hW] at hkS ⊢
      exact clean_score.renumberWalk_one B htail k hkS
    · rw [hW] at hkS ⊢
      cases B with
      | nil =>
        rw [List.nil_append] at hkS
        rw [clean_score.renumberWalk] at hkS
        cases hkS
      | cons x rest =>
        by_cases hx : x.1 = 1
        · rcases x with ⟨orig, split⟩
          simp only at hx
          rw [clean_score.renumberWalk_append] at hkS ⊢
          have hsecond : clean_score.renumberWalk
              (clean_score.renumberWalk 1 ((orig, split) :: rest)).2.2
              ((orig, split) :: rest) = clean_score.renumberWalk 1 ((orig, split) :: rest) :=
            clean_score.renumberWalk_reset_head _ _ _ _ hx
          rw [hsecond] at hkS ⊢
          simp only [List.mem_append] at hkS
          have hfresh := clean_score.renumberWalk_one ((orig, split) :: rest) htail k
            (by rcases hkS with h1 | h1 <;> exact h1)
          simp only [List.mem_append]
          rintro (h2 | h2) <;> exact hfresh h2
        · have hno : ∀ q ∈ (x :: rest) ++ x :: rest, q.1 ≠ 1 := by
            intro q hq
            rcases List.mem_append.1 hq with h1 | h1 <;>
              rcases List.mem_cons.1 h1 with rfl | h2
            · exact hx
            · exact htail q h2
            · exact hx
            · exact htail q h2
          exact ((clean_score.renumberWalk_clean _ 1 hno).2 k hkS).2

namespace clean_score

/-- C7's witness document: parts and staves listed twice (stub block ids
1, 2 then score staves 1, 2), staff 1 holding a two-voice measure. -/
def c7_example_doc : SDoc :=
  ⟨[⟨⟨1, []⟩⟩, ⟨⟨2, []⟩⟩], [⟨1, [2]⟩, ⟨2, [1]⟩]⟩

/-- C8's witness document: one part, one staff, every measure single-voice. -/
def c8_example_doc : SDoc :=
  ⟨[⟨⟨1, []⟩⟩], [⟨1, [1, 1]⟩]⟩

end clean_score

/-- **C7, witness.** -/
theorem c7_witness :
    clean_score.pipelineMapping clean_score.c7_example_doc = [(1, 2)] ∧
    ((2 : Int) = 1 + 1 ∧ (2 : Int) ∉ clean_score.pipelineNewIds clean_score.c7_example_doc) :=
  ⟨by decide,
    (c7_splitter_mapping clean_score.c7_example_doc
      ⟨[(1, true), (2, false)], Or.inr (by decide), by decide⟩).2 (1, 2) (by decide)⟩

/-- **C8.**  If every staff element of the document has exactly one voice in
each of its measures, the splitting pipeline leaves the number of Part
elements and the number of (Score) Staff elements unchanged. -/
theorem c8_split_counts (doc : clean_score.SDoc)
    (h : ∀ st ∈ clean_score.allStaffElems doc, ∀ c ∈ st.measureVoiceCounts, c = 1) :
    (clean_score.split_pipeline doc).parts.length = doc.parts.length ∧
    (clean_score.split_pipeline doc).staffs.length = doc.staffs.length := by
  have hflag : ∀ p ∈ clean_score.pipelineWalkInput doc, p.2 = false := by
    intro p hp
    obtain ⟨st, hst, rfl⟩ := List.mem_map.1 hp
    simp only [clean_score.staffNeedsSplit, List.any_eq_false]
    intro st' hst'
    have hcounts : st'.measureVoiceCounts.any (fun c => decide (1 < c)) = false := by
      rw [List.any_eq_false]
      intro c hc
      have := h st' hst' c hc
      subst this
      decide
    rw [hcounts, Bool.and_false]
    decide
  have hS : (clean_score.renumberWalk 1 (clean_score.pipelineWalkInput doc)).2.1 = [] :=
    clean_score.renumberWalk_noSplit _ _ hflag
  have hmap : clean_score.pipelineMapping doc = [] := by
    rw [clean_score.pipelineMapping, clean_score.pipelineSplitIds, hS]
    rfl
  have hlen : (clean_score.pipelineNewIds doc).length =
      doc.parts.length + doc.staffs.length := by
    rw [clean_score.pipelineNewIds, clean_score.renumberWalk_length,
      clean_score.pipelineWalkInput, List.length_map, clean_score.allStaffElems,
      List.length_append, List.length_map]
  rw [clean_score.split_pipeline, hmap]
  simp only [List.any_nil, if_neg Bool.false_ne_true, List.foldl_nil]
  constructor
  · rw [List.flatMap_singleton', List.length_zipWith, List.length_take]
    omega
  · rw [clean_score.setStaffIds, List.length_zipWith, List.length_drop]
    omega

/-- **C8, witness.** -/
theorem c8_witness :
    (clean_score.split_pipeline clean_score.c8_example_doc).parts.length =
      clean_score.c8_example_doc.parts.length ∧
    (clean_score.split_pipeline clean_score.c8_example_doc).staffs.length =
      clean_score.c8_example_doc.staffs.length :=
  c8_split_counts clean_score.c8_example_doc (by decide)

/-! ## `clean_score.py` `handle_staff` with `direction = None` (claim C10)

The staff is an XML element tree; `handle_staff(staff, None)` skips the
direction block entirely and only (1) sets the text of each Chord's first
`StemDirection` descendant to `"up"`, (2) deletes all `offset`, `Dynamic`,
`LayoutBreak`, `Spanner[@type='HairPin']`, `StemDirection`, `Articulation`,
`Tempo` and `Harmony` descendants, and (3) appends `<timeStretch>3</>` to
every `Fermata`.  Nodes carry the tag, the `type` attribute (the only
attribute any selector reads), the text, and the children. -/

namespace clean_score

mutual
inductive XNode where
  | mk (tag : String) (typeAttr : Option String) (text : Option String) (kids : XForest)
  deriving DecidableEq
inductive XForest where
  | nil
  | cons (n : XNode) (rest : XForest)
  deriving DecidableEq
end

def XNode.tag : XNode → String
  | .mk t _ _ _ => t

def appendF : XForest → XNode → XForest
  | .nil, x => .cons x .nil
  | .cons n rest, x => .cons n (appendF rest x)

/-- An XPath selector `.//tag` or `.//tag[@type='v']`. -/
def selMatches (sel : String × Option String) (n : XNode) : Bool :=
  match n with
  | .mk tag ty _ _ =>
      tag = sel.1 && (match sel.2 with
        | none => true
        | some v => ty = some v)

mutual
/-- Remove every descendant (with its subtree) satisfying `p`; the root
itself is kept, matching `delete_all_elements_by_selector`, which removes
`staff.findall(selector)` from their parents. -/
def stripByNode (p : XNode → Bool) : XNode → XNode
  | .mk t ty tx kids => .mk t ty tx (stripByForest p kids)
def stripByForest (p : XNode → Bool) : XForest → XForest
  | .nil => .nil
  | .cons n rest =>
      if p n then stripByForest p rest
      else .cons (stripByNode p n) (stripByForest p rest)
end

/-- `delete_all_elements_by_selector(staff, ".//…")`. -/
def delete_all_elements_by_selector (sel : String × Option String) (staff : XNode) : XNode :=
  stripByNode (selMatches sel) staff

mutual
/-- The stem pass (lines 682–686): for every `Chord`, the text of its first
`StemDirection` descendant is set to `"up"`.  The traversal carries the
number of enclosing Chords still awaiting their first `StemDirection`; a
`StemDirection` met with a positive count satisfies all of them (it is the
first such descendant of each). -/
def stemNode : XNode → Nat → XNode × Nat
  | .mk t ty tx kids, pending =>
      let consume := t = "StemDirection" && decide (0 < pending)
      let tx' := if consume then some ("up") else tx
      let pIn := if consume then 0 else if t = "Chord" then pending + 1 else pending
      let r := stemForest kids pIn
      let pOut := if t = "Chord" then min r.2 pending else r.2
      (.mk t ty tx' r.1, pOut)
def stemForest : XForest → Nat → XForest × Nat
  | .nil, p => (.nil, p)
  | .cons n rest, p =>
      let rn := stemNode n p
      let rr := stemForest rest rn.2
      (.cons rn.1 rr.1, rr.2)
end

mutual
/-- The fermata pass (lines 703–708): append `<timeStretch>3</timeStretch>`
to every `Fermata` element. -/
def stretchNode : XNode → XNode
  | .mk t ty tx kids =>
      if t = "Fermata" then
        .mk t ty tx (appendF (stretchForest kids) (.mk ("timeStretch") none (some ("3")) .nil))
      else .mk t ty tx (stretchForest kids)
def stretchForest : XForest → XForest
  | .nil => .nil
  | .cons n rest => .cons (stretchNode n) (stretchForest rest)
end

/-- `handle_staff(staff, None)` (lines 603–708 with the direction block
skipped). -/
def handle_staff_none (staff : XNode) : XNode :=
  let s := (stemNode staff 0).1
  let s := delete_all_elements_by_selector (("offset"), none) s
  let s := delete_all_elements_by_selector (("Dynamic"), none) s
  let s := delete_all_elements_by_selector (("LayoutBreak"), none) s
  let s := delete_all_elements_by_selector (("Spanner"), some ("HairPin")) s
  let s := delete_all_elements_by_selector (("StemDirection"), none) s
  let s := delete_all_elements_by_selector (("Articulation"), none) s
  let s := delete_all_elements_by_selector (("Tempo"), none) s
  let s := delete_all_elements_by_selector (("Harmony"), none) s
  stretchNode s

/-- The presentation-only elements stripped by the filter, as one
predicate. -/
def isPresentation (n : XNode) : Bool :=
  match n with
  | .mk t ty _ _ =>
      t = "offset" || t = "Dynamic" || t = "LayoutBreak" ||
      (t = "Spanner" && ty = some ("HairPin")) || t = "StemDirection" ||
      t = "Articulation" || t = "Tempo" || t = "Harmony"

/-- The structural elements claim C10 asserts are never deleted. -/
def protectedTags : List String :=
  ["voice", "Chord", "Note", "Rest", "Lyrics", "TimeSig", "KeySig", "Clef", "Fermata"]

mutual
def countNode (t : String) : XNode → Nat
  | .mk tag _ _ kids => (if tag = t then 1 else 0) + countForest t kids
def countForest (t : String) : XForest → Nat
  | .nil => 0
  | .cons n rest => countNode t n + countForest t rest
end

mutual
/-- No node of the subtree (root included) carries a protected tag. -/
def protFreeNode : XNode → Bool
  | .mk t _ _ kids => !(protectedTags.contains t) && protFreeForest kids
def protFreeForest : XForest → Bool
  | .nil => true
  | .cons n rest => protFreeNode n && protFreeForest rest
end

mutual
/-- Schema condition: no protected element sits inside a presentation-only
element (in a MuseScore staff, voices/chords/notes/rests/lyrics/signatures
never do). -/
def nestOKNode : XNode → Bool
  | .mk t ty tx kids =>
      if isPresentation (.mk t ty tx kids) then protFreeForest kids
      else nestOKForest kids
def nestOKForest : XForest → Bool
  | .nil => true
  | .cons n rest => nestOKNode n && nestOKForest rest
end

def hasStretchChild : XForest → Bool
  | .nil => false
  | .cons (.mk t _ tx _) rest =>
      (t = "timeStretch" && tx = some ("3")) || hasStretchChild rest

mutual
/-- Every `Fermata` node of the tree has a `timeStretch` child with
text `3`. -/
def fermataOKNode : XNode → Bool
  | .mk t _ _ kids =>
      (if t = "Fermata" then hasStretchChild kids else true) && fermataOKForest kids
def fermataOKForest : XForest → Bool
  | .nil => true
  | .cons n rest => fermataOKNode n && fermataOKForest rest
end

end clean_score

namespace clean_score

mutual
theorem stripBy_stripBy_node (p q : XNode → Bool)
    (hq : ∀ t ty tx tx' k k', q (.mk t ty tx k) = q (.mk t ty tx' k')) (n : XNode) :
    stripByNode q (stripByNode p n) = stripByNode (fun m => p m || q m) n := by
  cases n with
  | mk t ty tx kids =>
    rw [stripByNode, stripByNode, stripByNode, stripBy_stripBy_forest p q hq kids]
theorem stripBy_stripBy_forest (p q : XNode → Bool)
    (hq : ∀ t ty tx tx' k k', q (.mk t ty tx k) = q (.mk t ty tx' k')) (f : XForest) :
    stripByForest q (stripByForest p f) = stripByForest (fun m => p m || q m) f := by
  cases f with
  | nil => rfl
  | cons n rest =>
    rw [stripByForest]
    by_cases hp : p n = true
    · rw [if_pos hp, stripBy_stripBy_forest p q hq rest]
      rw [stripByForest]
      have : (p n || q n) = true := by rw [hp]; rfl
      rw [if_pos this]
    · rw [if_neg hp, stripByForest]
      have hqn : q (stripByNode p n) = q n := by
        cases n with
        | mk t ty tx kids => rw [stripByNode]; exact hq t ty tx tx _ kids
      by_cases hq2 : q n = true
      · rw [hqn, if_pos hq2, stripBy_stripBy_forest p q hq rest]
        rw [stripByForest]
        have : (p n || q n) = true := by rw [hq2, Bool.or_true]
        rw [if_pos this]
      · rw [hqn, if_neg hq2, stripBy_stripBy_node p q hq n,
          stripBy_stripBy_forest p q hq rest]
        rw [stripByForest]
        have : (p n || q n) = false := by
          rw [Bool.or_eq_false_iff]
          exact ⟨Bool.eq_false_iff.2 hp, Bool.eq_false_iff.2 hq2⟩
        rw [this]
        simp only [Bool.false_eq_true, if_false]
end

mutual
theorem stripBy_congr_node (p q : XNode → Bool) (h : ∀ m, p m = q m) (n : XNode) :
    stripByNode p n = stripByNode q n := by
  cases n with
  | mk t ty tx kids => rw [stripByNode, stripByNode, stripBy_congr_forest p q h kids]
theorem stripBy_congr_forest (p q : XNode → Bool) (h : ∀ m, p m = q m) (f : XForest) :
    stripByForest p f = stripByForest q f := by
  cases f with
  | nil => rfl
  | cons n rest =>
    rw [stripByForest, stripByForest, h n, stripBy_congr_node p q h n,
      stripBy_congr_forest p q h rest]
end

/-- Stripping a predicate that removes every `StemDirection` and ignores
texts and children erases the stem pass. -/
theorem strip_stem_forest (P : XNode → Bool)
    (hP : ∀ t ty tx tx' k k', P (.mk t ty tx k) = P (.mk t ty tx' k'))
    (hsd : ∀ t ty tx k, t = "StemDirection" → P (.mk t ty tx k) = true) :
    ∀ (f : XForest) (p : Nat), stripByForest P (stemForest f p).1 = stripByForest P f
  | .nil, p => rfl
  | .cons (.mk t ty tx kids) rest, p => by
    rw [stemForest]
    simp only [stemNode]
    rw [stripByForest, stripByForest]
    have hPn : ∀ tx' k', P (.mk t ty tx' k') = P (.mk t ty tx kids) := by
      intro tx' k'
      exact hP t ty tx' tx k' kids
    by_cases hp : P (.mk t ty tx kids) = true
    · rw [hPn, if_pos hp, if_pos hp]
      exact strip_stem_forest P hP hsd rest _
    · have htag : ¬ t = "StemDirection" := by
        intro ht
        exact hp (hsd t ty tx kids ht)
      have hcons : (t = "StemDirection" && decide (0 < p)) = false := by
        simp [htag]
      rw [hPn, if_neg hp, if_neg hp]
      simp only [hcons, if_neg Bool.false_ne_true]
      rw [stripByNode, stripByNode]
      rw [strip_stem_forest P hP hsd kids _, strip_stem_forest P hP hsd rest _]
end clean_score

namespace clean_score

/-- The merged matcher of the eight deletion passes equals
`isPresentation`. -/
theorem merged_matchers_eq (m : XNode) :
    ((((((((selMatches (("offset"), none) m || selMatches (("Dynamic"), none) m) ||
      selMatches (("LayoutBreak"), none) m) ||
      selMatches (("Spanner"), some ("HairPin")) m) ||
      selMatches (("StemDirection"), none) m) ||
      selMatches (("Articulation"), none) m) ||
      selMatches (("Tempo"), none) m) ||
      selMatches (("Harmony"), none) m)) = isPresentation m := by
  cases m with
  | mk t ty tx kids =>
    simp only [selMatches, isPresentation, Bool.and_true, Bool.or_assoc]

/-- `handle_staff(staff, None)` equals the one-pass specification: strip the
presentation-only elements, then add the fermata time stretches. -/
theorem handle_staff_none_eq (staff : XNode) :
    handle_staff_none staff = stretchNode (stripByNode isPresentation staff) := by
  rw [handle_staff_none]
  simp only [delete_all_elements_by_selector]
  have hq : ∀ (sel : String × Option String) t ty tx tx' k k',
      selMatches sel (.mk t ty tx k) = selMatches sel (.mk t ty tx' k') := by
    intro sel t ty tx tx' k k'
    rfl
  rw [stripBy_stripBy_node (selMatches (("offset"), none))
    (selMatches (("Dynamic"), none)) (fun _ _ _ _ _ _ => rfl)]
  rw [stripBy_stripBy_node
    (fun m => selMatches (("offset"), none) m || selMatches (("Dynamic"), none) m)
    (selMatches (("LayoutBreak"), none)) (fun _ _ _ _ _ _ => rfl)]
  rw [stripBy_stripBy_node
    (fun m => (fun m => selMatches (("offset"), none) m ||
        selMatches (("Dynamic"), none) m) m || selMatches (("LayoutBreak"), none) m)
    (selMatches (("Spanner"), some ("HairPin"))) (fun _ _ _ _ _ _ => rfl)]
  rw [stripBy_stripBy_node
    (fun m => (fun m => (fun m => selMatches (("offset"), none) m ||
        selMatches (("Dynamic"), none) m) m || selMatches (("LayoutBreak"), none) m) m ||
      selMatches (("Spanner"), some ("HairPin")) m)
    (selMatches (("StemDirection"), none)) (fun _ _ _ _ _ _ => rfl)]
  rw [stripBy_stripBy_node
    (fun m => (fun m => (fun m => (fun m => selMatches (("offset"), none) m ||
        selMatches (("Dynamic"), none) m) m || selMatches (("LayoutBreak"), none) m) m ||
      selMatches (("Spanner"), some ("HairPin")) m) m ||
      selMatches (("StemDirection"), none) m)
    (selMatches (("Articulation"), none)) (fun _ _ _ _ _ _ => rfl)]
  rw [stripBy_stripBy_node
    (fun m => (fun m => (fun m => (fun m => (fun m => selMatches (("offset"), none) m ||
        selMatches (("Dynamic"), none) m) m || selMatches (("LayoutBreak"), none) m) m ||
      selMatches (("Spanner"), some ("HairPin")) m) m ||
      selMatches (("StemDirection"), none) m) m ||
      selMatches (("Articulation"), none) m)
    (selMatches (("Tempo"), none)) (fun _ _ _ _ _ _ => rfl)]
  rw [stripBy_stripBy_node
    (fun m => (fun m => (fun m => (fun m => (fun m => (fun m =>
        selMatches (("offset"), none) m ||
        selMatches (("Dynamic"), none) m) m || selMatches (("LayoutBreak"), none) m) m ||
      selMatches (("Spanner"), some ("HairPin")) m) m ||
      selMatches (("StemDirection"), none) m) m ||
      selMatches (("Articulation"), none) m) m ||
      selMatches (("Tempo"), none) m)
    (selMatches (("Harmony"), none)) (fun _ _ _ _ _ _ => rfl)]
  have hstep : ∀ (p : XNode → Bool), (∀ m, p m = isPresentation m) →
      stretchNode (stripByNode p ((stemNode staff 0).1)) =
        stretchNode (stripByNode isPresentation staff) := by
    intro p hp
    rw [stripBy_congr_node p isPresentation hp]
    congr 1
    cases staff with
    | mk t ty tx kids =>
      simp only [stemNode]
      have hcons : (t = "StemDirection" && decide ((0 : Nat) < 0)) = false := by
        simp
      simp only [hcons, if_neg Bool.false_ne_true]
      rw [stripByNode, stripByNode]
      have hP : ∀ t' ty' tx' tx'' k k',
          isPresentation (.mk t' ty' tx' k) = isPresentation (.mk t' ty' tx'' k') := by
        intro t' ty' tx' tx'' k k'
        rfl
      have hsd : ∀ t' ty' tx' k, t' = "StemDirection" →
          isPresentation (.mk t' ty' tx' k) = true := by
        intro t' ty' tx' k ht
        subst ht
        simp [isPresentation]
      rw [strip_stem_forest _ hP hsd kids _]
  refine hstep _ ?_
  intro m
  cases m with
  | mk t ty tx kids =>
    simp only [selMatches, isPresentation, Bool.and_true, Bool.or_assoc]
end clean_score

namespace clean_score

/-- Presentation-only tags are not in the protected list. -/
theorem isPresentation_not_protected (t : String) (ty tx : Option String) (k : XForest)
    (h : isPresentation (.mk t ty tx k) = true) : protectedTags.contains t = false := by
  simp only [isPresentation, Bool.or_eq_true, Bool.and_eq_true, decide_eq_true_eq] at h
  rcases h with ((((((h | h) | h) | ⟨h, _⟩) | h) | h) | h) | h <;> subst h <;> decide

mutual
theorem protFree_count_node (t : String) (ht : protectedTags.contains t = true)
    (n : XNode) (h : protFreeNode n = true) : countNode t n = 0 := by
  cases n with
  | mk tag ty tx kids =>
    rw [protFreeNode, Bool.and_eq_true] at h
    rw [countNode, protFree_count_forest t ht kids h.2]
    have : ¬ tag = t := by
      intro heq
      subst heq
      rw [ht] at h
      simp at h
    rw [if_neg this]
theorem protFree_count_forest (t : String) (ht : protectedTags.contains t = true)
    (f : XForest) (h : protFreeForest f = true) : countForest t f = 0 := by
  cases f with
  | nil => rfl
  | cons n rest =>
    rw [protFreeForest, Bool.and_eq_true] at h
    rw [countForest, protFree_count_node t ht n h.1, protFree_count_forest t ht rest h.2]
end

mutual
theorem count_strip_node (t : String) (ht : protectedTags.contains t = true) (n : XNode)
    (hn : nestOKNode n = true) (hroot : isPresentation n = false) :
    countNode t (stripByNode isPresentation n) = countNode t n := by
  cases n with
  | mk tag ty tx kids =>
    rw [stripByNode, countNode, countNode]
    rw [nestOKNode, hroot] at hn
    simp only [Bool.false_eq_true, if_false] at hn
    rw [count_strip_forest t ht kids hn]
theorem count_strip_forest (t : String) (ht : protectedTags.contains t = true)
    (f : XForest) (hf : nestOKForest f = true) :
    countForest t (stripByForest isPresentation f) = countForest t f := by
  cases f with
  | nil => rfl
  | cons n rest =>
    rw [nestOKForest, Bool.and_eq_true] at hf
    rw [stripByForest, countForest]
    by_cases hp : isPresentation n = true
    · rw [if_pos hp, count_strip_forest t ht rest hf.2]
      have hzero : countNode t n = 0 := by
        cases n with
        | mk tag ty tx kids =>
          have hnest := hf.1
          rw [nestOKNode, hp] at hnest
          simp only [if_true] at hnest
          rw [countNode, protFree_count_forest t ht kids hnest]
          have : ¬ tag = t := by
            intro heq
            subst heq
            have := isPresentation_not_protected tag ty tx kids hp
            rw [ht] at this
            cases this
          rw [if_neg this]
      rw [hzero]
      omega
    · rw [if_neg hp, countForest,
        count_strip_node t ht n hf.1 (Bool.eq_false_iff.2 hp),
        count_strip_forest t ht rest hf.2]
end

theorem count_appendF (t : String) :
    ∀ (f : XForest) (x : XNode),
      countForest t (appendF f x) = countForest t f + countNode t x
  | .nil, x => by
    rw [appendF, countForest, countForest, countForest]
    omega
  | .cons n rest, x => by
    rw [appendF, countForest, countForest, count_appendF t rest x]
    omega

mutual
theorem count_stretch_node (t : String) (ht : ¬ t = "timeStretch") (n : XNode) :
    countNode t (stretchNode n) = countNode t n := by
  cases n with
  | mk tag ty tx kids =>
    by_cases hf : tag = "Fermata"
    · subst hf
      rw [stretchNode, if_pos rfl]
      rw [countNode, countNode, count_appendF, count_stretch_forest t ht kids]
      have hts : countNode t (.mk ("timeStretch") none (some ("3")) .nil) = 0 := by
        simp only [countNode, countForest]
        have : ¬ ("timeStretch" : String) = t := fun h => ht h.symm
        rw [if_neg this]
      rw [hts]
      omega
    · rw [stretchNode, if_neg hf]
      rw [countNode, countNode, count_stretch_forest t ht kids]
theorem count_stretch_forest (t : String) (ht : ¬ t = "timeStretch") (f : XForest) :
    countForest t (stretchForest f) = countForest t f := by
  cases f with
  | nil => rfl
  | cons n rest =>
    rw [stretchForest, countForest, countForest, count_stretch_node t ht n,
      count_stretch_forest t ht rest]
end

theorem hasStretch_appendF :
    ∀ (f : XForest),
      hasStretchChild (appendF f (.mk ("timeStretch") none (some ("3")) .nil)) = true
  | .nil => by decide
  | .cons (.mk tag ty tx kids) rest => by
    rw [appendF, hasStretchChild, hasStretch_appendF rest, Bool.or_true]

theorem fermataOK_appendF :
    ∀ (f : XForest) (x : XNode), fermataOKNode x = true →
      fermataOKForest f = true → fermataOKForest (appendF f x) = true
  | .nil, x, hx, _ => by
    rw [appendF, fermataOKForest, fermataOKForest, hx]
    rfl
  | .cons n rest, x, hx, hf => by
    rw [fermataOKForest, Bool.and_eq_true] at hf
    rw [appendF, fermataOKForest, hf.1, fermataOK_appendF rest x hx hf.2]
    rfl

mutual
theorem fermataOK_stretch_node (n : XNode) : fermataOKNode (stretchNode n) = true := by
  cases n with
  | mk tag ty tx kids =>
    by_cases hf : tag = "Fermata"
    · subst hf
      rw [stretchNode, if_pos rfl, fermataOKNode, if_pos rfl]
      rw [hasStretch_appendF, fermataOK_appendF _ _ (by decide)
        (fermataOK_stretch_forest kids)]
      rfl
    · rw [stretchNode, if_neg hf, fermataOKNode, if_neg hf]
      rw [fermataOK_stretch_forest kids]
      rfl
theorem fermataOK_stretch_forest (f : XForest) : fermataOKForest (stretchForest f) = true := by
  cases f with
  | nil => rfl
  | cons n rest =>
    rw [stretchForest, fermataOKForest, fermataOK_stretch_node n,
      fermataOK_stretch_forest rest]
    rfl
end

end clean_score

/-- **C10.**  For a staff processed with direction `None` (never split), and
whose protected elements (voices, Chords, Notes, Rests, Lyrics, signatures,
Clefs, Fermatas) do not sit inside presentation-only elements (the MuseScore
schema), `handle_staff` equals the one-pass specification — strip exactly the
presentation-only elements (`offset`, `Dynamic`, `LayoutBreak`,
`Spanner[@type='HairPin']`, `StemDirection`, `Articulation`, `Tempo`,
`Harmony`) and then append `timeStretch = 3` to every `Fermata` — so the
count of every protected element is unchanged and every `Fermata` of the
result carries the time stretch. -/
theorem c10_filter_frame (staff : clean_score.XNode)
    (hnest : clean_score.nestOKNode staff = true)
    (hroot : clean_score.isPresentation staff = false) :
    clean_score.handle_staff_none staff =
      clean_score.stretchNode (clean_score.stripByNode clean_score.isPresentation staff) ∧
    (∀ t ∈ clean_score.protectedTags,
      clean_score.countNode t (clean_score.handle_staff_none staff) =
        clean_score.countNode t staff) ∧
    clean_score.fermataOKNode (clean_score.handle_staff_none staff) = true := by
  refine ⟨clean_score.handle_staff_none_eq staff, ?_, ?_⟩
  · intro t hmem
    have hts : ¬ t = "timeStretch" := by
      fin_cases hmem <;> decide
    have hcont : clean_score.protectedTags.contains t = true :=
      List.elem_eq_true_of_mem hmem
    rw [clean_score.handle_staff_none_eq staff,
      clean_score.count_stretch_node t hts,
      clean_score.count_strip_node t hcont staff hnest hroot]
  · rw [clean_score.handle_staff_none_eq staff]
    exact clean_score.fermataOK_stretch_node _

namespace clean_score

/-- C10's witness staff: a measure with one voice holding a chord (with a
note, a stem direction and a dynamic) and a fermata. -/
def c10_example_staff : XNode :=
  .mk ("Staff") none none (.cons
    (.mk ("Measure") none none (.cons
      (.mk ("voice") none none (.cons
        (.mk ("Chord") none none (.cons
          (.mk ("Note") none none .nil) (.cons
          (.mk ("StemDirection") none (some ("down")) .nil) (.cons
          (.mk ("Dynamic") none none .nil) .nil))))
        (.cons (.mk ("Fermata") none none .nil) .nil)))
      .nil))
    .nil)

end clean_score

/-- **C10, witness.** -/
theorem c10_witness :
    clean_score.handle_staff_none clean_score.c10_example_staff =
      clean_score.stretchNode (clean_score.stripByNode clean_score.isPresentation
        clean_score.c10_example_staff) ∧
    clean_score.countNode ("Chord") (clean_score.handle_staff_none
        clean_score.c10_example_staff) =
      clean_score.countNode ("Chord") clean_score.c10_example_staff ∧
    clean_score.fermataOKNode (clean_score.handle_staff_none
        clean_score.c10_example_staff) = true :=
  ⟨(c10_filter_frame clean_score.c10_example_staff (by decide) (by decide)).1,
   (c10_filter_frame clean_score.c10_example_staff (by decide) (by decide)).2.1
     ("Chord") (by decide),
   (c10_filter_frame clean_score.c10_example_staff (by decide) (by decide)).2.2⟩

/-! ## `src/clean_score/lyric_txt.py` : lyric TXT export/import

The XML score is embedded structurally.  A `<Lyrics>` element is a record of
the texts of its `no`, `syllabic` and `text` children (`none` models an absent
child; a present child with absent text is modelled as `some ""`, which every
consumer of the module treats identically).  A `<Spanner>` descendant of a
chord keeps its `type` attribute and whether it has `prev` / `next`
descendants.  A measure is modelled by its list of `voice` children (each a
list of elements); `measure.find(".//TimeSig")` is the first `TimeSig` of the
concatenated voices in document order.  Python's `syl_index` cursor into the
fixed syllable list is embedded as consumption from the head of the list. -/

namespace lyric_txt

structure Lyric where
  no : Option String
  syllabic : Option String
  text : Option String
deriving DecidableEq

structure Spanner where
  ty : String
  hasPrev : Bool
  hasNext : Bool
deriving DecidableEq

structure LChord where
  spanners : List Spanner
  lyrics : List Lyric
deriving DecidableEq

inductive VElem where
  | chord (c : LChord)
  | rest (durationType : Option String)
  | timeSig (sigN sigD : Option String)
  | location
  | other
deriving DecidableEq

structure LMeasure where
  voices : List (List VElem)
deriving DecidableEq

structure LStaff where
  id : Int
  measures : List LMeasure
deriving DecidableEq

structure Score where
  staffs : List LStaff
deriving DecidableEq

/-- `chord.find(".//Spanner[@type=ty]")`: first spanner of the given type. -/
def findSpanner (ty : String) (c : LChord) : Option Spanner :=
  c.spanners.find? (fun s => s.ty = ty)

def is_slur_continuation (c : LChord) : Bool :=
  match findSpanner ("Slur") c with
  | none => false
  | some s => s.hasPrev

def is_tie_continuation (c : LChord) : Bool :=
  match findSpanner ("Tie") c with
  | none => false
  | some s => s.hasPrev

def is_continuation_no_lyric (c : LChord) : Bool :=
  is_slur_continuation c || is_tie_continuation c

def has_slur_start (c : LChord) : Bool :=
  match findSpanner ("Slur") c with
  | none => false
  | some s => s.hasNext

def has_tie_start (c : LChord) : Bool :=
  match findSpanner ("Tie") c with
  | none => false
  | some s => s.hasNext

/-- `_is_verse1`: the `no` child is absent or has blank text. -/
def is_verse1 (no : Option String) : Bool :=
  match no with
  | none => true
  | some s => pyStrip s = ""

def lyricNo (l : Lyric) : String :=
  match l.no with
  | none => ""
  | some s => pyStrip s

def lyricSyllabic (l : Lyric) : String :=
  match l.syllabic with
  | none => "single"
  | some s => pyStrip s

def lyricText (l : Lyric) : String :=
  match l.text with
  | none => ""
  | some s => pyStrip s

/-- The loop of `_get_verse1_lyric`: thread the `verse1` / `verse2` slots over
the chord's `Lyrics` elements. -/
def verse1Fold : List Lyric → Option (String × String) → Option (String × String) →
    Option (String × String) × Option (String × String)
  | [], v1, v2 => (v1, v2)
  | l :: ls, v1, v2 =>
      let pair := (lyricSyllabic l, lyricText l)
      if is_verse1 l.no ∧ v1 = none then verse1Fold ls (some pair) v2
      else if lyricNo l = "1" then verse1Fold ls v1 (some pair)
      else verse1Fold ls v1 v2

/-- `_get_verse1_lyric`: verse 1 if it has content, else the verse-2 fallback,
else the (possibly blank) verse 1. -/
def get_verse1_lyric (c : LChord) : Option (String × String) :=
  match verse1Fold c.lyrics none none with
  | (some p, v2) =>
      if p.2 ≠ "" ∨ p.1 ≠ "" then some p
      else match v2 with
        | some q => some q
        | none => some p
  | (none, some q) => some q
  | (none, none) => none

/-- `_token_from_lyric`. -/
def token_from_lyric (syllabic text : String) : String :=
  let t := pyStrip text
  let suffix := if syllabic = "begin" ∨ syllabic = "middle" then "-" else ""
  t ++ suffix

/-- The loop of `_merge_tokens` (`cur` is the pending token, `acc` the emitted
result list). -/
def mergeLoop (cur : String) (acc : List String) : List String → List String
  | [] => acc ++ [cur]
  | nxt :: rest =>
      if lastChar? cur = some '-' then
        mergeLoop (rstripHyphen cur ++ "-" ++ pyStrip (lstripHyphen nxt)) acc rest
      else if headChar? nxt = some '-' then
        mergeLoop (pyRstrip cur ++ "-" ++ pyStrip (lstripHyphen nxt)) acc rest
      else mergeLoop nxt (acc ++ [cur]) rest

/-- `_merge_tokens`. -/
def merge_tokens (tokens : List String) : String :=
  match tokens with
  | [] => ""
  | t :: rest => joinSep (" ") (mergeLoop t [] rest)

def isChordOrRest : VElem → Bool
  | .chord _ => true
  | .rest _ => true
  | _ => false

/-- The per-voice token loop of `export_mscx_to_txt` (lines 352-380), with the
`slur_active` / `tie_active` flags as parameters. -/
def exportVoiceTokens : Bool → Bool → List VElem → List String
  | _, _, [] => []
  | sa, ta, .chord c :: rest =>
      if is_continuation_no_lyric c then
        exportVoiceTokens (if is_slur_continuation c then false else sa)
          (if is_tie_continuation c then false else ta) rest
      else if sa && !(has_slur_start c) && !(is_slur_continuation c) then
        exportVoiceTokens sa ta rest
      else if ta && !(has_tie_start c) && !(is_tie_continuation c) then
        exportVoiceTokens sa ta rest
      else
        (match get_verse1_lyric c with
         | some (s, t) => token_from_lyric s t
         | none => "_") ::
          exportVoiceTokens (sa || has_slur_start c) (ta || has_tie_start c) rest
  | sa, ta, _ :: rest => exportVoiceTokens sa ta rest

/-- Accumulate one staff's measures into the `by_measure_staff` dict
(`setdefault(measure_index, {})[staff_id] = measure_tokens`); measures with no
voices contribute nothing. -/
def bmAddMeasures (sid : Int) :
    List (Int × List (Int × List String)) → Int → List LMeasure →
      List (Int × List (Int × List String))
  | bm, _, [] => bm
  | bm, mi, m :: rest =>
      match m.voices with
      | [] => bmAddMeasures sid bm (mi + 1) rest
      | v :: _ =>
          bmAddMeasures sid
            (dinsert bm mi
              (dinsert ((dget? bm mi).getD []) sid (exportVoiceTokens false false v)))
            (mi + 1) rest

def byMeasureOfScore (score : Score) : List (Int × List (Int × List String)) :=
  score.staffs.foldl (fun bm st => bmAddMeasures st.id bm 0 st.measures) []

/-- Python `int` rendering (f-string interpolation). -/
def renderInt (n : Int) : String :=
  if n < 0 then "-" ++ renderNat n.natAbs else renderNat n.natAbs

/-- `f"{sid} [{n_syllables}]: {merged}"`. -/
def renderStaffLine (sid : Int) (tokens : List String) : String :=
  renderInt sid ++ " [" ++ renderNat tokens.length ++ "]: " ++ merge_tokens tokens

/-- One `# Measure N` block of the export (header plus the staff lines in
ascending staff-id order). -/
def renderMeasureBlock (mi : Int) (staffLines : List (Int × List String)) :
    List String :=
  ("# Measure " ++ renderInt (mi + 1)) ::
    (pySorted (fun a b => a < b) (staffLines.map (·.1))).map
      (fun sid => renderStaffLine sid ((dget? staffLines sid).getD []))

/-- `measure.find(".//TimeSig")` over the measure's voices in document
order. -/
def findTimeSig : List VElem → Option (Option String × Option String)
  | [] => none
  | .timeSig n d :: _ => some (n, d)
  | _ :: rest => findTimeSig rest

def measureTimeSig (m : LMeasure) : Option (Option String × Option String) :=
  findTimeSig m.voices.flatten

/-- The time-signature update of `add_rests_to_empty_measures`:
`sn is not None and sn.text and sd is not None and sd.text`, then the
`try/except ValueError` pair of `int(...)` calls (note the partial update when
only the second parse fails). -/
def timeSigStep (nd : Int × Int) (m : LMeasure) : Int × Int :=
  match measureTimeSig m with
  | none => nd
  | some (sn, sd) =>
      match sn, sd with
      | some s, some t =>
          if s ≠ "" ∧ t ≠ "" then
            match parseIntPy (pyStrip s) with
            | none => nd
            | some n' =>
                match parseIntPy (pyStrip t) with
                | none => (n', nd.2)
                | some d' => (n', d')
          else nd
      | _, _ => nd

/-- One measure of `add_rests_to_empty_measures`: update the signature, then
append a full-measure rest to every voice with no `Chord`/`Rest`, or a fresh
voice holding one if the measure has no voices. -/
def addRestsMeasure (nd : Int × Int) (m : LMeasure) : (Int × Int) × LMeasure :=
  let nd' := timeSigStep nd m
  let dt := renderInt nd'.1 ++ "/" ++ renderInt nd'.2
  match m.voices with
  | [] => (nd', ⟨[[VElem.rest (some dt)]]⟩)
  | voices =>
      (nd', ⟨voices.map (fun v =>
        if v.any isChordOrRest then v else v ++ [VElem.rest (some dt)])⟩)

def addRestsMeasures (nd : Int × Int) : List LMeasure → List LMeasure
  | [] => []
  | m :: rest =>
      let r := addRestsMeasure nd m
      r.2 :: addRestsMeasures r.1 rest

/-- `add_rests_to_empty_measures` (the signature state restarts at 4/4 for
each staff). -/
def add_rests_to_empty_measures (score : Score) : Score :=
  ⟨score.staffs.map (fun st => ⟨st.id, addRestsMeasures (4, 4) st.measures⟩)⟩

/-- `export_mscx_to_txt`, returning the mutated score together with the
rendered text (the Python function mutates `score_root` in place and returns
only the text). -/
def export_mscx_to_txt (score : Score) : Score × String :=
  let score := add_rests_to_empty_measures score
  let bm := byMeasureOfScore score
  let mis := pySorted (fun a b => a < b) (bm.map (·.1))
  (score, joinSep ("\n")
    (mis.flatMap (fun mi => renderMeasureBlock mi ((dget? bm mi).getD []))))

end lyric_txt

namespace lyric_txt

/-- The matcher of `re.match(r"#\s*Measure\s+(\d+)", line, re.IGNORECASE)`:
literal case-insensitive match, returning the unread suffix. -/
def matchLiteralCI : List Char → List Char → Option (List Char)
  | [], cs => some cs
  | _ :: _, [] => none
  | p :: ps, c :: cs =>
      if Char.toLower c = Char.toLower p then matchLiteralCI ps cs else none

/-- `re.match(r"#\s*Measure\s+(\d+)", line, re.IGNORECASE)`, as the group-1
number (the pattern is anchored at the start only; `Measure` starts with a
non-space and a digit is neither a space nor preceded by one, so the greedy
`\s*`/`\s+`/`\d+` scans are exact). -/
def headerMeasureNum? (line : String) : Option Int :=
  match line.data with
  | [] => none
  | c :: rest =>
      if c = '#' then
        match matchLiteralCI ("Measure").data (rest.dropWhile Char.isWhitespace) with
        | none => none
        | some rest2 =>
            if rest2.takeWhile Char.isWhitespace = [] then none
            else
              if (rest2.dropWhile Char.isWhitespace).takeWhile Char.isDigit = [] then none
              else some ((parseDigits
                ((rest2.dropWhile Char.isWhitespace).takeWhile Char.isDigit) : Int))
      else none

/-- `re.match(r"^(\d+)(?:\s*\[\d+\])?$", left)`, as the group-1 number (the
optional group cannot start with a digit, so the greedy `\d+` is exact). -/
def staffLeftNum? (left : String) : Option Nat :=
  if left.data.takeWhile Char.isDigit = [] then none
  else if left.data.dropWhile Char.isDigit = [] then
    some (parseDigits (left.data.takeWhile Char.isDigit))
  else
    match (left.data.dropWhile Char.isDigit).dropWhile Char.isWhitespace with
    | [] => none
    | c :: r2 =>
        if c = '[' then
          if r2.takeWhile Char.isDigit ≠ [] ∧ r2.dropWhile Char.isDigit = [']'] then
            some (parseDigits (left.data.takeWhile Char.isDigit))
          else none
        else none

/-- The token loop shared by `parse_txt` and `_tokenize_line` (after `split()`
every part is nonempty and whitespace-free, so the extra strip of
`_tokenize_line` is the identity). -/
def tokenizeParts (acc : List String) : List String → List String
  | [] => acc
  | part :: rest =>
      if part = "_" then tokenizeParts (acc ++ [("_" : String)]) rest
      else
        match acc.getLast? with
        | some last =>
            if lastChar? last = some '-' then
              tokenizeParts (acc.dropLast ++ [rstripHyphen last ++ "-" ++ part]) rest
            else tokenizeParts (acc ++ [part]) rest
        | none => tokenizeParts (acc ++ [part]) rest

def tokenize_line (line : String) : List String :=
  tokenizeParts [] (pySplit line)

/-- `line.find(":")` (the `colon < 0` guard of `parse_txt` is the `none`
case). -/
def findColon (line : String) : Option Nat :=
  line.data.findIdx? (· = ':')

structure ParseState where
  current : Option Int
  staffLines : List (Int × List String)
  blocks : List (Int × List (Int × List String))

/-- Flush the pending block (`parse_txt` does this at each `#` line and once
at the end). -/
def flushState (st : ParseState) : List (Int × List (Int × List String)) :=
  if st.current.isSome ∧ st.staffLines ≠ [] then
    st.blocks ++ [(st.current.getD 0, st.staffLines)]
  else st.blocks

/-- One iteration of the `parse_txt` line loop. -/
def parseLine (st : ParseState) (raw : String) : ParseState :=
  let line := pyStrip raw
  if line = "" then st
  else if headChar? line = some '#' then
    let st' : ParseState :=
      if st.current.isSome ∧ st.staffLines ≠ [] then
        ⟨st.current, [], flushState st⟩
      else st
    match headerMeasureNum? line with
    | some n => ⟨some n, st'.staffLines, st'.blocks⟩
    | none => st'
  else
    match findColon line with
    | none => st
    | some colon =>
        let left := pyStrip ⟨line.data.take colon⟩
        match staffLeftNum? left with
        | none => st
        | some sid =>
            let rest := pyStrip ⟨line.data.drop (colon + 1)⟩
            ⟨st.current, dinsert st.staffLines (sid : Int) (tokenize_line rest),
              st.blocks⟩

/-- `parse_txt`, as the list of `(measure, staff_lines)` blocks. -/
def parse_txt (txt : String) : List (Int × List (Int × List String)) :=
  flushState ((pySplitlines txt).foldl parseLine ⟨none, [], []⟩)

/-- `{b["measure"]: b["staff_lines"] for b in blocks}`. -/
def blocksToByMeasure (blocks : List (Int × List (Int × List String))) :
    List (Int × List (Int × List String)) :=
  blocks.foldl (fun d b => dinsert d b.1 b.2) []

/-- The `for i, p in enumerate(parts)` loop of `_tokens_to_syllables` for a
multi-part token (`fc` is `first_syllabic_continuation and idx == 0`,
`trailing` is `raw_trailing_hyphen`, `len` is `len(parts)`). -/
def sylPartsGo (fc trailing : Bool) (len : Nat) : Nat → List String → List (String × String)
  | _, [] => []
  | i, p :: rest =>
      let q := pyStrip p
      let tail := sylPartsGo fc trailing len (i + 1) rest
      if q = "" then tail
      else if fc && decide (i = 0) then (("end"), q) :: tail
      else if i = 0 then (("begin"), q) :: tail
      else if i = len - 1 then
        (if trailing then (("begin"), q) else (("end"), q)) :: tail
      else (("middle"), q) :: tail

/-- One token of `_tokens_to_syllables` (`fc` is
`first_syllabic_continuation and idx == 0`). -/
def tokenToSyls (fc : Bool) (tok : String) : List (String × String) :=
  if tok = "_" then [(("_"), (""))]
  else
    let trailing := lastChar? (pyStrip tok) = some '-'
    let parts := pySplitOnChar '-' (rstripHyphen (pyStrip tok))
    if parts.length = 1 then
      let text := pyStrip (parts.headD (""))
      if fc then [(("end"), text)]
      else if trailing then [(("begin"), text)]
      else [(("single"), text)]
    else sylPartsGo fc trailing parts.length 0 parts

def ttsGo (firstCont : Bool) : Nat → List String → List (String × String)
  | _, [] => []
  | idx, tok :: rest =>
      tokenToSyls (firstCont && decide (idx = 0)) tok ++ ttsGo firstCont (idx + 1) rest

/-- `_tokens_to_syllables`. -/
def tokens_to_syllables (tokens : List String) (firstCont : Bool) :
    List (String × String) :=
  ttsGo firstCont 0 tokens

/-- `_last_token_ends_with_hyphen`. -/
def last_token_ends_with_hyphen (tokens : List String) : Bool :=
  match tokens.getLast? with
  | none => false
  | some last =>
      let l := pyStrip last
      decide (l ≠ "_") && decide (lastChar? l = some '-')

/-- `_clear_verse1_lyrics`. -/
def clear_verse1_lyrics (c : LChord) : LChord :=
  ⟨c.spanners, c.lyrics.filter (fun l => !(is_verse1 l.no))⟩

/-- `_set_lyric` (verse 1: all existing verse-1 lyrics removed, the new
`Lyrics` element appended with no `no` child). -/
def set_lyric (c : LChord) (syllabic text : String) : LChord :=
  ⟨c.spanners,
    c.lyrics.filter (fun l => !(is_verse1 l.no)) ++ [⟨none, some syllabic, some text⟩]⟩

/-- The chord loop of `import_txt_into_mscx` (lines 623-657); the syllable
cursor is the head of `syls`.  In the cursor-overflow branch and in the
skipped (continuation / mid-slur / mid-tie) branches Python `continue`s
without touching the flags. -/
def importVoiceWalk (sa ta : Bool) (syls : List (String × String)) :
    List VElem → List VElem
  | [] => []
  | .chord c :: rest =>
      if is_continuation_no_lyric c then
        .chord (clear_verse1_lyrics c) ::
          importVoiceWalk (if is_slur_continuation c then false else sa)
            (if is_tie_continuation c then false else ta) syls rest
      else if sa && !(has_slur_start c) && !(is_slur_continuation c) then
        .chord (clear_verse1_lyrics c) :: importVoiceWalk sa ta syls rest
      else if ta && !(has_tie_start c) && !(is_tie_continuation c) then
        .chord (clear_verse1_lyrics c) :: importVoiceWalk sa ta syls rest
      else
        match syls with
        | [] => .chord (clear_verse1_lyrics c) :: importVoiceWalk sa ta [] rest
        | (s, t) :: syls' =>
            (if s = "_" then .chord (clear_verse1_lyrics c)
             else .chord (set_lyric c s t)) ::
              importVoiceWalk (sa || has_slur_start c) (ta || has_tie_start c) syls' rest
  | el :: rest => el :: importVoiceWalk sa ta syls rest

/-- One measure of the import loop: look up the tokens, derive the
cross-measure continuation flag from the previous measure's tokens, and walk
the first voice. -/
def importMeasure (byM : List (Int × List (Int × List String))) (sid : Int)
    (oneBased : Int) (m : LMeasure) : LMeasure :=
  match dget? byM oneBased with
  | none => m
  | some staffLines =>
      match dget? staffLines sid with
      | none => m
      | some tokens =>
          let prevTokens := (dget? ((dget? byM (oneBased - 1)).getD []) sid).getD []
          let fc := last_token_ends_with_hyphen prevTokens
          let syls := tokens_to_syllables tokens fc
          match m.voices with
          | [] => m
          | v :: vs => ⟨importVoiceWalk false false syls v :: vs⟩

def importMeasures (byM : List (Int × List (Int × List String))) (sid : Int) :
    Int → List LMeasure → List LMeasure
  | _, [] => []
  | oneBased, m :: rest =>
      importMeasure byM sid oneBased m :: importMeasures byM sid (oneBased + 1) rest

/-- `_remove_verse2_plus`, on one chord. -/
def remove_verse2_plus_chord (c : LChord) : LChord :=
  ⟨c.spanners, c.lyrics.filter (fun l => is_verse1 l.no)⟩

/-- The final sweep of `import_txt_into_mscx`: clear verse-1 lyrics from every
continuation chord. -/
def sweepChord (c : LChord) : LChord :=
  if is_continuation_no_lyric c then clear_verse1_lyrics c else c

/-- Apply a chord transformation to every chord of the score (the shape of
`_remove_verse2_plus` and of the final spanner sweep, both of which visit all
chords of all staffs and voices). -/
def mapChords (f : LChord → LChord) (score : Score) : Score :=
  ⟨score.staffs.map (fun st => ⟨st.id, st.measures.map (fun m =>
    ⟨m.voices.map (fun v => v.map (fun el =>
      match el with
      | .chord c => .chord (f c)
      | e => e))⟩)⟩)⟩

/-- The shared import core (`import_txt_into_mscx` after `by_measure` is
known): walk the measure-bearing staffs, then remove verse-2+ lyrics and
clear verse-1 lyrics from continuation chords everywhere.  Staffs without
measures are exactly the ones the `s.find(".//Measure") is not None` filter
drops, and on them the measure walk is vacuous. -/
def import_by_measure (score : Score)
    (byM : List (Int × List (Int × List String))) : Score :=
  let s2 : Score := ⟨score.staffs.map (fun st =>
    ⟨st.id, importMeasures byM st.id 1 st.measures⟩)⟩
  mapChords (fun c => sweepChord (remove_verse2_plus_chord c)) s2

/-- `import_txt_into_mscx` with a `txt` argument. -/
def import_txt_into_mscx (score : Score) (txt : String) : Score :=
  import_by_measure (add_rests_to_empty_measures score)
    (blocksToByMeasure (parse_txt txt))

end lyric_txt

namespace lyric_txt

/-- `DEFAULT_PART_TO_STAFF`. -/
def DEFAULT_PART_TO_STAFF : List (String × Int) :=
  [(("S1"), 1), (("S2"), 2), (("A1"), 3), (("A2"), 4)]

/-- One object of the parsed JSON array: `measure_start` (when present and an
integer) and the part-key entries (`none` models an absent or non-string
value; by `parse_json_txt` the first row always carries `measure_start`, and
`"measure_start"` is not a part key). -/
structure JsonRow where
  measure_start : Option Int
  values : List (String × Option String)
deriving DecidableEq

/-- Python `str.isdigit()` (ASCII range). -/
def pyIsdigit (s : String) : Bool :=
  decide (s.data ≠ []) && s.data.all Char.isDigit

/-- The per-voice counting loop of `_get_chord_counts_per_measure` (the same
eligibility walk as the export). -/
def countVoice : Bool → Bool → List VElem → Nat
  | _, _, [] => 0
  | sa, ta, .chord c :: rest =>
      if is_continuation_no_lyric c then
        countVoice (if is_slur_continuation c then false else sa)
          (if is_tie_continuation c then false else ta) rest
      else if sa && !(has_slur_start c) && !(is_slur_continuation c) then
        countVoice sa ta rest
      else if ta && !(has_tie_start c) && !(is_tie_continuation c) then
        countVoice sa ta rest
      else countVoice (sa || has_slur_start c) (ta || has_tie_start c) rest + 1
  | sa, ta, _ :: rest => countVoice sa ta rest

/-- Accumulate one staff into `_get_chord_counts_per_measure`'s
`out.setdefault(staff_id, {})[measure_index + 1] = count`. -/
def ccAddMeasures (sid : Int) (out : List (Int × List (Int × Nat))) :
    Int → List LMeasure → List (Int × List (Int × Nat))
  | _, [] => out
  | mi, m :: rest =>
      match m.voices with
      | [] => ccAddMeasures sid out (mi + 1) rest
      | v :: _ =>
          ccAddMeasures sid
            (dinsert out sid
              (dinsert ((dget? out sid).getD []) (mi + 1) (countVoice false false v)))
            (mi + 1) rest

def get_chord_counts_per_measure (score : Score) : List (Int × List (Int × Nat)) :=
  score.staffs.foldl (fun out st => ccAddMeasures st.id out 0 st.measures) []

/-- `_syllables_to_tokens` (`some parts` is the state inside the inner
`begin` word loop; the Python `while/else` appends `join + "-"` when the list
runs out, drops the pending parts when a non-`middle`/`end` syllable breaks
the word and re-dispatches on that syllable in the outer loop, which is
inlined here). -/
def s2tGo : Option (List String) → List (String × String) → List String
  | none, [] => []
  | some parts, [] => [joinSep ("-") parts ++ "-"]
  | none, (s, t) :: rest =>
      if s = "_" then ("_" : String) :: s2tGo none rest
      else if s = "single" then t :: s2tGo none rest
      else if s = "begin" then s2tGo (some [t]) rest
      else if s = "end" then t :: s2tGo none rest
      else if s = "middle" then t :: s2tGo none rest
      else s2tGo none rest
  | some parts, (s2, t2) :: rest =>
      if s2 = "middle" then s2tGo (some (parts ++ [t2])) rest
      else if s2 = "end" then (joinSep ("-") (parts ++ [t2])) :: s2tGo none rest
      else if s2 = "_" then ("_" : String) :: s2tGo none rest
      else if s2 = "single" then t2 :: s2tGo none rest
      else if s2 = "begin" then s2tGo (some [t2]) rest
      else s2tGo none rest

def syllables_to_tokens (syls : List (String × String)) : List String :=
  s2tGo none syls

/-- `max(counts.keys())`. -/
def maxKey (counts : List (Int × Nat)) : Option Int :=
  match counts.map (·.1) with
  | [] => none
  | k :: ks => some (ks.foldl max k)

/-- The `for m in range(m_start, m_end)` distribution loop of
`json_lines_to_by_measure` (the remaining iteration count is
`(m_end - m_start).toNat`; the chunk is nonempty whenever it is written
because the syllable list is nonempty and `n_slots > 0`). -/
def distChunks (sid : Int) (counts : List (Int × Nat))
    (byM : List (Int × List (Int × List String))) :
    Int → Nat → List (String × String) → List (Int × List (Int × List String))
  | _, 0, _ => byM
  | m, steps + 1, syls =>
      if syls = [] then byM
      else
        let nSlots := (dget? counts m).getD 0
        if nSlots = 0 then distChunks sid counts byM (m + 1) steps syls
        else
          distChunks sid counts
            (dinsert byM m
              (dinsert ((dget? byM m).getD []) sid (syllables_to_tokens (syls.take nSlots))))
            (m + 1) steps (syls.drop nSlots)

/-- The `for row in json_data` collection loop for one part key. -/
def jsonLines (rows : List JsonRow) (key : String) : List (Int × List String) :=
  rows.filterMap (fun row =>
    match row.measure_start with
    | none => none
    | some ms =>
        let text := ((dget? row.values key).getD none).getD ""
        some (ms, tokenize_line (pyStrip text)))

/-- The `for line_idx, (m_start, tokens) in enumerate(lines)` loop. -/
def jlProcess (sid : Int) (counts : List (Int × Nat)) :
    Bool → List (Int × List String) → List (Int × List (Int × List String)) →
      List (Int × List (Int × List String))
  | _, [], byM => byM
  | prevT, (mStart, tokens) :: rest, byM =>
      let syls := tokens_to_syllables tokens prevT
      let mEnd : Int :=
        match rest with
        | (ns, _) :: _ => ns
        | [] =>
            match maxKey counts with
            | some mk => mk + 1
            | none => mStart + 1
      jlProcess sid counts (last_token_ends_with_hyphen tokens) rest
        (distChunks sid counts byM mStart (mEnd - mStart).toNat syls)

/-- `json_lines_to_by_measure`. -/
def json_lines_to_by_measure (rows : List JsonRow)
    (chordCounts : List (Int × List (Int × Nat)))
    (partToStaff : List (String × Int)) : List (Int × List (Int × List String)) :=
  match rows with
  | [] => []
  | first :: _ =>
      (first.values.map (·.1)).foldl (fun byM key =>
        let staffId? : Option Int :=
          if pyIsdigit key then some ((parseDigits key.data : Int))
          else dget? partToStaff key
        match staffId? with
        | none => byM
        | some sid =>
            jlProcess sid ((dget? chordCounts sid).getD [])
              false (pySorted (fun a b => a.1 < b.1) (jsonLines rows key)) byM) []

/-- `_apply_split_to_by_measure`. -/
def apply_split_to_by_measure (byM : List (Int × List (Int × List String)))
    (split : List Int) : List (Int × List (Int × List String)) :=
  if split = [] then byM
  else byM.map (fun p =>
    (p.1, p.2.foldl (fun inner q =>
      (match split.indexOf? q.1 with
       | some i => [q.1 + (i : Int), q.1 + (i : Int) + 1]
       | none => [q.1]).foldl (fun inner2 oid => dinsert inner2 oid q.2) inner) []))

/-- `import_json_txt_into_mscx` (after `parse_json_txt`; `rows = []` models
the early return on unparseable JSON, and `import_txt_into_mscx` applies
`add_rests_to_empty_measures` a second time, faithfully kept here). -/
def import_json_txt_into_mscx (score : Score) (rows : List JsonRow)
    (partToStaff : List (String × Int)) (split : List Int) : Score :=
  let s1 := add_rests_to_empty_measures score
  if rows = [] then s1
  else
    let byM := json_lines_to_by_measure rows (get_chord_counts_per_measure s1) partToStaff
    import_by_measure (add_rests_to_empty_measures s1)
      (if split ≠ [] then apply_split_to_by_measure byM split else byM)

end lyric_txt

namespace lyric_txt

/-- The time signature in force at measure `i` (a fold of the update step over
the measures up to and including `i`, from the per-staff initial 4/4). -/
def sigInForceFrom (nd : Int × Int) (ms : List LMeasure) (i : Nat) : Int × Int :=
  (ms.take (i + 1)).foldl timeSigStep nd

/-- What the repair does to measure `i` of a staff: a full-measure rest whose
duration is the signature in force, appended to every `Chord`/`Rest`-free
voice, or placed in a fresh voice when the measure has none. -/
def restFillFrom (nd : Int × Int) (ms : List LMeasure) (i : Nat) : LMeasure :=
  let sig := sigInForceFrom nd ms i
  let dt := renderInt sig.1 ++ "/" ++ renderInt sig.2
  match (ms.getD i ⟨[]⟩).voices with
  | [] => ⟨[[VElem.rest (some dt)]]⟩
  | voices =>
      ⟨voices.map (fun v =>
        if v.any isChordOrRest then v else v ++ [VElem.rest (some dt)])⟩

def expectedRestFill (ms : List LMeasure) (i : Nat) : LMeasure :=
  restFillFrom (4, 4) ms i

/-- Every measure has at least one voice, and every voice holds a `Chord` or a
`Rest`. -/
def noEmptySlots (score : Score) : Bool :=
  score.staffs.all (fun st => st.measures.all (fun m =>
    decide (m.voices ≠ []) && m.voices.all (fun v => v.any isChordOrRest)))

theorem addRestsMeasure_fst (nd : Int × Int) (m : LMeasure) :
    (addRestsMeasure nd m).1 = timeSigStep nd m := by
  rw [addRestsMeasure]
  cases m.voices with
  | nil => rfl
  | cons v vs => rfl


theorem addRestsMeasures_eq (ms : List LMeasure) : ∀ nd,
    addRestsMeasures nd ms = (List.range ms.length).map (restFillFrom nd ms) := by
  induction ms with
  | nil => intro nd; rfl
  | cons m ms ih =>
    intro nd
    rw [addRestsMeasures, List.length_cons, List.range_succ_eq_map, List.map_cons,
      addRestsMeasure_fst, ih (timeSigStep nd m), List.map_map]
    have hhead : (addRestsMeasure nd m).2 = restFillFrom nd (m :: ms) 0 := by
      obtain ⟨mv⟩ := m
      cases mv with
      | nil => rfl
      | cons v vs => rfl
    have htail : List.map (restFillFrom (timeSigStep nd m) ms) (List.range ms.length) =
        List.map (restFillFrom nd (m :: ms) ∘ Nat.succ) (List.range ms.length) := by
      apply List.map_congr_left
      intro i _
      show restFillFrom (timeSigStep nd m) ms i = restFillFrom nd (m :: ms) (i + 1)
      rw [restFillFrom, restFillFrom, sigInForceFrom, sigInForceFrom]
      rfl
    rw [hhead, htail]

theorem add_rests_eq (score : Score) :
    add_rests_to_empty_measures score =
      ⟨score.staffs.map (fun st =>
        ⟨st.id, (List.range st.measures.length).map (expectedRestFill st.measures)⟩)⟩ := by
  rw [add_rests_to_empty_measures]
  congr 1
  apply List.map_congr_left
  intro st _
  rw [addRestsMeasures_eq]
  rfl

theorem addRestsMeasure_noEmpty (nd : Int × Int) (m : LMeasure) :
    (decide ((addRestsMeasure nd m).2.voices ≠ []) &&
      (addRestsMeasure nd m).2.voices.all (fun v => v.any isChordOrRest)) = true := by
  obtain ⟨mv⟩ := m
  cases mv with
  | nil => simp [addRestsMeasure, isChordOrRest]
  | cons v vs =>
    simp only [addRestsMeasure, Bool.and_eq_true, decide_eq_true_eq, List.all_eq_true]
    refine ⟨by simp, ?_⟩
    intro w hw
    rw [List.mem_map] at hw
    obtain ⟨w0, _, rfl⟩ := hw
    by_cases hc : w0.any isChordOrRest
    · rw [if_pos hc]; exact hc
    · rw [if_neg hc, List.any_append]
      simp [isChordOrRest]

theorem noEmptySlots_addRests (score : Score) :
    noEmptySlots (add_rests_to_empty_measures score) = true := by
  rw [add_rests_to_empty_measures, noEmptySlots]
  rw [List.all_eq_true]
  intro st hst
  rw [List.mem_map] at hst
  obtain ⟨st0, _, rfl⟩ := hst
  rw [List.all_eq_true]
  intro m hm
  have : ∀ nd ms, m ∈ addRestsMeasures nd ms →
      (decide (m.voices ≠ []) && m.voices.all (fun v => v.any isChordOrRest)) = true := by
    intro nd ms
    induction ms generalizing nd with
    | nil => intro hc; exact absurd hc (List.not_mem_nil m)
    | cons m0 ms ih =>
      intro hc
      rw [addRestsMeasures] at hc
      rcases List.mem_cons.1 hc with hc | hc
      · subst hc
        exact addRestsMeasure_noEmpty nd m0
      · exact ih (addRestsMeasure nd m0).1 hc
  exact this (4, 4) st0.measures hm

theorem importVoiceWalk_any_chordOrRest (v : List VElem) : ∀ (sa ta : Bool)
    (syls : List (String × String)),
    (importVoiceWalk sa ta syls v).any isChordOrRest = v.any isChordOrRest := by
  induction v with
  | nil => intro sa ta syls; rfl
  | cons el rest ih =>
    intro sa ta syls
    cases el with
    | chord c =>
      simp only [importVoiceWalk]
      by_cases h1 : is_continuation_no_lyric c
      · rw [if_pos h1]; simp [isChordOrRest, ih]
      · rw [if_neg h1]
        by_cases h2 : (sa && !(has_slur_start c) && !(is_slur_continuation c)) = true
        · rw [if_pos h2]; simp [isChordOrRest, ih]
        · rw [if_neg h2]
          by_cases h3 : (ta && !(has_tie_start c) && !(is_tie_continuation c)) = true
          · rw [if_pos h3]; simp [isChordOrRest, ih]
          · rw [if_neg h3]
            cases syls with
            | nil => simp [isChordOrRest, ih]
            | cons p syls' =>
              obtain ⟨s, t⟩ := p
              by_cases h4 : s = "_"
              · simp [h4, isChordOrRest, ih]
              · simp [h4, isChordOrRest, ih]
    | rest d => simp only [importVoiceWalk]; simp [isChordOrRest, ih]
    | timeSig a b => simp only [importVoiceWalk]; simp [isChordOrRest, ih]
    | location => simp only [importVoiceWalk]; simp [isChordOrRest, ih]
    | other => simp only [importVoiceWalk]; simp [isChordOrRest, ih]

theorem mapChords_any_chordOrRest (f : LChord → LChord) (v : List VElem) :
    (v.map (fun el => match el with
      | VElem.chord c => VElem.chord (f c)
      | e => e)).any isChordOrRest = v.any isChordOrRest := by
  induction v with
  | nil => rfl
  | cons el rest ih =>
    cases el <;> simp only [List.map_cons, List.any_cons, isChordOrRest, ih]

theorem importMeasure_voices (byM : List (Int × List (Int × List String))) (sid : Int)
    (ob : Int) (m : LMeasure) :
    (importMeasure byM sid ob m).voices = m.voices ∨
      ∃ w vs sy, m.voices = w :: vs ∧
        (importMeasure byM sid ob m).voices = importVoiceWalk false false sy w :: vs := by
  obtain ⟨mv⟩ := m
  rw [importMeasure]
  cases dget? byM ob with
  | none => exact Or.inl rfl
  | some sl =>
    dsimp only
    cases dget? sl sid with
    | none => exact Or.inl rfl
    | some toks =>
      dsimp only
      cases mv with
      | nil => exact Or.inl rfl
      | cons w vs =>
          exact Or.inr ⟨w, vs,
            tokens_to_syllables toks (last_token_ends_with_hyphen
              ((dget? ((dget? byM (ob - 1)).getD []) sid).getD [])), rfl, rfl⟩

theorem importMeasures_mem (byM : List (Int × List (Int × List String))) (sid : Int)
    (m1 : LMeasure) : ∀ (ob : Int) (ms : List LMeasure),
    m1 ∈ importMeasures byM sid ob ms →
      ∃ m0 ∈ ms, ∃ ob', m1 = importMeasure byM sid ob' m0 := by
  intro ob ms
  induction ms generalizing ob with
  | nil => intro hc; exact absurd hc (List.not_mem_nil m1)
  | cons m0 ms ih =>
    intro hc
    rw [importMeasures] at hc
    rcases List.mem_cons.1 hc with hc | hc
    · exact ⟨m0, List.mem_cons_self m0 ms, ob, hc⟩
    · obtain ⟨m2, hm2, ob', he⟩ := ih (ob + 1) hc
      exact ⟨m2, List.mem_cons_of_mem _ hm2, ob', he⟩

theorem noEmptySlots_import_by_measure (score : Score)
    (byM : List (Int × List (Int × List String)))
    (h : noEmptySlots score = true) :
    noEmptySlots (import_by_measure score byM) = true := by
  rw [noEmptySlots, List.all_eq_true] at h
  rw [import_by_measure, mapChords, noEmptySlots, List.all_eq_true]
  intro st2 hst2
  simp only [List.map_map, List.mem_map, Function.comp] at hst2
  obtain ⟨st0, hst0, rfl⟩ := hst2
  rw [List.all_eq_true]
  intro m2 hm2
  simp only [List.mem_map] at hm2
  obtain ⟨m1, hm1, rfl⟩ := hm2
  obtain ⟨m0, hm0, ob', rfl⟩ := importMeasures_mem byM st0.id m1 1 st0.measures hm1
  have hbase := h st0 hst0
  rw [List.all_eq_true] at hbase
  have hbase0 := hbase m0 hm0
  simp only [Bool.and_eq_true, decide_eq_true_eq, List.all_eq_true] at hbase0 ⊢
  obtain ⟨hne0, hall0⟩ := hbase0
  rcases importMeasure_voices byM st0.id ob' m0 with hv | ⟨w, vs, sy, hw, hv⟩
  · rw [hv]
    refine ⟨by simpa using hne0, ?_⟩
    intro v2 hv2
    rw [List.mem_map] at hv2
    obtain ⟨v1, hv1, rfl⟩ := hv2
    rw [mapChords_any_chordOrRest]
    exact hall0 v1 hv1
  · rw [hv]
    refine ⟨by simp, ?_⟩
    intro v2 hv2
    rw [List.map_cons, List.mem_cons] at hv2
    rcases hv2 with hv2 | hv2
    · subst hv2
      rw [mapChords_any_chordOrRest, importVoiceWalk_any_chordOrRest]
      exact hall0 w (hw ▸ List.mem_cons_self w vs)
    · rw [List.mem_map] at hv2
      obtain ⟨v1, hv1, rfl⟩ := hv2
      rw [mapChords_any_chordOrRest]
      exact hall0 v1 (hw ▸ List.mem_cons_of_mem w hv1)

end lyric_txt

/-- **C9.**  Exporting lyrics is not read-only on the score:
`add_rests_to_empty_measures` rewrites every measure so that each voice with
no `Chord` and no `Rest` gains a full-measure rest sized from the time
signature in force (defaulting to 4/4, restarted per staff), and each
voiceless measure gains a fresh voice holding such a rest; `export_mscx_to_txt`
performs exactly this mutation on the score before rendering any text, and
after either import entry point (plain text or JSON) the score likewise has no
`Chord`/`Rest`-free voice and no voiceless measure. -/
theorem c9_export_mutates_score :
    (∀ score : lyric_txt.Score,
      lyric_txt.add_rests_to_empty_measures score =
        ⟨score.staffs.map (fun st =>
          ⟨st.id, (List.range st.measures.length).map
            (lyric_txt.expectedRestFill st.measures)⟩)⟩) ∧
    (∀ score : lyric_txt.Score,
      (lyric_txt.export_mscx_to_txt score).1 =
        lyric_txt.add_rests_to_empty_measures score) ∧
    (∀ score : lyric_txt.Score,
      lyric_txt.noEmptySlots ((lyric_txt.export_mscx_to_txt score).1) = true) ∧
    (∀ (score : lyric_txt.Score) (txt : String),
      lyric_txt.noEmptySlots (lyric_txt.import_txt_into_mscx score txt) = true) ∧
    (∀ (score : lyric_txt.Score) (rows : List lyric_txt.JsonRow)
        (pts : List (String × Int)) (split : List Int),
      lyric_txt.noEmptySlots
        (lyric_txt.import_json_txt_into_mscx score rows pts split) = true) := by
  refine ⟨lyric_txt.add_rests_eq, fun score => rfl, ?_, ?_, ?_⟩
  · intro score
    exact lyric_txt.noEmptySlots_addRests score
  · intro score txt
    exact lyric_txt.noEmptySlots_import_by_measure _ _
      (lyric_txt.noEmptySlots_addRests score)
  · intro score rows pts split
    rw [lyric_txt.import_json_txt_into_mscx]
    by_cases hrows : rows = []
    · rw [if_pos hrows]
      exact lyric_txt.noEmptySlots_addRests score
    · rw [if_neg hrows]
      exact lyric_txt.noEmptySlots_import_by_measure _ _
        (lyric_txt.noEmptySlots_addRests _)

namespace lyric_txt

/-- C1's counterexample document: one staff, one measure, one voice holding a
single chord whose verse-1 lyric is the dangling final syllable
(`syllabic = "end"`, text `la`) of a word begun in an earlier system. -/
def c1_doc : Score :=
  ⟨[⟨1, [⟨[[VElem.chord ⟨[], [⟨none, some ("end"), some ("la")⟩]⟩]]⟩]⟩]⟩

/-- First chord of the first voice of the first measure of the first staff. -/
def firstChord? (score : Score) : Option LChord :=
  match score.staffs with
  | st :: _ =>
      match st.measures with
      | m :: _ =>
          match m.voices with
          | v :: _ => v.findSome? (fun el =>
              match el with
              | VElem.chord c => some c
              | _ => none)
          | [] => none
      | [] => none
  | [] => none

end lyric_txt

/-- **C1, counterexample.**  The chord is lyric-eligible (voice 0, verse 1, no
spanner), yet export renders its `end` syllable as the bare token `la`, which
the import then writes back as `syllabic = "single"`: the round trip does not
leave the syllable-role state identical. -/
theorem c1_counterexample :
    (lyric_txt.firstChord? lyric_txt.c1_doc).map lyric_txt.get_verse1_lyric =
      some (some ((("end"), ("la")))) ∧
    (lyric_txt.firstChord? (lyric_txt.import_txt_into_mscx lyric_txt.c1_doc
        (lyric_txt.export_mscx_to_txt lyric_txt.c1_doc).2)).map
        lyric_txt.get_verse1_lyric =
      some (some ((("single"), ("la")))) ∧
    ¬ (lyric_txt.firstChord? (lyric_txt.import_txt_into_mscx lyric_txt.c1_doc
        (lyric_txt.export_mscx_to_txt lyric_txt.c1_doc).2)).map
        lyric_txt.get_verse1_lyric =
      (lyric_txt.firstChord? lyric_txt.c1_doc).map lyric_txt.get_verse1_lyric := by
  refine ⟨by decide, by decide, by decide⟩

namespace lyric_txt

/-! ### The amended round-trip property

`wfScore` captures the documents on which the TXT round trip is lossless:
positive staff ids that are distinct among measure-bearing staffs, no measure
without voices, no voice without a `Chord` or `Rest` (so the rest-filling
pass is the identity), and on voice 0 only verse-1 lyrics whose content is a
single-syllable word — nonempty, without whitespace or hyphens, and not the
underscore placeholder. -/

/-- A word that survives the text format: nonempty, no whitespace, no hyphen,
not `_`. -/
def wfText (t : String) : Bool :=
  decide (t ≠ "") && decide (t ≠ ("_" : String)) &&
  t.data.all (fun ch => !ch.isWhitespace && decide (ch ≠ '-'))

/-- An export token: the placeholder or a well-formed word. -/
def wfToken (tok : String) : Bool :=
  decide (tok = ("_" : String)) || wfText tok

def wfTokens (toks : List String) : Bool := toks.all wfToken

def wfChord (c : LChord) : Bool :=
  c.lyrics.all (fun l => is_verse1 l.no) &&
  (match get_verse1_lyric c with
   | none => true
   | some (s, t) => decide (s = ("single" : String)) && wfText t)

def wfVoice0 (v : List VElem) : Bool :=
  v.all (fun el =>
    match el with
    | VElem.chord c => wfChord c
    | _ => true)

def wfMeasure (m : LMeasure) : Bool :=
  decide (m.voices ≠ []) &&
  m.voices.all (fun v => v.any isChordOrRest) &&
  (match m.voices with
   | [] => true
   | v0 :: _ => wfVoice0 v0)

def wfStaff (st : LStaff) : Bool :=
  decide (1 ≤ st.id) && st.measures.all wfMeasure

def wfScore (score : Score) : Bool :=
  score.staffs.all wfStaff &&
  decide (((score.staffs.filter (fun st => st.measures ≠ [])).map (·.id)).Nodup)

/-- What the round trip should leave on voice 0 (the spec's words): a chord
that is lyric-eligible under the slur/tie walk keeps exactly its verse-1
`(syllabic, text)` content as its sole lyric; every other chord of the voice
is left with no lyric at all. -/
def roundVoice0 (sa ta : Bool) : List VElem → List VElem
  | [] => []
  | .chord c :: rest =>
      if is_continuation_no_lyric c then
        .chord ⟨c.spanners, []⟩ ::
          roundVoice0 (if is_slur_continuation c then false else sa)
            (if is_tie_continuation c then false else ta) rest
      else if sa && !(has_slur_start c) && !(is_slur_continuation c) then
        .chord ⟨c.spanners, []⟩ :: roundVoice0 sa ta rest
      else if ta && !(has_tie_start c) && !(is_tie_continuation c) then
        .chord ⟨c.spanners, []⟩ :: roundVoice0 sa ta rest
      else
        (match get_verse1_lyric c with
         | some (s, t) => VElem.chord ⟨c.spanners, [⟨none, some s, some t⟩]⟩
         | none => VElem.chord ⟨c.spanners, []⟩) ::
          roundVoice0 (sa || has_slur_start c) (ta || has_tie_start c) rest
  | el :: rest => el :: roundVoice0 sa ta rest

def postChord (c : LChord) : LChord := sweepChord (remove_verse2_plus_chord c)

/-- The round trip on elements outside voice 0: verse-2+ lyrics are removed
from every chord and continuation chords lose their verse-1 lyrics too. -/
def otherElemT : VElem → VElem
  | .chord c => .chord (postChord c)
  | el => el

/-- The expected result of export-then-import on a well-formed score. -/
def round_trip_spec (score : Score) : Score :=
  ⟨score.staffs.map (fun st => ⟨st.id, st.measures.map (fun m =>
    match m.voices with
    | [] => m
    | v0 :: vs => ⟨roundVoice0 false false v0 :: vs.map (List.map otherElemT)⟩)⟩)⟩

end lyric_txt

namespace lyric_txt

/-! ### String-level facts used by the round-trip proof -/

theorem dropWhile_eq_self_of_head {p : Char → Bool} (l : List Char)
    (h : ∀ c ∈ l.head?, p c = false) : l.dropWhile p = l := by
  cases l with
  | nil => rfl
  | cons c cs =>
    rw [List.dropWhile_cons, h c rfl]
    simp

theorem pyStrip_eq_self (s : String)
    (h1 : ∀ c ∈ s.data.head?, c.isWhitespace = false)
    (h2 : ∀ c ∈ s.data.getLast?, c.isWhitespace = false) : pyStrip s = s := by
  rw [pyStrip, dropWhile_eq_self_of_head s.data h1]
  rw [dropWhile_eq_self_of_head s.data.reverse (by
    intro c hc
    rw [List.head?_reverse] at hc
    exact h2 c hc)]
  rw [List.reverse_reverse]

theorem pyStrip_eq_self_of_all (s : String)
    (h : ∀ c ∈ s.data, c.isWhitespace = false) : pyStrip s = s :=
  pyStrip_eq_self s (fun c hc => h c (List.mem_of_mem_head? hc))
    (fun c hc => h c (List.mem_of_mem_getLast? hc))

theorem splitChar_ne_nil (p : Char → Bool) (l : List Char) : splitChar p l ≠ [] := by
  cases l with
  | nil => simp [splitChar]
  | cons c cs =>
    rw [splitChar]
    by_cases h : p c
    · simp [h]
    · simp only [if_neg h]
      cases splitChar p cs <;> simp

theorem splitChar_all_false (p : Char → Bool) (l : List Char)
    (h : ∀ c ∈ l, p c = false) : splitChar p l = [l] := by
  induction l with
  | nil => rfl
  | cons c cs ih =>
    rw [splitChar, h c (List.mem_cons_self c cs)]
    simp only [Bool.false_eq_true, if_false]
    rw [ih (fun d hd => h d (List.mem_cons_of_mem c hd))]

theorem splitChar_sep (p : Char → Bool) (a : List Char) (x : Char) (xs : List Char)
    (ha : ∀ c ∈ a, p c = false) (hx : p x = true) :
    splitChar p (a ++ x :: xs) = a :: splitChar p xs := by
  induction a with
  | nil =>
    rw [List.nil_append, splitChar, hx]
    simp
  | cons c cs ih =>
    rw [List.cons_append, splitChar, ha c (List.mem_cons_self c cs)]
    simp only [Bool.false_eq_true, if_false]
    rw [ih (fun d hd => ha d (List.mem_cons_of_mem c hd))]

theorem joinSep_cons_cons (sep : String) (x y : String) (ys : List String) :
    joinSep sep (x :: y :: ys) = x ++ sep ++ joinSep sep (y :: ys) := rfl

theorem joinSep_cons_cons_data (x y : String) (ys : List String) (sep : String)
    (c : Char) (hc : sep.data = [c]) :
    (joinSep sep (x :: y :: ys)).data = x.data ++ c :: (joinSep sep (y :: ys)).data := by
  rw [joinSep_cons_cons, String.data_append, String.data_append, hc, List.append_assoc]
  rfl

/-- Splitting the space-join of nonempty whitespace-free tokens recovers the
tokens. -/
theorem pySplit_joinSep (tokens : List String)
    (h : ∀ t ∈ tokens, t.data ≠ [] ∧ ∀ c ∈ t.data, c.isWhitespace = false) :
    pySplit (joinSep (" ") tokens) = tokens := by
  induction tokens with
  | nil => rfl
  | cons t rest ih =>
    cases rest with
    | nil =>
      obtain ⟨hne, hws⟩ := h t (List.mem_cons_self t [])
      rw [joinSep, pySplit, splitChar_all_false _ _ hws]
      simp [hne]
    | cons u us =>
      obtain ⟨hne, hws⟩ := h t (List.mem_cons_self t _)
      have ihx := ih (fun v hv => h v (List.mem_cons_of_mem t hv))
      rw [pySplit] at ihx ⊢
      rw [joinSep_cons_cons_data t u us (" ") ' ' rfl,
        splitChar_sep _ _ _ _ hws (by decide), List.filter_cons,
        if_pos (decide_eq_true hne), List.map_cons, ihx]

/-- The last character of a single-character-separator join of nonempty
tokens avoiding a character class also avoids it. -/
theorem joinSep_getLast_false (p : Char → Bool) (sep : String) (c0 : Char)
    (hsep : sep.data = [c0]) (tokens : List String)
    (h : ∀ t ∈ tokens, t.data ≠ [] ∧ ∀ c ∈ t.data, p c = false) :
    ∀ c ∈ (joinSep sep tokens).data.getLast?, p c = false := by
  induction tokens with
  | nil => intro c hc; exact absurd hc (by simp [joinSep])
  | cons t rest ih =>
    cases rest with
    | nil =>
      obtain ⟨hne, hws⟩ := h t (List.mem_cons_self t [])
      intro c hc
      exact hws c (List.mem_of_mem_getLast? hc)
    | cons u us =>
      intro c hc
      rw [joinSep_cons_cons_data t u us sep c0 hsep, List.getLast?_append] at hc
      have hne2 : (joinSep sep (u :: us)).data ≠ [] := by
        have hu := (h u (by simp)).1
        cases us with
        | nil => simpa [joinSep] using hu
        | cons w ws =>
          rw [joinSep_cons_cons_data u w ws sep c0 hsep]
          simp [hu]
      have hlast : (c0 :: (joinSep sep (u :: us)).data).getLast? =
          (joinSep sep (u :: us)).data.getLast? := by
        cases hJ : (joinSep sep (u :: us)).data with
        | nil => exact absurd hJ hne2
        | cons a l => rw [List.getLast?_cons_cons]
      rw [hlast] at hc
      have ha := List.getLast?_eq_getLast (joinSep sep (u :: us)).data hne2
      rw [ha] at hc
      have hor : (some ((joinSep sep (u :: us)).data.getLast hne2)).or
          t.data.getLast? = some ((joinSep sep (u :: us)).data.getLast hne2) := rfl
      rw [hor, Option.mem_some_iff] at hc
      subst hc
      exact ih (fun v hv => h v (List.mem_cons_of_mem t hv)) _ (ha ▸ rfl)

theorem takeWhile_all {p : Char → Bool} (l : List Char) (h : ∀ c ∈ l, p c = true) :
    l.takeWhile p = l := by
  induction l with
  | nil => rfl
  | cons c cs ih =>
    rw [List.takeWhile_cons, h c (List.mem_cons_self c cs),
      ih (fun d hd => h d (List.mem_cons_of_mem c hd))]
    simp

theorem takeWhile_head_false {p : Char → Bool} (l : List Char)
    (h : ∀ c ∈ l.head?, p c = false) : l.takeWhile p = [] := by
  cases l with
  | nil => rfl
  | cons c cs => rw [List.takeWhile_cons, h c rfl]; simp

theorem takeWhile_append_stop {p : Char → Bool} (a b : List Char)
    (ha : ∀ c ∈ a, p c = true) (hb : ∀ c ∈ b.head?, p c = false) :
    (a ++ b).takeWhile p = a := by
  induction a with
  | nil => exact takeWhile_head_false b hb
  | cons c cs ih =>
    rw [List.cons_append, List.takeWhile_cons, ha c (List.mem_cons_self c cs),
      ih (fun d hd => ha d (List.mem_cons_of_mem c hd))]
    simp

theorem dropWhile_append_stop {p : Char → Bool} (a b : List Char)
    (ha : ∀ c ∈ a, p c = true) (hb : ∀ c ∈ b.head?, p c = false) :
    (a ++ b).dropWhile p = b := by
  induction a with
  | nil => exact dropWhile_eq_self_of_head b hb
  | cons c cs ih =>
    rw [List.cons_append, List.dropWhile_cons, ha c (List.mem_cons_self c cs),
      ih (fun d hd => ha d (List.mem_cons_of_mem c hd))]
    simp

theorem isDigit_not_ws (c : Char) (h : c.isDigit = true) : c.isWhitespace = false := by
  by_contra hw
  rw [Bool.not_eq_false] at hw
  simp only [Char.isWhitespace, Bool.or_eq_true, decide_eq_true_eq] at hw
  rcases hw with ((rfl | rfl) | rfl) | rfl <;> exact absurd h (by decide)

theorem headerMeasureNum?_digits (ds : List Char) (hne : ds ≠ [])
    (hds : ∀ c ∈ ds, c.isDigit = true) :
    headerMeasureNum?
        ⟨'#' :: ' ' :: 'M' :: 'e' :: 'a' :: 's' :: 'u' :: 'r' :: 'e' :: ' ' :: ds⟩ =
      some ((parseDigits ds : Int)) := by
  have hdhead : ∀ c ∈ ds.head?, c.isWhitespace = false := by
    intro c hc
    exact isDigit_not_ws c (hds c (List.mem_of_mem_head? hc))
  have hwsp : Char.isWhitespace ' ' = true := by decide
  rw [headerMeasureNum?]
  dsimp only
  rw [if_pos (show ('#' : Char) = '#' from rfl)]
  rw [List.dropWhile_cons, if_pos hwsp, List.dropWhile_cons,
    if_neg (show ¬ (Char.isWhitespace 'M' = true) from by decide)]
  rw [matchLiteralCI, if_pos (show Char.toLower 'M' = Char.toLower 'M' from rfl),
    matchLiteralCI, if_pos (show Char.toLower 'e' = Char.toLower 'e' from rfl),
    matchLiteralCI, if_pos (show Char.toLower 'a' = Char.toLower 'a' from rfl),
    matchLiteralCI, if_pos (show Char.toLower 's' = Char.toLower 's' from rfl),
    matchLiteralCI, if_pos (show Char.toLower 'u' = Char.toLower 'u' from rfl),
    matchLiteralCI, if_pos (show Char.toLower 'r' = Char.toLower 'r' from rfl),
    matchLiteralCI, if_pos (show Char.toLower 'e' = Char.toLower 'e' from rfl),
    matchLiteralCI]
  dsimp only
  have h1 : List.takeWhile Char.isWhitespace (' ' :: ds) =
      ' ' :: List.takeWhile Char.isWhitespace ds := by
    rw [List.takeWhile_cons, if_pos hwsp]
  have h2 : List.dropWhile Char.isWhitespace (' ' :: ds) = ds := by
    rw [List.dropWhile_cons, if_pos hwsp]
    exact dropWhile_eq_self_of_head ds hdhead
  rw [h1, if_neg (by simp), h2, takeWhile_all ds hds, if_neg (by simpa using hne)]

theorem staffLeftNum?_digits (ds tl : List Char) (hne : ds ≠ []) (htlne : tl ≠ [])
    (hds : ∀ c ∈ ds, c.isDigit = true) (htl : ∀ c ∈ tl, c.isDigit = true) :
    staffLeftNum? ⟨ds ++ (' ' :: ('[' :: (tl ++ [']'])))⟩ = some (parseDigits ds) := by
  have hstop : ∀ c ∈ ((' ' :: ('[' :: (tl ++ [']']))) : List Char).head?,
      c.isDigit = false := by
    intro c hc
    have hc' : c ∈ (some ' ' : Option Char) := hc
    rw [Option.mem_some_iff] at hc'
    subst hc'
    decide
  have hstop2 : ∀ c ∈ ([']'] : List Char).head?, c.isDigit = false := by
    intro c hc
    have hc' : c ∈ (some ']' : Option Char) := hc
    rw [Option.mem_some_iff] at hc'
    subst hc'
    decide
  rw [staffLeftNum?]
  dsimp only
  rw [takeWhile_append_stop ds (' ' :: ('[' :: (tl ++ [']']))) hds hstop,
    dropWhile_append_stop ds (' ' :: ('[' :: (tl ++ [']']))) hds hstop]
  rw [if_neg (by simpa using hne), if_neg (by simp)]
  have hq : List.dropWhile Char.isWhitespace (' ' :: ('[' :: (tl ++ [']']))) =
      '[' :: (tl ++ [']']) := by
    rw [List.dropWhile_cons, if_pos (show Char.isWhitespace ' ' = true from by decide),
      List.dropWhile_cons, if_neg (show ¬ (Char.isWhitespace '[' = true) from by decide)]
  rw [hq]
  dsimp only
  rw [if_pos (show ('[' : Char) = '[' from rfl)]
  rw [takeWhile_append_stop tl [']'] htl hstop2,
    dropWhile_append_stop tl [']'] htl hstop2]
  rw [if_pos ⟨by simpa using htlne, rfl⟩]

theorem joinSep_data_ne_nil (sep : String) (t : String) (rest : List String)
    (hne : t.data ≠ []) : (joinSep sep (t :: rest)).data ≠ [] := by
  cases rest with
  | nil => simpa [joinSep] using hne
  | cons u us =>
    rw [joinSep_cons_cons, String.data_append, String.data_append]
    simp [hne]

theorem splitChar_joinSep (p : Char → Bool) (sep : String) (c0 : Char)
    (hsep : sep.data = [c0]) (hp : p c0 = true) (lines : List String)
    (hlines : lines ≠ [])
    (h : ∀ l ∈ lines, ∀ c ∈ l.data, p c = false) :
    splitChar p (joinSep sep lines).data = lines.map (·.data) := by
  induction lines with
  | nil => exact absurd rfl hlines
  | cons t rest ih =>
    cases rest with
    | nil =>
      rw [joinSep]
      exact splitChar_all_false p t.data (h t (List.mem_cons_self t []))
    | cons u us =>
      rw [joinSep_cons_cons_data t u us sep c0 hsep,
        splitChar_sep p t.data c0 _ (h t (List.mem_cons_self t _)) hp,
        ih (by simp) (fun v hv => h v (List.mem_cons_of_mem t hv))]
      rfl

/-- `splitlines` of a newline-join of nonempty newline-free lines recovers the
lines. -/
theorem pySplitlines_joinSep (lines : List String)
    (h : ∀ l ∈ lines, l.data ≠ [] ∧ ∀ c ∈ l.data, (decide (c = '\n')) = false) :
    pySplitlines (joinSep ("\n") lines) = lines := by
  cases lines with
  | nil => rfl
  | cons t rest =>
    have hne : (joinSep ("\n") (t :: rest)).data ≠ [] :=
      joinSep_data_ne_nil _ t rest (h t (List.mem_cons_self t rest)).1
    rw [pySplitlines, if_neg hne]
    have hlast : ¬ (joinSep ("\n") (t :: rest)).data.getLast? = some '\n' := by
      intro hcon
      have := joinSep_getLast_false (fun c => decide (c = '\n')) ("\n") '\n' rfl
        (t :: rest) h '\n' hcon
      simp at this
    rw [if_neg hlast, splitChar_joinSep (fun c => decide (c = '\n')) ("\n") '\n' rfl
      (by decide) (t :: rest) (by simp) (fun l hl => (h l hl).2)]
    rw [List.map_map]
    show (t :: rest).map (fun l => l) = t :: rest
    exact List.map_id' (t :: rest)

/-! ### Token-level facts -/

theorem wfText_spec (t : String) (h : wfText t = true) :
    t.data ≠ [] ∧ t ≠ ("_" : String) ∧
      ∀ c ∈ t.data, c.isWhitespace = false ∧ (decide (c = '-')) = false := by
  rw [wfText, Bool.and_eq_true, Bool.and_eq_true] at h
  obtain ⟨⟨h1, h2⟩, h3⟩ := h
  rw [List.all_eq_true] at h3
  rw [decide_eq_true_eq] at h1 h2
  refine ⟨?_, h2, ?_⟩
  · intro hd
    exact h1 (String.ext (by rw [hd]))
  · intro c hc
    have h4 := h3 c hc
    rw [Bool.and_eq_true, Bool.not_eq_true'] at h4
    have h5 : c ≠ '-' := by simpa using h4.2
    exact ⟨h4.1, by simpa using h5⟩

theorem wfToken_spec (tok : String) (h : wfToken tok = true) :
    tok.data ≠ [] ∧ (∀ c ∈ tok.data, c.isWhitespace = false) ∧
      lastChar? tok ≠ some '-' ∧ headChar? tok ≠ some '-' := by
  rw [wfToken, Bool.or_eq_true] at h
  rcases h with h | h
  · rw [decide_eq_true_eq] at h
    subst h
    refine ⟨by decide, by decide, by decide, by decide⟩
  · obtain ⟨h1, _, h3⟩ := wfText_spec tok h
    refine ⟨h1, fun c hc => (h3 c hc).1, ?_, ?_⟩
    · intro hcon
      have := (h3 '-' (List.mem_of_mem_getLast? hcon)).2
      simp at this
    · intro hcon
      have := (h3 '-' (List.mem_of_mem_head? hcon)).2
      simp at this

theorem pyStrip_wfToken (tok : String) (h : wfToken tok = true) : pyStrip tok = tok :=
  pyStrip_eq_self_of_all tok (wfToken_spec tok h).2.1

theorem mergeLoop_wf (rest : List String) : ∀ cur acc,
    lastChar? cur ≠ some '-' → (∀ t ∈ rest, wfToken t = true) →
    mergeLoop cur acc rest = acc ++ cur :: rest := by
  induction rest with
  | nil => intro cur acc _ _; rw [mergeLoop]
  | cons nxt r ih =>
    intro cur acc hcur hrest
    have hnxt := wfToken_spec nxt (hrest nxt (List.mem_cons_self nxt r))
    rw [mergeLoop, if_neg hcur, if_neg hnxt.2.2.2,
      ih nxt (acc ++ [cur]) hnxt.2.2.1 (fun t ht => hrest t (List.mem_cons_of_mem nxt ht))]
    simp

theorem merge_tokens_wf (tokens : List String) (h : wfTokens tokens = true) :
    merge_tokens tokens = joinSep (" ") tokens := by
  cases tokens with
  | nil => rfl
  | cons t rest =>
    rw [wfTokens, List.all_eq_true] at h
    rw [merge_tokens,
      mergeLoop_wf rest t [] (wfToken_spec t (h t (List.mem_cons_self t rest))).2.2.1
        (fun u hu => h u (List.mem_cons_of_mem t hu))]
    rfl

theorem tokenizeParts_wf : ∀ (parts : List String) (acc : List String),
    (∀ t ∈ acc, lastChar? t ≠ some '-') → (∀ p ∈ parts, wfToken p = true) →
    tokenizeParts acc parts = acc ++ parts := by
  intro parts
  induction parts with
  | nil => intro acc _ _; rw [tokenizeParts]; simp
  | cons p rest ih =>
    intro acc hacc hparts
    have hp := hparts p (List.mem_cons_self p rest)
    have hacc' : ∀ t ∈ acc ++ [p], lastChar? t ≠ some '-' := by
      intro t ht
      rcases List.mem_append.1 ht with ht | ht
      · exact hacc t ht
      · rcases List.mem_singleton.1 ht with rfl
        exact (wfToken_spec t hp).2.2.1
    have hrest' := fun u hu => hparts u (List.mem_cons_of_mem p hu)
    by_cases hu : p = ("_" : String)
    · subst hu
      rw [tokenizeParts, if_pos rfl, ih _ hacc' hrest']
      simp
    · rw [tokenizeParts, if_neg hu]
      cases hgl : acc.getLast? with
      | none =>
        dsimp only
        rw [ih _ hacc' hrest']
        simp
      | some last =>
        dsimp only
        rw [if_neg (hacc last (List.mem_of_mem_getLast? hgl)), ih _ hacc' hrest']
        simp

theorem tokenize_line_merge (tokens : List String) (h : wfTokens tokens = true) :
    tokenize_line (merge_tokens tokens) = tokens := by
  rw [tokenize_line, merge_tokens_wf tokens h, pySplit_joinSep tokens (by
    intro t ht
    rw [wfTokens, List.all_eq_true] at h
    have := wfToken_spec t (h t ht)
    exact ⟨this.1, this.2.1⟩)]
  rw [wfTokens, List.all_eq_true] at h
  exact tokenizeParts_wf tokens [] (by intro t ht; exact absurd ht (List.not_mem_nil t)) h

/-- The syllable a well-formed token denotes. -/
def slotSyl (tok : String) : String × String :=
  if tok = ("_" : String) then (("_"), ("")) else (("single"), tok)

theorem rstripHyphen_wfToken (tok : String) (h : wfToken tok = true) :
    rstripHyphen tok = tok := by
  rw [rstripHyphen, dropWhile_eq_self_of_head tok.data.reverse (by
    intro c hc
    rw [List.head?_reverse] at hc
    have h5 : c ≠ '-' := by
      intro hcon
      subst hcon
      exact (wfToken_spec tok h).2.2.1 hc
    simpa using h5)]
  rw [List.reverse_reverse]

theorem tokenToSyls_wf (tok : String) (h : wfToken tok = true) :
    tokenToSyls false tok = [slotSyl tok] := by
  by_cases hu : tok = ("_" : String)
  · rw [tokenToSyls, if_pos hu, slotSyl, if_pos hu]
  · rw [tokenToSyls, if_neg hu, slotSyl, if_neg hu]
    have hstrip := pyStrip_wfToken tok h
    rw [hstrip, rstripHyphen_wfToken tok h]
    have hsplit : pySplitOnChar '-' tok = [tok] := by
      rw [pySplitOnChar, splitChar_all_false _ _ (by
        intro c hc
        have h5 : c ≠ '-' := by
          rcases (wfToken_spec tok h) with ⟨_, _, _, _⟩
          rw [wfToken, Bool.or_eq_true] at h
          rcases h with h | h
          · exact absurd (by rwa [decide_eq_true_eq] at h) hu
          · exact (by simpa using ((wfText_spec tok h).2.2 c hc).2)
        simpa using h5)]
      rfl
    rw [hsplit]
    dsimp only
    rw [if_pos (show (([tok] : List String).length = 1) from rfl)]
    rw [if_neg (show ¬ (false = true) from by decide)]
    rw [if_neg (wfToken_spec tok h).2.2.1]
    rw [show (([tok] : List String).headD ("") = tok) from rfl, hstrip]

theorem ttsGo_wf (tokens : List String) : ∀ (idx : Nat),
    (∀ t ∈ tokens, wfToken t = true) →
    ttsGo false idx tokens = tokens.map slotSyl := by
  induction tokens with
  | nil => intro idx _; rfl
  | cons t rest ih =>
    intro idx h
    rw [ttsGo, Bool.false_and, tokenToSyls_wf t (h t (List.mem_cons_self t rest)),
      ih (idx + 1) (fun u hu => h u (List.mem_cons_of_mem t hu))]
    rfl

theorem tokens_to_syllables_wf (tokens : List String)
    (h : wfTokens tokens = true) :
    tokens_to_syllables tokens false = tokens.map slotSyl := by
  rw [wfTokens, List.all_eq_true] at h
  exact ttsGo_wf tokens 0 h

theorem last_token_hyphen_wf (tokens : List String) (h : wfTokens tokens = true) :
    last_token_ends_with_hyphen tokens = false := by
  rw [wfTokens, List.all_eq_true] at h
  rw [last_token_ends_with_hyphen]
  cases hgl : tokens.getLast? with
  | none => rfl
  | some last =>
    have hl := h last (List.mem_of_mem_getLast? hgl)
    dsimp only
    rw [pyStrip_wfToken last hl]
    by_cases hu : last = ("_" : String)
    · rw [hu]
      simp
    · rw [decide_eq_false (wfToken_spec last hl).2.2.1, Bool.and_false]

theorem string_append_empty (s : String) : s ++ ("" : String) = s := by
  apply String.ext
  rw [String.data_append]
  simp

theorem exportVoiceTokens_wf (v : List VElem) : ∀ (sa ta : Bool),
    wfVoice0 v = true → wfTokens (exportVoiceTokens sa ta v) = true := by
  induction v with
  | nil => intro sa ta _; rfl
  | cons el rest ih =>
    intro sa ta h
    rw [wfVoice0, List.all_cons, Bool.and_eq_true] at h
    obtain ⟨hel, hrest⟩ := h
    have hrest' : wfVoice0 rest = true := hrest
    cases el with
    | chord c =>
      simp only [exportVoiceTokens]
      by_cases h1 : is_continuation_no_lyric c
      · rw [if_pos h1]
        exact ih _ _ hrest'
      · rw [if_neg h1]
        by_cases h2 : (sa && !(has_slur_start c) && !(is_slur_continuation c)) = true
        · rw [if_pos h2]
          exact ih _ _ hrest'
        · rw [if_neg h2]
          by_cases h3 : (ta && !(has_tie_start c) && !(is_tie_continuation c)) = true
          · rw [if_pos h3]
            exact ih _ _ hrest'
          · rw [if_neg h3]
            rw [wfTokens, List.all_cons, Bool.and_eq_true]
            refine ⟨?_, ih _ _ hrest'⟩
            cases hv : get_verse1_lyric c with
            | none => decide
            | some p =>
              obtain ⟨s, t⟩ := p
              dsimp only [wfChord] at hel
              rw [hv] at hel
              rw [Bool.and_eq_true] at hel
              obtain ⟨_, hst⟩ := hel
              rw [Bool.and_eq_true, decide_eq_true_eq] at hst
              obtain ⟨hs, ht⟩ := hst
              dsimp only
              rw [token_from_lyric, hs]
              rw [if_neg (by decide)]
              rw [string_append_empty,
                pyStrip_eq_self_of_all t (fun c hc => ((wfText_spec t ht).2.2 c hc).1)]
              rw [wfToken, ht, Bool.or_true]
    | rest d =>
      simp only [exportVoiceTokens]
      exact ih _ _ hrest'
    | timeSig a b =>
      simp only [exportVoiceTokens]
      exact ih _ _ hrest'
    | location =>
      simp only [exportVoiceTokens]
      exact ih _ _ hrest'
    | other =>
      simp only [exportVoiceTokens]
      exact ih _ _ hrest'

/-! ### The voice-0 walk -/

theorem sweepChord_spanners_lyrics (sp : List Spanner) (ls : List Lyric) :
    sweepChord ⟨sp, ls.filter (fun l => is_verse1 l.no)⟩ =
      ⟨sp, if is_continuation_no_lyric (⟨sp, ls.filter (fun l => is_verse1 l.no)⟩ : LChord)
        then (ls.filter (fun l => is_verse1 l.no)).filter (fun l => !(is_verse1 l.no))
        else ls.filter (fun l => is_verse1 l.no)⟩ := by
  rw [sweepChord]
  split
  · rfl
  · rfl

theorem postChord_clear (c : LChord) :
    postChord (clear_verse1_lyrics c) = ⟨c.spanners, []⟩ := by
  rw [clear_verse1_lyrics, postChord, remove_verse2_plus_chord]
  dsimp only
  rw [List.filter_filter]
  have hnull : c.lyrics.filter (fun l => is_verse1 l.no && !(is_verse1 l.no)) = [] := by
    rw [List.filter_eq_nil_iff]
    intro l _
    simp [Bool.and_not_self]
  rw [hnull, sweepChord]
  split
  · rfl
  · rfl

theorem is_continuation_only_spanners (sp : List Spanner) (l1 l2 : List Lyric) :
    is_continuation_no_lyric (⟨sp, l1⟩ : LChord) =
      is_continuation_no_lyric (⟨sp, l2⟩ : LChord) := rfl

theorem postChord_set (c : LChord) (s t : String)
    (_hall : c.lyrics.all (fun l => is_verse1 l.no) = true)
    (hnc : is_continuation_no_lyric c = false) :
    postChord (set_lyric c s t) = ⟨c.spanners, [⟨none, some s, some t⟩]⟩ := by
  rw [set_lyric, postChord, remove_verse2_plus_chord]
  dsimp only
  rw [List.filter_append, List.filter_filter]
  have hnull : c.lyrics.filter (fun l => is_verse1 l.no && !(is_verse1 l.no)) = [] := by
    rw [List.filter_eq_nil_iff]
    intro l _
    simp [Bool.and_not_self]
  rw [hnull]
  have hone : ([(⟨none, some s, some t⟩ : Lyric)] : List Lyric).filter
      (fun l => is_verse1 l.no) = [⟨none, some s, some t⟩] := rfl
  rw [hone, List.nil_append, sweepChord]
  have hc2 : is_continuation_no_lyric
      (⟨c.spanners, [(⟨none, some s, some t⟩ : Lyric)]⟩ : LChord) = false := by
    rw [is_continuation_only_spanners c.spanners _ c.lyrics]
    exact hnc
  rw [if_neg (by rw [hc2]; exact fun hcon => nomatch hcon)]

theorem importVoiceWalk_roundtrip (v : List VElem) : ∀ (sa ta : Bool),
    wfVoice0 v = true →
    (importVoiceWalk sa ta ((exportVoiceTokens sa ta v).map slotSyl) v).map otherElemT =
      roundVoice0 sa ta v := by
  induction v with
  | nil => intro sa ta _; rfl
  | cons el rest ih =>
    intro sa ta h
    rw [wfVoice0, List.all_cons, Bool.and_eq_true] at h
    obtain ⟨hel, hrest⟩ := h
    have hrest' : wfVoice0 rest = true := hrest
    cases el with
    | chord c =>
      simp only [exportVoiceTokens, importVoiceWalk, roundVoice0]
      by_cases h1 : is_continuation_no_lyric c
      · rw [if_pos h1, if_pos h1, if_pos h1, List.map_cons]
        rw [ih _ _ hrest']
        rw [otherElemT]
        rw [postChord_clear c]
      · rw [if_neg h1, if_neg h1, if_neg h1]
        by_cases h2 : (sa && !(has_slur_start c) && !(is_slur_continuation c)) = true
        · rw [if_pos h2, if_pos h2, if_pos h2, List.map_cons, ih _ _ hrest',
            otherElemT, postChord_clear c]
        · rw [if_neg h2, if_neg h2, if_neg h2]
          by_cases h3 : (ta && !(has_tie_start c) && !(is_tie_continuation c)) = true
          · rw [if_pos h3, if_pos h3, if_pos h3, List.map_cons, ih _ _ hrest',
              otherElemT, postChord_clear c]
          · rw [if_neg h3, if_neg h3, if_neg h3]
            cases hv : get_verse1_lyric c with
            | none =>
              rw [List.map_cons]
              dsimp only [slotSyl]
              rw [if_pos rfl, if_pos rfl, List.map_cons, ih _ _ hrest',
                otherElemT, postChord_clear c]
            | some p =>
              obtain ⟨s, t⟩ := p
              dsimp only [wfChord] at hel
              rw [hv, Bool.and_eq_true, Bool.and_eq_true, decide_eq_true_eq] at hel
              obtain ⟨hall, hs, ht⟩ := hel
              subst hs
              have htok : token_from_lyric ("single") t = t := by
                rw [token_from_lyric, if_neg (by decide), string_append_empty,
                  pyStrip_eq_self_of_all t (fun c hc => ((wfText_spec t ht).2.2 c hc).1)]
              rw [List.map_cons]
              dsimp only
              rw [htok]
              dsimp only [slotSyl]
              rw [if_neg (wfText_spec t ht).2.1]
              rw [if_neg (show ¬ (("single" : String) = ("_" : String)) from by decide)]
              rw [List.map_cons, ih _ _ hrest', otherElemT,
                postChord_set c ("single") t hall (by
                  rw [Bool.not_eq_true] at h1
                  exact h1)]
    | rest d =>
      simp only [exportVoiceTokens, importVoiceWalk, roundVoice0]
      rw [List.map_cons, ih _ _ hrest']
      rfl
    | timeSig a b =>
      simp only [exportVoiceTokens, importVoiceWalk, roundVoice0]
      rw [List.map_cons, ih _ _ hrest']
      rfl
    | location =>
      simp only [exportVoiceTokens, importVoiceWalk, roundVoice0]
      rw [List.map_cons, ih _ _ hrest']
      rfl
    | other =>
      simp only [exportVoiceTokens, importVoiceWalk, roundVoice0]
      rw [List.map_cons, ih _ _ hrest']
      rfl

/-! ### Dictionary facts -/

theorem dget?_eq_none_iff {α β : Type} [DecidableEq α] (d : List (α × β)) (k : α) :
    dget? d k = none ↔ k ∉ d.map (·.1) := by
  rw [dget?, Option.map_eq_none', List.find?_eq_none]
  constructor
  · intro h hk
    rw [List.mem_map] at hk
    obtain ⟨p, hp, hpk⟩ := hk
    exact absurd (decide_eq_true hpk) (by simpa using h p hp)
  · intro h p hp
    intro hcon
    rw [decide_eq_true_eq] at hcon
    exact h (List.mem_map.2 ⟨p, hp, hcon⟩)

theorem dget?_mem {α β : Type} [DecidableEq α] (d : List (α × β)) (k : α) (v : β)
    (h : dget? d k = some v) : (k, v) ∈ d := by
  rw [dget?, Option.map_eq_some'] at h
  obtain ⟨p, hp, hpv⟩ := h
  have h1 := List.mem_of_find?_eq_some hp
  have h2 := List.find?_some hp
  rw [decide_eq_true_eq] at h2
  obtain ⟨pa, pb⟩ := p
  dsimp only at h2 hpv
  subst h2
  subst hpv
  exact h1

theorem dget?_of_mem_nodup {α β : Type} [DecidableEq α] (d : List (α × β)) (k : α) (v : β)
    (h : (k, v) ∈ d) (hn : (d.map (·.1)).Nodup) : dget? d k = some v := by
  induction d with
  | nil => exact absurd h (List.not_mem_nil _)
  | cons p rest ih =>
    rw [List.map_cons, List.nodup_cons] at hn
    rcases List.mem_cons.1 h with h | h
    · subst h
      rw [dget?]
      simp [List.find?]
    · have hpk : p.1 ≠ k := by
        intro hcon
        exact hn.1 (hcon ▸ List.mem_map.2 ⟨(k, v), h, rfl⟩)
      rw [dget?]
      simp only [List.find?]
      rw [decide_eq_false hpk]
      exact ih h hn.2

theorem keysOf_dinsert {α β : Type} [DecidableEq α] (d : List (α × β)) (k : α) (v : β) :
    (dinsert d k v).map (·.1) =
      if k ∈ d.map (·.1) then d.map (·.1) else d.map (·.1) ++ [k] := by
  induction d with
  | nil => simp [dinsert]
  | cons p rest ih =>
    rw [dinsert]
    by_cases h : p.1 = k
    · subst h
      simp
    · rw [if_neg h, List.map_cons, List.map_cons, ih]
      by_cases hm : k ∈ rest.map (·.1)
      · rw [if_pos hm, if_pos (by simp [hm])]
      · rw [if_neg hm, if_neg (by
          intro hcon
          rcases List.mem_cons.1 hcon with hcon | hcon
          · exact h hcon.symm
          · exact hm hcon)]
        rfl

theorem nodup_keys_dinsert {α β : Type} [DecidableEq α] (d : List (α × β)) (k : α) (v : β)
    (h : (d.map (·.1)).Nodup) : ((dinsert d k v).map (·.1)).Nodup := by
  rw [keysOf_dinsert]
  by_cases hm : k ∈ d.map (·.1)
  · rwa [if_pos hm]
  · rw [if_neg hm]
    exact List.Nodup.append h (List.nodup_singleton k) (by simpa using hm)

theorem dinsert_ne_nil {α β : Type} [DecidableEq α] (d : List (α × β)) (k : α) (v : β) :
    dinsert d k v ≠ [] := by
  cases d with
  | nil => simp [dinsert]
  | cons p rest =>
    rw [dinsert]
    by_cases h : p.1 = k
    · simp [h]
    · simp [h]

theorem mem_dinsert {α β : Type} [DecidableEq α] (d : List (α × β)) (k : α) (v : β)
    (p : α × β) (h : p ∈ dinsert d k v) : p = (k, v) ∨ p ∈ d := by
  induction d with
  | nil => simpa [dinsert] using h
  | cons q rest ih =>
    rw [dinsert] at h
    by_cases hq : q.1 = k
    · rw [if_pos hq] at h
      rcases List.mem_cons.1 h with h | h
      · exact Or.inl h
      · exact Or.inr (List.mem_cons_of_mem q h)
    · rw [if_neg hq] at h
      rcases List.mem_cons.1 h with h | h
      · exact Or.inr (h ▸ List.mem_cons_self q rest)
      · rcases ih h with h | h
        · exact Or.inl h
        · exact Or.inr (List.mem_cons_of_mem q h)

theorem dinsert_fresh {α β : Type} [DecidableEq α] (d : List (α × β)) (k : α) (v : β)
    (h : k ∉ d.map (·.1)) : dinsert d k v = d ++ [(k, v)] := by
  induction d with
  | nil => rfl
  | cons p rest ih =>
    rw [List.map_cons] at h
    rw [dinsert, if_neg (fun hcon => h (by rw [← hcon]; exact List.mem_cons_self _ _)),
      ih (fun hcon => h (List.mem_cons_of_mem _ hcon))]
    rfl

theorem foldl_dinsert_fresh {α β : Type} [DecidableEq α] (pairs : List (α × β)) :
    ∀ (d : List (α × β)), (pairs.map (·.1)).Nodup →
    (∀ k ∈ d.map (·.1), k ∉ pairs.map (·.1)) →
    pairs.foldl (fun acc p => dinsert acc p.1 p.2) d = d ++ pairs := by
  induction pairs with
  | nil => intro d _ _; simp
  | cons p rest ih =>
    intro d hn hd
    rw [List.map_cons, List.nodup_cons] at hn
    rw [List.foldl_cons, dinsert_fresh d p.1 p.2 (fun hcon =>
      hd p.1 hcon (List.mem_cons_self _ _)),
      ih (d ++ [(p.1, p.2)]) hn.2 (by
        intro k hk
        rw [List.map_append, List.mem_append] at hk
        rcases hk with hk | hk
        · intro hcon
          exact hd k hk (List.mem_cons_of_mem _ hcon)
        · simp only [List.map_cons, List.map_nil, List.mem_singleton] at hk
          subst hk
          exact hn.1)]
    simp

/-! ### The exported `by_measure` dictionary -/

/-- The first voice of the measure at (0-based) index `k - mi0` of `ms`, when
that measure exists and has voices. -/
def voiceAt : Int → List LMeasure → Int → Option (List VElem)
  | _, [], _ => none
  | mi0, m :: rest, k =>
      if k = mi0 then
        match m.voices with
        | [] => none
        | v :: _ => some v
      else voiceAt (mi0 + 1) rest k

/-- Double lookup in the measure→staff dictionary. -/
def dget2? (bm : List (Int × List (Int × List String))) (k sid : Int) :
    Option (List String) :=
  dget? ((dget? bm k).getD []) sid

theorem voiceAt_lt (ms : List LMeasure) : ∀ (mi0 k : Int), k < mi0 →
    voiceAt mi0 ms k = none := by
  induction ms with
  | nil => intro mi0 k _; rfl
  | cons m rest ih =>
    intro mi0 k hk
    rw [voiceAt, if_neg (by omega)]
    exact ih (mi0 + 1) k (by omega)

theorem bmAdd_dget (sid : Int) (ms : List LMeasure) : ∀ (bm : List (Int × List (Int × List String)))
    (mi0 k : Int),
    dget? (bmAddMeasures sid bm mi0 ms) k =
      match voiceAt mi0 ms k with
      | some v => some (dinsert ((dget? bm k).getD []) sid (exportVoiceTokens false false v))
      | none => dget? bm k := by
  induction ms with
  | nil => intro bm mi0 k; rfl
  | cons m rest ih =>
    intro bm mi0 k
    rw [bmAddMeasures, voiceAt]
    by_cases hk : k = mi0
    · rw [if_pos hk]
      cases hmv : m.voices with
      | nil =>
        dsimp only
        rw [ih bm (mi0 + 1) k, voiceAt_lt rest (mi0 + 1) k (by omega)]
      | cons v vs =>
        dsimp only
        rw [ih _ (mi0 + 1) k, voiceAt_lt rest (mi0 + 1) k (by omega)]
        subst hk
        rw [dget?_dinsert_self]
    · rw [if_neg hk]
      cases hmv : m.voices with
      | nil => exact ih bm (mi0 + 1) k
      | cons v vs =>
        dsimp only
        rw [ih _ (mi0 + 1) k]
        have hne : dget? (dinsert bm mi0 (dinsert ((dget? bm mi0).getD []) sid
            (exportVoiceTokens false false v))) k = dget? bm k :=
          dget?_dinsert_ne bm mi0 k _ (fun hcon => hk hcon.symm)
        rw [hne]

theorem bmAdd_dget2 (sid : Int) (ms : List LMeasure)
    (bm : List (Int × List (Int × List String))) (k sid' : Int) :
    dget2? (bmAddMeasures sid bm 0 ms) k sid' =
      match voiceAt 0 ms k with
      | some v =>
          if sid' = sid then some (exportVoiceTokens false false v)
          else dget2? bm k sid'
      | none => dget2? bm k sid' := by
  rw [dget2?, bmAdd_dget sid ms bm 0 k]
  cases voiceAt 0 ms k with
  | none => rfl
  | some v =>
    dsimp only
    by_cases hs : sid' = sid
    · subst hs
      rw [Option.getD_some, dget?_dinsert_self, if_pos rfl]
    · rw [Option.getD_some, dget?_dinsert_ne _ _ _ _ (fun hcon => hs hcon.symm),
        if_neg hs]
      rfl

def contribIds (staffs : List LStaff) : List Int :=
  (staffs.filter (fun st => st.measures ≠ [])).map (·.id)

/-- The dictionary invariant of all dicts built by `dinsert`: distinct
nonnegative measure keys, nonempty inner dicts with distinct keys. -/
def NICEbm (bm : List (Int × List (Int × List String))) : Prop :=
  (bm.map (·.1)).Nodup ∧ (∀ k ∈ bm.map (·.1), 0 ≤ k) ∧
  ∀ p ∈ bm, p.2 ≠ [] ∧ (p.2.map (·.1)).Nodup

theorem bmAdd_frame (sid : Int) (ms : List LMeasure)
    (bm : List (Int × List (Int × List String))) (k sid' : Int) (hs : sid' ≠ sid) :
    dget2? (bmAddMeasures sid bm 0 ms) k sid' = dget2? bm k sid' := by
  rw [bmAdd_dget2]
  cases voiceAt 0 ms k with
  | none => rfl
  | some v =>
    dsimp only
    rw [if_neg hs]

theorem bmAdd_nil_measures (sid : Int) (bm : List (Int × List (Int × List String)))
    (mi0 : Int) : bmAddMeasures sid bm mi0 [] = bm := rfl

theorem foldBM_frame (l : List LStaff) : ∀ (bm : List (Int × List (Int × List String)))
    (sid : Int), (∀ st ∈ l, st.measures ≠ [] → st.id ≠ sid) → ∀ k,
    dget2? (l.foldl (fun bm st => bmAddMeasures st.id bm 0 st.measures) bm) k sid =
      dget2? bm k sid := by
  induction l with
  | nil => intro bm sid _ k; rfl
  | cons st0 rest ih =>
    intro bm sid h k
    rw [List.foldl_cons, ih _ sid (fun st hst => h st (List.mem_cons_of_mem st0 hst)) k]
    cases hms : st0.measures with
    | nil => rw [bmAdd_nil_measures]
    | cons m ms =>
      exact bmAdd_frame st0.id _ bm k sid (by
        intro hcon
        exact h st0 (List.mem_cons_self st0 rest) (by rw [hms]; simp) hcon.symm)

theorem voiceAt_ne_nil (ms : List LMeasure) (mi0 k : Int) (v : List VElem)
    (h : voiceAt mi0 ms k = some v) : ms ≠ [] := by
  cases ms with
  | nil => exact absurd h (by rw [voiceAt]; simp)
  | cons m rest => simp

theorem voiceAt_mem (ms : List LMeasure) : ∀ (mi0 k : Int) (v : List VElem),
    voiceAt mi0 ms k = some v → ∃ m ∈ ms, ∃ vs, m.voices = v :: vs := by
  induction ms with
  | nil => intro mi0 k v h; exact absurd h (by rw [voiceAt]; simp)
  | cons m rest ih =>
    intro mi0 k v h
    rw [voiceAt] at h
    by_cases hk : k = mi0
    · rw [if_pos hk] at h
      cases hmv : m.voices with
      | nil => rw [hmv] at h; exact absurd h (by simp)
      | cons w vs =>
        rw [hmv] at h
        dsimp only at h
        rcases h with ⟨rfl⟩
        exact ⟨m, List.mem_cons_self m rest, vs, hmv⟩
    · rw [if_neg hk] at h
      obtain ⟨m1, hm1, vs, hvs⟩ := ih (mi0 + 1) k v h
      exact ⟨m1, List.mem_cons_of_mem m hm1, vs, hvs⟩

theorem foldBM_lookup (l : List LStaff) : ∀ (bm : List (Int × List (Int × List String))),
    (contribIds l).Nodup → ∀ st ∈ l, ∀ (k : Int) (v : List VElem),
    voiceAt 0 st.measures k = some v →
    dget2? (l.foldl (fun bm st => bmAddMeasures st.id bm 0 st.measures) bm) k st.id =
      some (exportVoiceTokens false false v) := by
  induction l with
  | nil => intro bm _ st hst; exact absurd hst (List.not_mem_nil st)
  | cons st0 rest ih =>
    intro bm hn st hst k v hva
    have hcontrib : contribIds (st0 :: rest) =
        if st0.measures ≠ [] then st0.id :: contribIds rest else contribIds rest := by
      rw [contribIds, List.filter_cons]
      by_cases hms : st0.measures = []
      · rw [if_neg (by simpa using hms), if_neg (by simpa using hms)]
        rfl
      · rw [if_pos (by simpa using hms), if_pos (by simpa using hms)]
        rfl
    have hnrest : (contribIds rest).Nodup := by
      rw [hcontrib] at hn
      by_cases hms : st0.measures = []
      · rwa [if_neg (by simpa using hms)] at hn
      · rw [if_pos (by simpa using hms)] at hn
        exact (List.nodup_cons.1 hn).2
    rcases List.mem_cons.1 hst with rfl | hst
    · have hne : st.measures ≠ [] := voiceAt_ne_nil st.measures 0 k v hva
      have hnotin : st.id ∉ contribIds rest := by
        rw [hcontrib, if_pos (by simpa using hne)] at hn
        exact (List.nodup_cons.1 hn).1
      rw [List.foldl_cons, foldBM_frame rest _ st.id (by
        intro st' hst' hne' hcon
        exact hnotin (by
          rw [contribIds, List.mem_map]
          exact ⟨st', List.mem_filter.2 ⟨hst', by simpa using hne'⟩, hcon⟩) ) k]
      rw [bmAdd_dget2, hva]
      dsimp only
      rw [if_pos rfl]
    · rw [List.foldl_cons]
      exact ih _ hnrest st hst k v hva

theorem foldBM_values (l : List LStaff) : ∀ (bm : List (Int × List (Int × List String)))
    (k sid : Int) (toks : List String),
    dget2? (l.foldl (fun bm st => bmAddMeasures st.id bm 0 st.measures) bm) k sid =
      some toks →
    (∃ st ∈ l, st.id = sid ∧ ∃ v, voiceAt 0 st.measures k = some v ∧
      toks = exportVoiceTokens false false v) ∨ dget2? bm k sid = some toks := by
  induction l with
  | nil => intro bm k sid toks h; exact Or.inr h
  | cons st0 rest ih =>
    intro bm k sid toks h
    rw [List.foldl_cons] at h
    rcases ih _ k sid toks h with ⟨st, hst, rest_h⟩ | hbase
    · exact Or.inl ⟨st, List.mem_cons_of_mem st0 hst, rest_h⟩
    · rw [bmAdd_dget2] at hbase
      cases hva : voiceAt 0 st0.measures k with
      | none =>
        rw [hva] at hbase
        exact Or.inr hbase
      | some v =>
        rw [hva] at hbase
        dsimp only at hbase
        by_cases hs : sid = st0.id
        · rw [if_pos hs] at hbase
          rcases hbase with ⟨rfl⟩
          exact Or.inl ⟨st0, List.mem_cons_self st0 rest, hs.symm, v, hva, rfl⟩
        · rw [if_neg hs] at hbase
          exact Or.inr hbase

theorem bmAdd_nice (sid : Int) (ms : List LMeasure) :
    ∀ (bm : List (Int × List (Int × List String))) (mi0 : Int), 0 ≤ mi0 →
    NICEbm bm → NICEbm (bmAddMeasures sid bm mi0 ms) := by
  induction ms with
  | nil => intro bm mi0 _ h; exact h
  | cons m rest ih =>
    intro bm mi0 hmi0 h
    rw [bmAddMeasures]
    cases hmv : m.voices with
    | nil => exact ih bm (mi0 + 1) (by omega) h
    | cons v vs =>
      dsimp only
      apply ih _ (mi0 + 1) (by omega)
      obtain ⟨h1, h2, h3⟩ := h
      refine ⟨nodup_keys_dinsert bm mi0 _ h1, ?_, ?_⟩
      · intro k hk
        rw [keysOf_dinsert] at hk
        by_cases hm : mi0 ∈ bm.map (·.1)
        · rw [if_pos hm] at hk
          exact h2 k hk
        · rw [if_neg hm, List.mem_append] at hk
          rcases hk with hk | hk
          · exact h2 k hk
          · rcases List.mem_singleton.1 hk with rfl
            exact hmi0
      · intro p hp
        rcases mem_dinsert bm mi0 _ p hp with rfl | hp
        · refine ⟨dinsert_ne_nil _ _ _, ?_⟩
          dsimp only
          cases hbk : dget? bm mi0 with
          | none =>
            exact nodup_keys_dinsert [] sid _ (by simp)
          | some inner =>
            exact nodup_keys_dinsert inner sid _
              (h3 (mi0, inner) (dget?_mem bm mi0 inner hbk)).2
        · exact h3 p hp

theorem foldBM_nice (l : List LStaff) : ∀ (bm : List (Int × List (Int × List String))),
    NICEbm bm →
    NICEbm (l.foldl (fun bm st => bmAddMeasures st.id bm 0 st.measures) bm) := by
  induction l with
  | nil => intro bm h; exact h
  | cons st0 rest ih =>
    intro bm h
    rw [List.foldl_cons]
    exact ih _ (bmAdd_nice st0.id st0.measures bm 0 (by omega) h)

theorem bm_entry_lookup (bm : List (Int × List (Int × List String))) (hn : NICEbm bm)
    (p : Int × List (Int × List String)) (hp : p ∈ bm) (q : Int × List String)
    (hq : q ∈ p.2) : dget2? bm p.1 q.1 = some q.2 := by
  obtain ⟨h1, _, h3⟩ := hn
  rw [dget2?, dget?_of_mem_nodup bm p.1 p.2 (by
      obtain ⟨pa, pb⟩ := p
      exact hp) h1]
  rw [Option.getD_some]
  exact dget?_of_mem_nodup p.2 q.1 q.2 (by obtain ⟨qa, qb⟩ := q; exact hq) (h3 p hp).2

/-! ### Sorting and the identity of the rest-filling pass on well-formed
scores -/

theorem insertSorted_perm {α : Type} (lt : α → α → Bool) (x : α) (l : List α) :
    List.Perm (insertSorted lt x l) (x :: l) := by
  induction l with
  | nil => exact List.Perm.refl _
  | cons y ys ih =>
    rw [insertSorted]
    by_cases h : lt x y
    · rw [if_pos h]
    · rw [if_neg h]
      exact (ih.cons y).trans (List.Perm.swap x y ys)

theorem pySorted_perm {α : Type} (lt : α → α → Bool) (xs : List α) :
    List.Perm (pySorted lt xs) xs := by
  have key : ∀ (l acc : List α),
      List.Perm (l.foldl (fun acc x => insertSorted lt x acc) acc) (acc ++ l) := by
    intro l
    induction l with
    | nil => intro acc; simp
    | cons x rest ih =>
      intro acc
      rw [List.foldl_cons]
      exact (ih (insertSorted lt x acc)).trans
        ((((insertSorted_perm lt x acc)).append_right rest).trans
          (List.perm_middle.symm))
  simpa using key xs []

theorem mem_pySorted {α : Type} (lt : α → α → Bool) (xs : List α) (x : α) :
    x ∈ pySorted lt xs ↔ x ∈ xs :=
  (pySorted_perm lt xs).mem_iff

theorem nodup_pySorted {α : Type} (lt : α → α → Bool) (xs : List α) (h : xs.Nodup) :
    (pySorted lt xs).Nodup :=
  (pySorted_perm lt xs).nodup_iff.2 h

theorem wfScore_spec (score : Score) (h : wfScore score = true) :
    (∀ st ∈ score.staffs, 1 ≤ st.id ∧ ∀ m ∈ st.measures,
      m.voices ≠ [] ∧ (∀ v ∈ m.voices, v.any isChordOrRest = true) ∧
      ∀ v0 ∈ m.voices.head?, wfVoice0 v0 = true) ∧
    (contribIds score.staffs).Nodup := by
  rw [wfScore, Bool.and_eq_true, List.all_eq_true, decide_eq_true_eq] at h
  obtain ⟨h1, h2⟩ := h
  refine ⟨?_, h2⟩
  intro st hst
  have := h1 st hst
  rw [wfStaff, Bool.and_eq_true, decide_eq_true_eq, List.all_eq_true] at this
  obtain ⟨hid, hms⟩ := this
  refine ⟨hid, ?_⟩
  intro m hm
  have hm2 := hms m hm
  rw [wfMeasure, Bool.and_eq_true, Bool.and_eq_true, decide_eq_true_eq,
    List.all_eq_true] at hm2
  obtain ⟨⟨hne, hany⟩, hv0⟩ := hm2
  refine ⟨hne, hany, ?_⟩
  intro v0 hv0mem
  cases hmv : m.voices with
  | nil => rw [hmv] at hv0mem; exact absurd hv0mem (by simp)
  | cons w vs =>
    rw [hmv] at hv0mem hv0
    have hwv : w = v0 := by simpa using hv0mem
    subst hwv
    exact hv0

theorem addRestsMeasures_wf_id (ms : List LMeasure)
    (h : ∀ m ∈ ms, m.voices ≠ [] ∧ ∀ v ∈ m.voices, v.any isChordOrRest = true) :
    ∀ nd, addRestsMeasures nd ms = ms := by
  induction ms with
  | nil => intro nd; rfl
  | cons m rest ih =>
    intro nd
    obtain ⟨hne, hany⟩ := h m (List.mem_cons_self m rest)
    rw [addRestsMeasures, ih (fun m' hm' => h m' (List.mem_cons_of_mem m hm'))]
    congr 1
    obtain ⟨mv⟩ := m
    rw [addRestsMeasure]
    cases mv with
    | nil => exact absurd rfl hne
    | cons v vs =>
      dsimp only
      congr 1
      rw [List.map_congr_left (fun w hw => if_pos (hany w hw))]
      exact List.map_id' (v :: vs)

theorem add_rests_wf_id (score : Score) (hwf : wfScore score = true) :
    add_rests_to_empty_measures score = score := by
  obtain ⟨h1, _⟩ := wfScore_spec score hwf
  rw [add_rests_to_empty_measures]
  obtain ⟨staffs⟩ := score
  congr 1
  have hstep : ∀ st ∈ staffs,
      (⟨st.id, addRestsMeasures (4, 4) st.measures⟩ : LStaff) = st := by
    intro st hst
    obtain ⟨_, hms⟩ := h1 st hst
    rw [addRestsMeasures_wf_id st.measures (fun m hm => ⟨(hms m hm).1, (hms m hm).2.1⟩)]
  rw [List.map_congr_left hstep]
  exact List.map_id' staffs

/-! ### Parsing the rendered lines -/

theorem isDigit_ne_of (c d : Char) (hc : c.isDigit = true) (hd : d.isDigit = false) :
    decide (c = d) = false :=
  decide_eq_false (fun hcon => by
    subst hcon
    rw [hc] at hd
    cases hd)

theorem joinSep_head_false (p : Char → Bool) (sep : String) (c0 : Char)
    (hsep : sep.data = [c0]) (tokens : List String)
    (h : ∀ t ∈ tokens, t.data ≠ [] ∧ ∀ c ∈ t.data, p c = false) :
    ∀ c ∈ (joinSep sep tokens).data.head?, p c = false := by
  cases tokens with
  | nil => intro c hc; exact absurd hc (by simp [joinSep])
  | cons t rest =>
    intro c hc
    obtain ⟨hne, hws⟩ := h t (List.mem_cons_self t rest)
    cases rest with
    | nil => exact hws c (List.mem_of_mem_head? hc)
    | cons u us =>
      rw [joinSep_cons_cons_data t u us sep c0 hsep] at hc
      cases hd : t.data with
      | nil => exact absurd hd hne
      | cons d ds =>
        rw [hd, List.cons_append, List.head?_cons, Option.mem_some_iff] at hc
        rw [← hc]
        exact hws d (by rw [hd]; exact List.mem_cons_self d ds)

theorem findIdx?_first_aux (p : Char → Bool) (a : List Char) (x : Char) (b : List Char)
    (ha : ∀ c ∈ a, p c = false) (hx : p x = true) : ∀ (i : Nat),
    List.findIdx? p (a ++ x :: b) i = some (i + a.length) := by
  induction a with
  | nil =>
    intro i
    rw [List.nil_append, List.findIdx?_cons, if_pos hx]
    simp
  | cons c a' ih =>
    intro i
    rw [List.cons_append, List.findIdx?_cons, ha c (List.mem_cons_self c a')]
    simp only [Bool.false_eq_true, if_false]
    rw [ih (fun d hd => ha d (List.mem_cons_of_mem c hd)) (i + 1)]
    congr 1
    simp only [List.length_cons]
    omega

theorem findIdx?_first (p : Char → Bool) (a : List Char) (x : Char) (b : List Char)
    (ha : ∀ c ∈ a, p c = false) (hx : p x = true) :
    List.findIdx? p (a ++ x :: b) = some a.length := by
  have := findIdx?_first_aux p a x b ha hx 0
  simpa using this

theorem header_line_eq (mi : Int) (h : 0 ≤ mi) :
    ("# Measure " ++ renderInt (mi + 1)) =
      ⟨'#' :: ' ' :: 'M' :: 'e' :: 'a' :: 's' :: 'u' :: 'r' :: 'e' :: ' ' ::
        natDigits (mi + 1).natAbs⟩ := by
  apply String.ext
  rw [String.data_append, renderInt, if_neg (by omega)]
  rw [show ("# Measure ").data = ['#', ' ', 'M', 'e', 'a', 's', 'u', 'r', 'e', ' ']
    from by decide]
  rfl

theorem parseLine_header (st : ParseState) (mi : Int) (h0 : 0 ≤ mi)
    (hok : st.staffLines = [] ∨ st.current.isSome = true) :
    parseLine st ("# Measure " ++ renderInt (mi + 1)) =
      ⟨some (mi + 1), [], flushState st⟩ := by
  rw [header_line_eq mi h0]
  have hdig := natDigits_isDigit (mi + 1).natAbs
  have hdne := natDigits_ne_nil (mi + 1).natAbs
  have hstrip : pyStrip (⟨'#' :: ' ' :: 'M' :: 'e' :: 'a' :: 's' :: 'u' :: 'r' :: 'e' ::
      ' ' :: natDigits (mi + 1).natAbs⟩ : String) =
      ⟨'#' :: ' ' :: 'M' :: 'e' :: 'a' :: 's' :: 'u' :: 'r' :: 'e' :: ' ' ::
        natDigits (mi + 1).natAbs⟩ := by
    apply pyStrip_eq_self
    · intro c hc
      have hc' : c ∈ (some '#' : Option Char) := hc
      rw [Option.mem_some_iff] at hc'
      subst hc'
      decide
    · intro c hc
      have hsplit : ('#' :: ' ' :: 'M' :: 'e' :: 'a' :: 's' :: 'u' :: 'r' :: 'e' :: ' ' ::
          natDigits (mi + 1).natAbs) =
          ['#', ' ', 'M', 'e', 'a', 's', 'u', 'r', 'e', ' '] ++ natDigits (mi + 1).natAbs :=
        rfl
      rw [hsplit, List.getLast?_append] at hc
      have hlast := List.getLast?_eq_getLast (natDigits (mi + 1).natAbs) hdne
      rw [hlast] at hc
      have hor : (some ((natDigits (mi + 1).natAbs).getLast hdne)).or
          (['#', ' ', 'M', 'e', 'a', 's', 'u', 'r', 'e', ' '] : List Char).getLast? =
          some ((natDigits (mi + 1).natAbs).getLast hdne) := rfl
      rw [hor, Option.mem_some_iff] at hc
      subst hc
      exact isDigit_not_ws _ (hdig _ (List.getLast_mem hdne))
  rw [parseLine]
  simp only [hstrip]
  rw [if_neg (by
    intro hcon
    have h2 := congrArg String.data hcon
    exact absurd h2 (by simp))]
  rw [if_pos (show headChar? (⟨'#' :: ' ' :: 'M' :: 'e' :: 'a' :: 's' :: 'u' :: 'r' ::
    'e' :: ' ' :: natDigits (mi + 1).natAbs⟩ : String) = some '#' from rfl)]
  rw [headerMeasureNum?_digits (natDigits (mi + 1).natAbs) hdne hdig,
    parseDigits_natDigits]
  have hcast : (((mi + 1).natAbs : Nat) : Int) = mi + 1 := Int.natAbs_of_nonneg (by omega)
  by_cases hcond : st.current.isSome = true ∧ st.staffLines ≠ []
  · rw [if_pos hcond]
    dsimp only
    rw [flushState, if_pos hcond, hcast]
  · rw [if_neg hcond]
    dsimp only
    rw [flushState, if_neg hcond, hcast]
    rcases hok with hok | hok
    · rw [hok]
    · have hsl : st.staffLines = [] := by
        by_contra hsl
        exact hcond ⟨hok, hsl⟩
      rw [hsl]

theorem staffLine_data (sid : Int) (hsid : 0 ≤ sid) (toks : List String) :
    (renderStaffLine sid toks).data =
      natDigits sid.natAbs ++ (' ' :: ('[' :: (natDigits toks.length ++
        (']' :: (':' :: (' ' :: (merge_tokens toks).data)))))) := by
  rw [renderStaffLine, String.data_append, String.data_append, String.data_append,
    String.data_append, renderInt, if_neg (by omega)]
  rw [show ((" [" : String)).data = [' ', '['] from by decide,
    show (("]: " : String)).data = [']', ':', ' '] from by decide]
  show natDigits sid.natAbs ++ [' ', '['] ++ natDigits toks.length ++ [']', ':', ' '] ++
      (merge_tokens toks).data = _
  simp [List.append_assoc]

theorem colon_prefix_free (sid : Int) (n : Nat) :
    ∀ c ∈ natDigits sid.natAbs ++ (' ' :: ('[' :: (natDigits n ++ [']']))),
      (decide (c = ':')) = false := by
  intro c hc
  simp only [List.mem_append, List.mem_cons, List.mem_singleton] at hc
  rcases hc with hc | hc | hc | hc | hc | hc
  · exact isDigit_ne_of c ':' (natDigits_isDigit sid.natAbs c hc) (by decide)
  · subst hc; decide
  · subst hc; decide
  · exact isDigit_ne_of c ':' (natDigits_isDigit n c hc) (by decide)
  · subst hc; decide
  · exact absurd hc (List.not_mem_nil c)

theorem left_part_strip (sid : Int) (n : Nat) :
    pyStrip ⟨natDigits sid.natAbs ++ (' ' :: ('[' :: (natDigits n ++ [']'])))⟩ =
      ⟨natDigits sid.natAbs ++ (' ' :: ('[' :: (natDigits n ++ [']'])))⟩ := by
  apply pyStrip_eq_self
  · intro c hc
    cases hD : natDigits sid.natAbs with
    | nil => exact absurd hD (natDigits_ne_nil _)
    | cons d ds =>
      rw [hD, List.cons_append, List.head?_cons, Option.mem_some_iff] at hc
      subst hc
      exact isDigit_not_ws d (natDigits_isDigit sid.natAbs d (by
        rw [hD]; exact List.mem_cons_self d ds))
  · intro c hc
    have hsplit : natDigits sid.natAbs ++ (' ' :: ('[' :: (natDigits n ++ [']']))) =
        (natDigits sid.natAbs ++ (' ' :: ('[' :: natDigits n))) ++ [']'] := by
      simp [List.append_assoc]
    rw [hsplit, List.getLast?_append] at hc
    have hc' : c ∈ (some ']' : Option Char) := hc
    rw [Option.mem_some_iff] at hc'
    subst hc'
    decide

theorem head_digits_isDigit (sid : Int) (X : List Char) :
    ∀ c ∈ (natDigits sid.natAbs ++ X).head?, c.isDigit = true := by
  intro c hc
  cases hD : natDigits sid.natAbs with
  | nil => exact absurd hD (natDigits_ne_nil _)
  | cons d ds =>
    rw [hD, List.cons_append, List.head?_cons, Option.mem_some_iff] at hc
    subst hc
    exact natDigits_isDigit sid.natAbs d (by rw [hD]; exact List.mem_cons_self d ds)

theorem head_digits_not_ws (sid : Int) (X : List Char) :
    ∀ c ∈ (natDigits sid.natAbs ++ X).head?, c.isWhitespace = false :=
  fun c hc => isDigit_not_ws c (head_digits_isDigit sid X c hc)

theorem headChar_digits_ne_hash (sid : Int) (X : List Char) :
    ¬ (headChar? ⟨natDigits sid.natAbs ++ X⟩ = some '#') := by
  intro hcon
  have hdg := head_digits_isDigit sid X '#' hcon
  exact absurd hdg (by decide)

theorem mk_ne_empty (l : List Char) (h : l ≠ []) : (⟨l⟩ : String) ≠ ("" : String) := by
  intro hcon
  exact h (by simpa using congrArg String.data hcon)

theorem getLast?_cons_ne {α : Type} (c : α) (l : List α) (h : l ≠ []) :
    (c :: l).getLast? = l.getLast? := by
  cases l with
  | nil => exact absurd rfl h
  | cons a as => exact List.getLast?_cons_cons

theorem reverse_snoc {α : Type} (l : List α) (a : α) :
    (l ++ [a]).reverse = a :: l.reverse := by
  simp

theorem parseLine_stripped (st : ParseState) (sid : Int) (hsid : 1 ≤ sid) (n : Nat)
    (s : String) (R : List Char)
    (hs : pyStrip s =
      ⟨(natDigits sid.natAbs ++ (' ' :: ('[' :: (natDigits n ++ [']'])))) ++ (':' :: R)⟩) :
    parseLine st s =
      ⟨st.current, dinsert st.staffLines sid (tokenize_line (pyStrip ⟨R⟩)),
        st.blocks⟩ := by
  have hAne : (natDigits sid.natAbs ++ (' ' :: ('[' :: (natDigits n ++ [']'])))) ++
      (':' :: R) ≠ [] := by simp
  have hre : (natDigits sid.natAbs ++ (' ' :: ('[' :: (natDigits n ++ [']'])))) ++
      (':' :: R) = natDigits sid.natAbs ++
        ((' ' :: ('[' :: (natDigits n ++ [']']))) ++ (':' :: R)) := by
    simp [List.append_assoc]
  rw [parseLine]
  simp only [hs]
  rw [if_neg (mk_ne_empty _ hAne)]
  rw [if_neg (by
    rw [show (⟨(natDigits sid.natAbs ++ (' ' :: ('[' :: (natDigits n ++ [']'])))) ++
        (':' :: R)⟩ : String) = ⟨natDigits sid.natAbs ++
        ((' ' :: ('[' :: (natDigits n ++ [']']))) ++ (':' :: R))⟩ from by rw [hre]]
    exact headChar_digits_ne_hash sid _)]
  rw [show findColon (⟨(natDigits sid.natAbs ++ (' ' :: ('[' ::
      (natDigits n ++ [']'])))) ++ (':' :: R)⟩ : String) =
      some (natDigits sid.natAbs ++ (' ' :: ('[' :: (natDigits n ++ [']'])))).length from by
    rw [findColon]
    exact findIdx?_first _ _ ':' R (colon_prefix_free sid n) (by decide)]
  dsimp only
  rw [List.take_left, left_part_strip sid n,
    staffLeftNum?_digits (natDigits sid.natAbs) (natDigits n) (natDigits_ne_nil _)
      (natDigits_ne_nil _) (natDigits_isDigit _) (natDigits_isDigit _)]
  dsimp only
  rw [show ((natDigits sid.natAbs ++ (' ' :: ('[' :: (natDigits n ++ [']'])))) ++
      (':' :: R)).drop
      ((natDigits sid.natAbs ++ (' ' :: ('[' :: (natDigits n ++ [']'])))).length + 1) =
      R from by
    rw [show (natDigits sid.natAbs ++ (' ' :: ('[' :: (natDigits n ++ [']'])))) ++
        (':' :: R) = ((natDigits sid.natAbs ++ (' ' :: ('[' ::
          (natDigits n ++ [']'])))) ++ [':']) ++ R from by simp]
    rw [show (natDigits sid.natAbs ++ (' ' :: ('[' :: (natDigits n ++ [']'])))).length + 1 =
        ((natDigits sid.natAbs ++ (' ' :: ('[' :: (natDigits n ++ [']'])))) ++
          [':']).length from by simp; omega]
    exact List.drop_left _ _]
  rw [parseDigits_natDigits, Int.natAbs_of_nonneg (by omega)]

theorem parseLine_staffLine (st : ParseState) (sid : Int) (hsid : 1 ≤ sid)
    (toks : List String) (hwf : wfTokens toks = true) :
    parseLine st (renderStaffLine sid toks) =
      ⟨st.current, dinsert st.staffLines sid toks, st.blocks⟩ := by
  have htoks : ∀ t ∈ toks, wfToken t = true := by
    rw [wfTokens, List.all_eq_true] at hwf
    exact hwf
  have htokd : ∀ t ∈ toks, t.data ≠ [] ∧ ∀ c ∈ t.data, c.isWhitespace = false :=
    fun t ht => ⟨(wfToken_spec t (htoks t ht)).1, (wfToken_spec t (htoks t ht)).2.1⟩
  cases toks with
  | nil =>
    have hstrip : pyStrip (renderStaffLine sid []) =
        ⟨(natDigits sid.natAbs ++ (' ' :: ('[' ::
          (natDigits ([] : List String).length ++ [']'])))) ++ (':' :: [])⟩ := by
      rw [pyStrip, staffLine_data sid (by omega) []]
      rw [show natDigits sid.natAbs ++ (' ' :: ('[' ::
          (natDigits ([] : List String).length ++ (']' :: (':' ::
            (' ' :: (merge_tokens []).data)))))) =
        natDigits sid.natAbs ++ (' ' :: ('[' ::
          (natDigits ([] : List String).length ++ (']' :: (':' :: [' ']))))) from rfl]
      rw [dropWhile_eq_self_of_head _ (head_digits_not_ws sid _)]
      rw [show natDigits sid.natAbs ++ (' ' :: ('[' ::
          (natDigits ([] : List String).length ++ (']' :: (':' :: [' ']))))) =
        ((natDigits sid.natAbs ++ (' ' :: ('[' ::
          (natDigits ([] : List String).length ++ [']'])))) ++ [':']) ++ [' ']
          from by simp [List.append_assoc]]
      rw [reverse_snoc, List.dropWhile_cons,
        if_pos (show Char.isWhitespace ' ' = true from by decide)]
      rw [reverse_snoc, List.dropWhile_cons,
        if_neg (show ¬ (Char.isWhitespace ':' = true) from by decide)]
      apply String.ext
      show (':' :: (natDigits sid.natAbs ++ (' ' :: ('[' ::
        (natDigits ([] : List String).length ++ [']'])))).reverse).reverse = _
      rw [List.reverse_cons, List.reverse_reverse]
    rw [parseLine_stripped st sid hsid ([] : List String).length _ [] hstrip]
    rfl
  | cons t0 rest =>
    have hM := merge_tokens_wf (t0 :: rest) hwf
    have hMne : (merge_tokens (t0 :: rest)).data ≠ [] := by
      rw [hM]
      exact joinSep_data_ne_nil (" ") t0 rest (htokd t0 (List.mem_cons_self t0 rest)).1
    have hMhead : ∀ c ∈ (merge_tokens (t0 :: rest)).data.head?,
        c.isWhitespace = false := by
      rw [hM]
      exact joinSep_head_false Char.isWhitespace (" ") ' ' rfl (t0 :: rest) htokd
    have hMlast : ∀ c ∈ (merge_tokens (t0 :: rest)).data.getLast?,
        c.isWhitespace = false := by
      rw [hM]
      exact joinSep_getLast_false Char.isWhitespace (" ") ' ' rfl (t0 :: rest) htokd
    have hstrip : pyStrip (renderStaffLine sid (t0 :: rest)) =
        ⟨(natDigits sid.natAbs ++ (' ' :: ('[' ::
          (natDigits (t0 :: rest).length ++ [']'])))) ++
          (':' :: (' ' :: (merge_tokens (t0 :: rest)).data))⟩ := by
      have hshape : (renderStaffLine sid (t0 :: rest)).data =
          (natDigits sid.natAbs ++ (' ' :: ('[' ::
            (natDigits (t0 :: rest).length ++ [']'])))) ++
            (':' :: (' ' :: (merge_tokens (t0 :: rest)).data)) := by
        rw [staffLine_data sid (by omega) (t0 :: rest)]
        simp [List.append_assoc]
      rw [show renderStaffLine sid (t0 :: rest) =
        ⟨(renderStaffLine sid (t0 :: rest)).data⟩ from rfl, hshape]
      apply pyStrip_eq_self
      · rw [show (natDigits sid.natAbs ++ (' ' :: ('[' ::
            (natDigits (t0 :: rest).length ++ [']'])))) ++
            (':' :: (' ' :: (merge_tokens (t0 :: rest)).data)) =
          natDigits sid.natAbs ++ ((' ' :: ('[' ::
            (natDigits (t0 :: rest).length ++ [']']))) ++
            (':' :: (' ' :: (merge_tokens (t0 :: rest)).data))) from by
          simp [List.append_assoc]]
        exact head_digits_not_ws sid _
      · intro c hc
        rw [List.getLast?_append, getLast?_cons_ne ':' _ (by simp),
          getLast?_cons_ne ' ' _ hMne] at hc
        rw [List.getLast?_eq_getLast _ hMne] at hc
        have hor : (some ((merge_tokens (t0 :: rest)).data.getLast hMne)).or
            (natDigits sid.natAbs ++ (' ' :: ('[' ::
              (natDigits (t0 :: rest).length ++ [']'])))).getLast? =
            some ((merge_tokens (t0 :: rest)).data.getLast hMne) := rfl
        rw [hor, Option.mem_some_iff] at hc
        subst hc
        exact hMlast _ (by rw [List.getLast?_eq_getLast _ hMne]; rfl)
    rw [parseLine_stripped st sid hsid (t0 :: rest).length _ _ hstrip]
    have hrest : pyStrip ⟨' ' :: (merge_tokens (t0 :: rest)).data⟩ =
        merge_tokens (t0 :: rest) := by
      rw [pyStrip]
      show (⟨((List.dropWhile Char.isWhitespace
        (' ' :: (merge_tokens (t0 :: rest)).data)).reverse.dropWhile
          Char.isWhitespace).reverse⟩ : String) = _
      rw [List.dropWhile_cons, if_pos (show Char.isWhitespace ' ' = true from by decide)]
      rw [dropWhile_eq_self_of_head _ hMhead]
      rw [dropWhile_eq_self_of_head _ (by
        intro c hc
        rw [List.head?_reverse] at hc
        exact hMlast c hc)]
      rw [List.reverse_reverse]
    rw [hrest, tokenize_line_merge (t0 :: rest) hwf]

theorem foldl_parseLine_staffLines (pairs : List (Int × List String))
    (hp : ∀ q ∈ pairs, 1 ≤ q.1 ∧ wfTokens q.2 = true) : ∀ (st : ParseState),
    (pairs.map (fun q => renderStaffLine q.1 q.2)).foldl parseLine st =
      ⟨st.current, pairs.foldl (fun d q => dinsert d q.1 q.2) st.staffLines,
        st.blocks⟩ := by
  induction pairs with
  | nil => intro st; rfl
  | cons q rest ih =>
    intro st
    obtain ⟨hq1, hq2⟩ := hp q (List.mem_cons_self q rest)
    rw [List.map_cons, List.foldl_cons,
      parseLine_staffLine st q.1 hq1 q.2 hq2,
      ih (fun r hr => hp r (List.mem_cons_of_mem q hr)), List.foldl_cons]

theorem mem_joinSep_data (sep : String) (tokens : List String) (c : Char) :
    c ∈ (joinSep sep tokens).data → c ∈ sep.data ∨ ∃ t ∈ tokens, c ∈ t.data := by
  induction tokens with
  | nil => intro h; exact absurd h (by simp [joinSep])
  | cons t rest ih =>
    intro h
    cases rest with
    | nil =>
      exact Or.inr ⟨t, List.mem_cons_self t [], h⟩
    | cons u us =>
      rw [joinSep_cons_cons, String.data_append, String.data_append] at h
      rw [List.mem_append, List.mem_append] at h
      rcases h with (h | h) | h
      · exact Or.inr ⟨t, List.mem_cons_self t _, h⟩
      · exact Or.inl h
      · rcases ih h with h | ⟨v, hv, hc⟩
        · exact Or.inl h
        · exact Or.inr ⟨v, List.mem_cons_of_mem t hv, hc⟩

/-- Parsing the rendered measure blocks appends one `(measure+1, staff_lines)`
block per rendered measure. -/
theorem parse_blocks (blocks : List (Int × List (Int × List String)))
    (hb : ∀ b ∈ blocks, 0 ≤ b.1 ∧ b.2 ≠ [] ∧ (b.2.map (·.1)).Nodup ∧
      ∀ q ∈ b.2, 1 ≤ q.1 ∧ wfTokens q.2 = true) :
    ∀ (st : ParseState), (st.staffLines = [] ∨ st.current.isSome = true) →
    flushState ((blocks.flatMap (fun b =>
        ("# Measure " ++ renderInt (b.1 + 1)) ::
          b.2.map (fun q => renderStaffLine q.1 q.2))).foldl parseLine st) =
      flushState st ++ blocks.map (fun b => (b.1 + 1, b.2)) := by
  induction blocks with
  | nil => intro st _; simp
  | cons b rest ih =>
    intro st hok
    obtain ⟨hb1, hb2, hbn, hb3⟩ := hb b (List.mem_cons_self b rest)
    rw [List.flatMap_cons, List.foldl_append, List.foldl_cons,
      parseLine_header st b.1 hb1 hok,
      foldl_parseLine_staffLines b.2 hb3 _]
    have hfold : b.2.foldl (fun d q => dinsert d q.1 q.2) [] = b.2 := by
      have := foldl_dinsert_fresh b.2 [] hbn (by simp)
      simpa using this
    show flushState ((rest.flatMap (fun b =>
        ("# Measure " ++ renderInt (b.1 + 1)) ::
          b.2.map (fun q => renderStaffLine q.1 q.2))).foldl parseLine
        ⟨some (b.1 + 1), b.2.foldl (fun d q => dinsert d q.1 q.2) [], flushState st⟩) = _
    rw [hfold]
    rw [ih (fun b' hb' => hb b' (List.mem_cons_of_mem b hb'))
      ⟨some (b.1 + 1), b.2, flushState st⟩ (Or.inr rfl)]
    rw [show flushState ⟨some (b.1 + 1), b.2, flushState st⟩ =
        flushState st ++ [(b.1 + 1, b.2)] from by
      rw [flushState, if_pos ⟨rfl, hb2⟩]
      rfl]
    rw [List.map_cons, List.append_assoc]
    rfl

theorem char_not_ws_ne_newline (c : Char) (h : c.isWhitespace = false) :
    (decide (c = '\n')) = false := by
  apply decide_eq_false
  intro hcon
  subst hcon
  exact absurd h (by decide)

theorem digit_ne_newline (c : Char) (h : c.isDigit = true) :
    (decide (c = '\n')) = false :=
  isDigit_ne_of c '\n' h (by decide)

theorem parse_txt_blocks (blocks : List (Int × List (Int × List String)))
    (hb : ∀ b ∈ blocks, 0 ≤ b.1 ∧ b.2 ≠ [] ∧ (b.2.map (·.1)).Nodup ∧
      ∀ q ∈ b.2, 1 ≤ q.1 ∧ wfTokens q.2 = true) :
    parse_txt (joinSep ("\n") (blocks.flatMap (fun b =>
        ("# Measure " ++ renderInt (b.1 + 1)) ::
          b.2.map (fun q => renderStaffLine q.1 q.2)))) =
      blocks.map (fun b => (b.1 + 1, b.2)) := by
  have hlines : ∀ l ∈ blocks.flatMap (fun b =>
      ("# Measure " ++ renderInt (b.1 + 1)) ::
        b.2.map (fun q => renderStaffLine q.1 q.2)),
      l.data ≠ [] ∧ ∀ c ∈ l.data, (decide (c = '\n')) = false := by
    intro l hl
    rw [List.mem_flatMap] at hl
    obtain ⟨b, hbm, hlb⟩ := hl
    obtain ⟨hb1, _, _, hq⟩ := hb b hbm
    rcases List.mem_cons.1 hlb with rfl | hlb
    · rw [header_line_eq b.1 hb1]
      refine ⟨by simp, ?_⟩
      intro c hc
      show (decide (c = '\n')) = false
      have : c ∈ (['#', ' ', 'M', 'e', 'a', 's', 'u', 'r', 'e', ' '] : List Char) ++
          natDigits (b.1 + 1).natAbs := hc
      rw [List.mem_append] at this
      rcases this with hm | hm
      · fin_cases hm <;> decide
      · exact digit_ne_newline c (natDigits_isDigit _ c hm)
    · rw [List.mem_map] at hlb
      obtain ⟨q, hqm, rfl⟩ := hlb
      obtain ⟨hq1, hq2⟩ := hq q hqm
      rw [show renderStaffLine q.1 q.2 = ⟨(renderStaffLine q.1 q.2).data⟩ from rfl,
        staffLine_data q.1 (by omega) q.2]
      refine ⟨by simp, ?_⟩
      intro c hc
      show (decide (c = '\n')) = false
      simp only [List.mem_append, List.mem_cons] at hc
      rcases hc with hc | hc | hc | hc | hc | hc | hc
      · exact digit_ne_newline c (natDigits_isDigit _ c hc)
      · subst hc; decide
      · subst hc; decide
      · exact digit_ne_newline c (natDigits_isDigit _ c hc)
      · subst hc; decide
      · subst hc; decide
      · rcases hc with hc | hc
        · subst hc; decide
        · have hwfq : wfTokens q.2 = true := hq2
          rw [merge_tokens_wf q.2 hwfq] at hc
          rcases mem_joinSep_data (" ") q.2 c hc with hm | ⟨t, htm, hcm⟩
          · have : c = ' ' := by simpa using hm
            subst this
            decide
          · rw [wfTokens, List.all_eq_true] at hwfq
            exact char_not_ws_ne_newline c
              ((wfToken_spec t (hwfq t htm)).2.1 c hcm)
  rw [parse_txt, pySplitlines_joinSep _ hlines]
  have := parse_blocks blocks hb ⟨none, [], []⟩ (Or.inl rfl)
  rw [this]
  rfl

/-- The staff-line entries of one rendered measure block, in ascending
staff-id order. -/
def blockPairs (inner : List (Int × List String)) : List (Int × List String) :=
  (pySorted (fun a b => a < b) (inner.map (·.1))).map
    (fun sid => (sid, (dget? inner sid).getD []))

/-- The rendered measure blocks of a `by_measure` dictionary, in ascending
measure order. -/
def blocksOfBM (bm : List (Int × List (Int × List String))) :
    List (Int × List (Int × List String)) :=
  (pySorted (fun a b => a < b) (bm.map (·.1))).map
    (fun mi => (mi, blockPairs ((dget? bm mi).getD [])))

theorem renderMeasureBlock_eq (mi : Int) (inner : List (Int × List String)) :
    renderMeasureBlock mi inner =
      ("# Measure " ++ renderInt (mi + 1)) ::
        (blockPairs inner).map (fun q => renderStaffLine q.1 q.2) := by
  rw [renderMeasureBlock, blockPairs, List.map_map]
  rfl

theorem export_txt_eq (score : Score) :
    (export_mscx_to_txt score).2 =
      joinSep ("\n")
        ((blocksOfBM (byMeasureOfScore (add_rests_to_empty_measures score))).flatMap
          (fun b => ("# Measure " ++ renderInt (b.1 + 1)) ::
            b.2.map (fun q => renderStaffLine q.1 q.2))) := by
  rw [export_mscx_to_txt]
  dsimp only
  congr 1
  rw [blocksOfBM, List.flatMap_map]
  congr 1
  funext mi
  exact renderMeasureBlock_eq mi _

theorem dget?_isSome_of_mem_keys {α β : Type} [DecidableEq α] (d : List (α × β)) (k : α)
    (h : k ∈ d.map (·.1)) : ∃ v, dget? d k = some v := by
  cases hd : dget? d k with
  | none => exact absurd ((dget?_eq_none_iff d k).1 hd) (by simpa using h)
  | some v => exact ⟨v, rfl⟩

theorem mem_keys_of_dget? {α β : Type} [DecidableEq α] (d : List (α × β)) (k : α) (v : β)
    (h : dget? d k = some v) : k ∈ d.map (·.1) := by
  by_contra hcon
  rw [← dget?_eq_none_iff] at hcon
  rw [h] at hcon
  cases hcon

theorem byMeasure_nice (score : Score) : NICEbm (byMeasureOfScore score) :=
  foldBM_nice score.staffs [] ⟨by simp, by simp, by simp⟩

theorem byMeasure_values (score : Score) (k sid : Int) (toks : List String)
    (h : dget2? (byMeasureOfScore score) k sid = some toks) :
    ∃ st ∈ score.staffs, st.id = sid ∧ ∃ v, voiceAt 0 st.measures k = some v ∧
      toks = exportVoiceTokens false false v := by
  rcases foldBM_values score.staffs [] k sid toks h with hgood | hbase
  · exact hgood
  · exact absurd hbase (by rw [dget2?]; simp [dget?])

theorem wf_voice_of_voiceAt (score : Score) (hwf : wfScore score = true) (st : LStaff)
    (hst : st ∈ score.staffs) (k : Int) (v : List VElem)
    (hva : voiceAt 0 st.measures k = some v) : wfVoice0 v = true := by
  obtain ⟨h1, _⟩ := wfScore_spec score hwf
  obtain ⟨m, hm, vs, hvs⟩ := voiceAt_mem st.measures 0 k v hva
  exact ((h1 st hst).2 m hm).2.2 v (by rw [hvs]; rfl)

theorem export_blocks_hb (score : Score) (hwf : wfScore score = true) :
    ∀ b ∈ blocksOfBM (byMeasureOfScore score), 0 ≤ b.1 ∧ b.2 ≠ [] ∧
      (b.2.map (·.1)).Nodup ∧ ∀ q ∈ b.2, 1 ≤ q.1 ∧ wfTokens q.2 = true := by
  intro b hb
  obtain ⟨hnodup, hnonneg, hinner⟩ := byMeasure_nice score
  rw [blocksOfBM, List.mem_map] at hb
  obtain ⟨mi, hmi, rfl⟩ := hb
  rw [mem_pySorted] at hmi
  obtain ⟨inner, hdg⟩ := dget?_isSome_of_mem_keys _ mi hmi
  have hmem : (mi, inner) ∈ byMeasureOfScore score := dget?_mem _ mi inner hdg
  obtain ⟨hine, hinodup⟩ := hinner (mi, inner) hmem
  refine ⟨hnonneg mi hmi, ?_, ?_, ?_⟩
  · rw [hdg]
    dsimp only
    rw [Option.getD_some, blockPairs]
    intro hcon
    rw [List.map_eq_nil_iff] at hcon
    have : inner.map (·.1) ≠ [] := by
      intro h2
      exact hine (by simpa using h2)
    rw [← List.length_eq_zero] at hcon
    rw [(pySorted_perm (fun a b => a < b) (inner.map (·.1))).length_eq] at hcon
    exact this (List.length_eq_zero.1 hcon)
  · rw [hdg]
    dsimp only
    rw [Option.getD_some, blockPairs, List.map_map]
    have : ((fun x => x.1) ∘ fun sid =>
        ((sid : Int), (dget? inner sid).getD ([] : List String))) = fun sid => sid := rfl
    rw [this]
    have := nodup_pySorted (fun a b => a < b) (inner.map (·.1)) hinodup
    simpa using this
  · intro q hq
    rw [hdg] at hq
    dsimp only at hq
    rw [Option.getD_some, blockPairs, List.mem_map] at hq
    obtain ⟨sid, hsid, rfl⟩ := hq
    rw [mem_pySorted] at hsid
    obtain ⟨toks, htoks⟩ := dget?_isSome_of_mem_keys inner sid hsid
    have hlook : dget2? (byMeasureOfScore score) mi sid = some toks := by
      rw [dget2?, hdg, Option.getD_some, htoks]
    obtain ⟨st, hst, rfl, v, hva, rfl⟩ := byMeasure_values score mi sid toks hlook
    obtain ⟨h1, _⟩ := wfScore_spec score hwf
    refine ⟨(h1 st hst).1, ?_⟩
    dsimp only
    rw [htoks, Option.getD_some]
    exact exportVoiceTokens_wf v false false (wf_voice_of_voiceAt score hwf st hst _ v hva)

theorem export_parse (score : Score) (hwf : wfScore score = true) :
    parse_txt (export_mscx_to_txt score).2 =
      (blocksOfBM (byMeasureOfScore score)).map (fun b => (b.1 + 1, b.2)) := by
  rw [export_txt_eq, add_rests_wf_id score hwf]
  exact parse_txt_blocks _ (export_blocks_hb score hwf)

theorem byM_eq (score : Score) (hwf : wfScore score = true) :
    blocksToByMeasure (parse_txt (export_mscx_to_txt score).2) =
      (blocksOfBM (byMeasureOfScore score)).map (fun b => (b.1 + 1, b.2)) := by
  rw [export_parse score hwf, blocksToByMeasure]
  have hkeys : (((blocksOfBM (byMeasureOfScore score)).map
      (fun b => (b.1 + 1, b.2))).map (·.1)).Nodup := by
    rw [List.map_map]
    obtain ⟨hnodup, _, _⟩ := byMeasure_nice score
    rw [blocksOfBM, List.map_map]
    have heq : ((fun x => x.1) ∘ (fun b : Int × List (Int × List String) => (b.1 + 1, b.2)))
        ∘ (fun mi => (mi, blockPairs ((dget? (byMeasureOfScore score) mi).getD []))) =
        fun mi => mi + 1 := rfl
    rw [heq]
    apply List.Nodup.map
    · intro a b hab
      have hab2 : a + 1 = b + 1 := hab
      omega
    · exact nodup_pySorted _ _ hnodup
  have := foldl_dinsert_fresh ((blocksOfBM (byMeasureOfScore score)).map
    (fun b => (b.1 + 1, b.2))) [] hkeys (by simp)
  simpa using this

theorem byM_lookup (score : Score) (hwf : wfScore score = true) (st : LStaff)
    (hst : st ∈ score.staffs) (k : Int) (v : List VElem)
    (hva : voiceAt 0 st.measures k = some v) :
    dget2? (blocksToByMeasure (parse_txt (export_mscx_to_txt score).2)) (k + 1) st.id =
      some (exportVoiceTokens false false v) := by
  obtain ⟨hnodup, _, hinner⟩ := byMeasure_nice score
  have hlook0 := foldBM_lookup score.staffs [] (wfScore_spec score hwf).2 st hst k v hva
  have hlook : dget2? (byMeasureOfScore score) k st.id =
      some (exportVoiceTokens false false v) := hlook0
  rw [dget2?] at hlook
  cases hbmk : dget? (byMeasureOfScore score) k with
  | none =>
    rw [hbmk] at hlook
    exact absurd hlook (by simp [dget?])
  | some inner =>
    rw [hbmk, Option.getD_some] at hlook
    have hkmem : k ∈ (byMeasureOfScore score).map (·.1) :=
      mem_keys_of_dget? _ k inner hbmk
    have hsidmem : st.id ∈ inner.map (·.1) :=
      mem_keys_of_dget? inner st.id _ hlook
    have hinodup := (hinner (k, inner) (dget?_mem _ k inner hbmk)).2
    rw [dget2?, byM_eq score hwf]
    have hbmem : ((k + 1, blockPairs inner) :
        Int × List (Int × List String)) ∈
        (blocksOfBM (byMeasureOfScore score)).map (fun b => (b.1 + 1, b.2)) := by
      rw [List.mem_map]
      refine ⟨(k, blockPairs inner), ?_, rfl⟩
      rw [blocksOfBM, List.mem_map]
      refine ⟨k, (mem_pySorted _ _ k).2 hkmem, ?_⟩
      rw [hbmk, Option.getD_some]
    have hkeys : (((blocksOfBM (byMeasureOfScore score)).map
        (fun b => (b.1 + 1, b.2))).map (·.1)).Nodup := by
      rw [List.map_map, blocksOfBM, List.map_map]
      apply List.Nodup.map
      · intro a b hab
        have hab2 : a + 1 = b + 1 := hab
        omega
      · exact nodup_pySorted _ _ hnodup
    rw [dget?_of_mem_nodup _ (k + 1) (blockPairs inner) hbmem hkeys, Option.getD_some]
    have hqmem : ((st.id, exportVoiceTokens false false v) : Int × List String) ∈
        blockPairs inner := by
      rw [blockPairs, List.mem_map]
      refine ⟨st.id, (mem_pySorted _ _ st.id).2 hsidmem, ?_⟩
      rw [hlook, Option.getD_some]
    have hbknodup : ((blockPairs inner).map (·.1)).Nodup := by
      rw [blockPairs, List.map_map]
      have heq : ((fun x => x.1) ∘ (fun sid =>
          ((sid : Int), (dget? inner sid).getD ([] : List String)))) = fun sid => sid := rfl
      rw [heq]
      have := nodup_pySorted (fun a b => a < b) (inner.map (·.1)) hinodup
      simpa using this
    exact dget?_of_mem_nodup _ st.id _ hqmem hbknodup

theorem byM_values_wf (score : Score) (hwf : wfScore score = true) (K sid : Int)
    (toks : List String)
    (h : dget2? (blocksToByMeasure (parse_txt (export_mscx_to_txt score).2)) K sid =
      some toks) : wfTokens toks = true := by
  rw [dget2?, byM_eq score hwf] at h
  cases hK : dget? ((blocksOfBM (byMeasureOfScore score)).map (fun b => (b.1 + 1, b.2))) K with
  | none =>
    rw [hK] at h
    exact absurd h (by simp [dget?])
  | some bp =>
    rw [hK, Option.getD_some] at h
    have hmem := dget?_mem _ K bp hK
    rw [List.mem_map] at hmem
    obtain ⟨b, hbm, hbe⟩ := hmem
    have hq := dget?_mem bp sid toks h
    have hbp : bp = b.2 := by
      have := congrArg Prod.snd hbe
      exact this.symm
    rw [hbp] at hq
    exact ((export_blocks_hb score hwf b hbm).2.2.2 (sid, toks) hq).2

theorem voiceAt_append (m : LMeasure) (rest : List LMeasure) :
    ∀ (pre : List LMeasure) (mi0 : Int),
    voiceAt mi0 (pre ++ m :: rest) (mi0 + pre.length) =
      match m.voices with
      | [] => none
      | v :: _ => some v := by
  intro pre
  induction pre with
  | nil =>
    intro mi0
    rw [List.nil_append, voiceAt, if_pos (by simp)]
  | cons p pre ih =>
    intro mi0
    rw [List.cons_append, voiceAt, if_neg (by simp; omega)]
    have harith : mi0 + ((p :: pre).length : Int) = (mi0 + 1) + pre.length := by
      simp
      omega
    rw [harith]
    exact ih (mi0 + 1)

theorem importMeasure_rt (score : Score) (hwf : wfScore score = true) (st : LStaff)
    (hst : st ∈ score.staffs) (k : Int) (m : LMeasure) (v0 : List VElem)
    (vs : List (List VElem)) (hmv : m.voices = v0 :: vs)
    (hva : voiceAt 0 st.measures k = some v0) :
    importMeasure (blocksToByMeasure (parse_txt (export_mscx_to_txt score).2)) st.id
      (k + 1) m =
      ⟨importVoiceWalk false false ((exportVoiceTokens false false v0).map slotSyl)
        v0 :: vs⟩ := by
  have hl := byM_lookup score hwf st hst k v0 hva
  rw [dget2?] at hl
  cases hbk : dget? (blocksToByMeasure (parse_txt (export_mscx_to_txt score).2))
      (k + 1) with
  | none =>
    rw [hbk] at hl
    exact absurd hl (by simp [dget?])
  | some staffLines =>
    rw [hbk, Option.getD_some] at hl
    rw [importMeasure, hbk]
    dsimp only
    rw [hl]
    dsimp only
    have hk1 : k + 1 - 1 = k := by omega
    rw [hk1]
    have hfc : last_token_ends_with_hyphen
        ((dget? ((dget? (blocksToByMeasure
          (parse_txt (export_mscx_to_txt score).2)) k).getD []) st.id).getD []) =
        false := by
      cases hprev : dget? ((dget? (blocksToByMeasure
          (parse_txt (export_mscx_to_txt score).2)) k).getD []) st.id with
      | none => rfl
      | some ptoks =>
        rw [Option.getD_some]
        exact last_token_hyphen_wf ptoks (byM_values_wf score hwf k st.id ptoks hprev)
    rw [hfc]
    have hwft : wfTokens (exportVoiceTokens false false v0) = true :=
      exportVoiceTokens_wf v0 false false (wf_voice_of_voiceAt score hwf st hst k v0 hva)
    rw [tokens_to_syllables_wf _ hwft, hmv]

theorem importMeasures_rt (score : Score) (hwf : wfScore score = true) (st : LStaff)
    (hst : st ∈ score.staffs) :
    ∀ (suffix pre : List LMeasure), st.measures = pre ++ suffix →
    importMeasures (blocksToByMeasure (parse_txt (export_mscx_to_txt score).2)) st.id
      ((pre.length : Int) + 1) suffix =
      suffix.map (fun m =>
        match m.voices with
        | [] => m
        | v0 :: vs =>
            ⟨importVoiceWalk false false ((exportVoiceTokens false false v0).map slotSyl)
              v0 :: vs⟩) := by
  intro suffix
  induction suffix with
  | nil => intro pre _; rfl
  | cons m rest ih =>
    intro pre hms
    have hmmem : m ∈ st.measures := by
      rw [hms]
      exact List.mem_append_right pre (List.mem_cons_self m rest)
    obtain ⟨hvne, _, _⟩ := ((wfScore_spec score hwf).1 st hst).2 m hmmem
    cases hmv : m.voices with
    | nil => exact absurd hmv hvne
    | cons v0 vs =>
      rw [importMeasures, List.map_cons]
      have hva : voiceAt 0 st.measures (pre.length : Int) = some v0 := by
        have := voiceAt_append m rest pre 0
        rw [← hms] at this
        rw [hmv] at this
        have h0 : (0 : Int) + (pre.length : Int) = (pre.length : Int) := by omega
        rw [h0] at this
        exact this
      rw [importMeasure_rt score hwf st hst (pre.length : Int) m v0 vs hmv hva]
      have htl : ((pre.length : Int) + 1) + 1 = (((pre ++ [m]).length : Int) + 1) := by
        simp
      rw [htl, ih (pre ++ [m]) (by rw [hms]; simp)]
      rw [hmv]

theorem otherElemT_match (el : VElem) :
    (match el with
     | VElem.chord c => VElem.chord (sweepChord (remove_verse2_plus_chord c))
     | e => e) = otherElemT el := by
  cases el <;> rfl

theorem import_export_rt (score : Score) (hwf : wfScore score = true) :
    import_txt_into_mscx score (export_mscx_to_txt score).2 = round_trip_spec score := by
  rw [import_txt_into_mscx, add_rests_wf_id score hwf, import_by_measure,
    mapChords, round_trip_spec]
  congr 1
  rw [List.map_map]
  apply List.map_congr_left
  intro st hst
  have hims := importMeasures_rt score hwf st hst st.measures [] rfl
  simp only [List.length_nil, Nat.cast_zero, zero_add] at hims
  dsimp only [Function.comp]
  rw [hims, List.map_map]
  congr 1
  apply List.map_congr_left
  intro m hm
  dsimp only [Function.comp]
  obtain ⟨hvne, _, hv0wf⟩ := ((wfScore_spec score hwf).1 st hst).2 m hm
  cases hmv : m.voices with
  | nil => exact absurd hmv hvne
  | cons v0 vs =>
    dsimp only
    rw [List.map_cons]
    have hhead : (importVoiceWalk false false
        ((exportVoiceTokens false false v0).map slotSyl) v0).map (fun el =>
          match el with
          | VElem.chord c => VElem.chord (sweepChord (remove_verse2_plus_chord c))
          | e => e) = roundVoice0 false false v0 := by
      rw [List.map_congr_left (fun el _ => otherElemT_match el)]
      exact importVoiceWalk_roundtrip v0 false false
        (hv0wf v0 (by rw [hmv]; rfl))
    have htail : vs.map (fun v => v.map (fun el =>
          match el with
          | VElem.chord c => VElem.chord (sweepChord (remove_verse2_plus_chord c))
          | e => e)) = vs.map (List.map otherElemT) := by
      apply List.map_congr_left
      intro v _
      exact List.map_congr_left (fun el _ => otherElemT_match el)
    rw [hhead, htail]

def c1w : Score :=
  ⟨[⟨1, [⟨[[VElem.chord ⟨[], [⟨none, some ("single"), some ("la")⟩]⟩,
            VElem.rest (some ("quarter"))],
           [VElem.rest none]]⟩]⟩]⟩

end lyric_txt

/-- **C1, amended.**  On a well-formed score — positive staff ids, distinct ids
among the measure-bearing staffs, every measure holding at least one voice,
every voice holding a Chord or Rest, and every first-voice chord carrying only
verse-1 lyrics whose syllabic child is `single` and whose text is a plain word
— importing the text produced by export reproduces the score up to the
intended normalisation: every lyric-eligible first-voice chord keeps its
verse-1 `(syllabic, text)` pair as its sole lyric, every other first-voice
chord is left without lyrics, and the remaining voices keep their elements
with verse-2+ lyrics removed and continuation chords cleared. -/
theorem c1_amended (score : lyric_txt.Score)
    (hwf : lyric_txt.wfScore score = true) :
    lyric_txt.import_txt_into_mscx score (lyric_txt.export_mscx_to_txt score).2 =
      lyric_txt.round_trip_spec score :=
  lyric_txt.import_export_rt score hwf

/-- C1 witness: a concrete one-staff, one-measure, two-voice score meeting the
well-formedness side conditions, on which the amended round trip evaluates. -/
theorem c1_witness :
    lyric_txt.wfScore lyric_txt.c1w = true ∧
    lyric_txt.import_txt_into_mscx lyric_txt.c1w
        (lyric_txt.export_mscx_to_txt lyric_txt.c1w).2 =
      lyric_txt.round_trip_spec lyric_txt.c1w :=
  ⟨by decide, c1_amended lyric_txt.c1w (by decide)⟩
